import Mathlib

/-!
# AutoLedger: a vehicle ledger secured by proof-of-work

A shallow embedding of the Go program (package `main` under `DS Code/`, with
`Blockchain`, `AddBlock`, `Iterator`, `Next` and `NewBlockchain` from the
top-level `main.go`), and theorems about it.

Conventions of the embedding.

* A Go `[]byte` and a Go `string` are both a list of bytes (`Bytes`); a `nil`
  slice and an empty slice are the same list.
* `int` and `int64` are `Int`; the places where the 64-bit range matters carry
  it as an explicit condition.
* `time.Now().Unix()` is an input of the functions that read the clock.
* The three library packages the program relies on are modelled here:
  `encoding/gob` (section `Gob`: the wire format of the struct types the
  program encodes), `crypto/sha256` (section `SHA256`, FIPS 180-4) and
  `strconv` (decimal rendering).  `bolt` is modelled as one bucket, a finite
  map from keys to values; its limits on the size of a key (32768 bytes) and of
  a value (2^31 - 2 bytes) are not modelled, so `Put` of a key that is not empty
  always succeeds.
* `encoding/gob` numbers Go types in the order a process first meets them, and
  the number is part of the encoding.  The numbering is the parameter `reg`.
-/

set_option autoImplicit false

/-- One octet. -/
abbrev Byte := Fin 256

/-- A Go byte slice, also used for Go strings. -/
abbrev Bytes := List Byte

/-- The octet holding `n` modulo 256. -/
def byte (n : Nat) : Byte := ⟨n % 256, Nat.mod_lt _ (by decide)⟩

/-- The bytes of an ASCII literal. -/
def ascii (s : String) : Bytes := s.toList.map fun c => byte c.toNat

/-- Fixed-width big-endian rendering: the low `n` bytes of `x`, high byte first. -/
def beBytes : Nat → Nat → Bytes
  | 0, _ => []
  | n + 1, x => byte (x >>> (8 * n)) :: beBytes n x

/-- Big-endian reading of a byte string as an unsigned integer
(`big.Int.SetBytes`, `binary.BigEndian`). -/
def beNat (bs : Bytes) : Nat := bs.foldl (fun acc b => acc * 256 + b.val) 0

/-! ## `encoding/gob`

The wire format, from the package documentation.  A stream is a sequence of
messages, each preceded by its length.  A message is either a type definition
(a negated type id followed by a `wireType` value) or a value (a type id
followed by the value).  An encoder created for one `Encode` call sends the
definition of the struct type, then the definitions of the slice types of its
fields, then the value.

Modelled: structs whose fields are `int`/`int64`, `[]byte`, `string`,
`[]string` or `[][]byte`, which covers every type the program encodes.
Not modelled: the 8 GB limit on the length of one message, and streams that
define other shapes of type (maps, arrays, nested structs), which the decoder
of this model rejects.
-/

namespace Gob

/-- Number of bytes of a `uint64` without its leading zero bytes
(`8 - bits.LeadingZeros64(x) >> 3`, at least 1 here). -/
def byteLen (x : Nat) : Nat :=
  if x < 2 ^ 8 then 1 else if x < 2 ^ 16 then 2 else if x < 2 ^ 24 then 3
  else if x < 2 ^ 32 then 4 else if x < 2 ^ 40 then 5 else if x < 2 ^ 48 then 6
  else if x < 2 ^ 56 then 7 else 8

/-- An unsigned integer: one byte below 128, otherwise the negated byte count
followed by the minimal big-endian bytes. -/
def encodeUint (x : Nat) : Bytes :=
  if x ≤ 0x7f then [byte x] else byte (256 - byteLen x) :: beBytes (byteLen x) x

/-- A signed integer inside an unsigned one: bit 0 says whether to complement. -/
def encodeInt (i : Int) : Bytes :=
  encodeUint (if i < 0 then 2 * (-i - 1).toNat + 1 else 2 * i.toNat)

/-- A string or byte slice: the count, then the bytes. -/
def encodeBytes (b : Bytes) : Bytes := encodeUint b.length ++ b

/-- A decoder reads a value off the front of the input and returns the rest. -/
abbrev Decoder (α : Type) := Bytes → Option (α × Bytes)

/-- Inverse of `encodeUint`; a byte count above 8 is an error. -/
def decodeUint : Decoder Nat
  | [] => none
  | b :: rest =>
    if b.val ≤ 0x7f then some (b.val, rest)
    else if 8 < 256 - b.val then none
    else if rest.length < 256 - b.val then none
    else some (beNat (rest.take (256 - b.val)), rest.drop (256 - b.val))

/-- Inverse of `encodeInt`. -/
def decodeInt : Decoder Int := fun bs =>
  match decodeUint bs with
  | none => none
  | some (u, rest) =>
    some (if u % 2 = 1 then -((u / 2 : Nat) : Int) - 1 else ((u / 2 : Nat) : Int), rest)

/-- Inverse of `encodeBytes`; a count beyond the input is an error. -/
def decodeBytes : Decoder Bytes := fun bs =>
  match decodeUint bs with
  | none => none
  | some (n, rest) => if rest.length < n then none else some (rest.take n, rest.drop n)

/-- Run a decoder `n` times. -/
def decodeMany {α : Type} (d : Decoder α) : Nat → Decoder (List α)
  | 0, bs => some ([], bs)
  | n + 1, bs =>
    match d bs with
    | none => none
    | some (a, rest) =>
      match decodeMany d n rest with
      | none => none
      | some (as, rest2) => some (a :: as, rest2)

/-- The Go types of the fields the program encodes. -/
inductive Kind
  | int
  | bytes
  | string
  | strings
  | byteSlices
  deriving DecidableEq

/-- A field value; `bytes` carries a `[]byte` or a `string`, `list` a `[]string`
or a `[][]byte`. -/
inductive Value
  | int (i : Int)
  | bytes (b : Bytes)
  | list (l : List Bytes)
  deriving DecidableEq

/-- The zero value of a kind: what a field holds before anything is decoded
into it. -/
def Kind.zero : Kind → Value
  | .int => .int 0
  | .bytes => .bytes []
  | .string => .bytes []
  | .strings => .list []
  | .byteSlices => .list []

/-- Fields holding the zero value are not transmitted. -/
def Value.isZero : Value → Bool
  | .int i => i == 0
  | .bytes b => b.isEmpty
  | .list l => l.isEmpty

/-- Encoding of a field value; the elements of a slice are always sent. -/
def encodeValue : Value → Bytes
  | .int i => encodeInt i
  | .bytes b => encodeBytes b
  | .list l => encodeUint l.length ++ (l.map encodeBytes).flatten

/-- The Go types that get a type id from the registry of the process. -/
inductive GoType
  | genesis
  | VehicleRegistration
  | VehicleSale
  | LoanContract
  | blockRecord
  | stringSlice
  | byteSliceSlice
  deriving DecidableEq

/-- The type ids the process-wide registry of `encoding/gob` has given to the
program's types: ids above 64 (`firstUserId`), distinct, within `int32`. -/
structure Registry where
  id : GoType → Nat
  user : ∀ t, 64 < id t
  small : ∀ t, id t < 2 ^ 31
  distinct : ∀ s t, id s = id t → s = t

/-- A struct type as the encoder sees it: its name and its fields in order. -/
structure StructType where
  name : Bytes
  fields : List (Bytes × Kind)

/-- The type id a field of the given kind is announced with: the predefined ids
of `int` (2), `[]byte` (5) and `string` (6), or the registry's id of the slice
type. -/
def Kind.wireId (reg : Registry) : Kind → Nat
  | .int => 2
  | .bytes => 5
  | .string => 6
  | .strings => reg.id .stringSlice
  | .byteSlices => reg.id .byteSliceSlice

/-- A struct with fields `Name` and `Id` (`CommonType`, `fieldType`), delta
encoded, zero fields left out, closed by a zero delta. -/
def encodeNameId (name : Bytes) (id : Int) : Bytes :=
  (if name.isEmpty then [] else byte 1 :: encodeBytes name) ++
  (if id == 0 then [] else byte (if name.isEmpty then 2 else 1) :: encodeInt id) ++
  [byte 0]

/-- The `wireType` describing a struct: field 2 (`StructT`) holds a
`structType`, that is a `CommonType` and the slice of `fieldType`. -/
def encodeStructDef (reg : Registry) (tid : Nat) (t : StructType) : Bytes :=
  [byte 3, byte 1] ++ encodeNameId t.name tid ++
  (if t.fields.isEmpty then []
   else byte 1 :: encodeUint t.fields.length ++
     (t.fields.map fun f => encodeNameId f.1 (f.2.wireId reg)).flatten) ++
  [byte 0, byte 0]

/-- The `wireType` describing a slice: field 1 (`SliceT`) holds a `sliceType`,
that is a `CommonType` and the element's type id.  The type of a struct field
that has no name of its own is sent under its Go type expression
(`newTypeObject`: `tname = t.String()`). -/
def encodeSliceDef (name : Bytes) (tid : Nat) (elem : Nat) : Bytes :=
  [byte 2, byte 1] ++ encodeNameId name tid ++
  (if elem == 0 then [] else byte 1 :: encodeInt elem) ++
  [byte 0, byte 0]

/-- A message: its length, then its bytes. -/
def message (body : Bytes) : Bytes := encodeUint body.length ++ body

/-- The definitions of the slice types among the fields, in field order, each
sent once. -/
def sliceDefs (reg : Registry) : List Kind → Bool → Bool → Bytes
  | [], _, _ => []
  | .strings :: ks, false, b =>
    message (encodeInt (-(reg.id .stringSlice : Int)) ++
      encodeSliceDef (ascii "[]string") (reg.id .stringSlice) 6) ++
      sliceDefs reg ks true b
  | .byteSlices :: ks, s, false =>
    message (encodeInt (-(reg.id .byteSliceSlice : Int)) ++
      encodeSliceDef (ascii "[][]uint8") (reg.id .byteSliceSlice) 5) ++ sliceDefs reg ks s true
  | _ :: ks, s, b => sliceDefs reg ks s b

/-- The fields of a struct value from field number `i` on, `sent` being one more
than the number of the last field sent: each non-zero field as the delta of its
number and its value, then the zero delta. -/
def encodeFields : Nat → Nat → List Value → Bytes
  | _, _, [] => [byte 0]
  | i, sent, v :: vs =>
    if v.isZero then encodeFields (i + 1) sent vs
    else encodeUint (i + 1 - sent) ++ encodeValue v ++ encodeFields (i + 1) (i + 1) vs

/-- What `gob.NewEncoder(&buf).Encode(v)` writes for a struct `v` of type `t`
with type id `tid` and field values `vs`. -/
def encode (reg : Registry) (tid : Nat) (t : StructType) (vs : List Value) : Bytes :=
  message (encodeInt (-(tid : Int)) ++ encodeStructDef reg tid t) ++
  sliceDefs reg (t.fields.map Prod.snd) false false ++
  message (encodeInt tid ++ encodeFields 0 0 vs)

/-! ### Decoding -/

/-- A type received in a definition message: the names and type ids of a
struct's fields, or the element type id of a slice. -/
inductive WireType
  | structT (fields : List (Bytes × Int))
  | sliceT (elem : Int)
  deriving DecidableEq

/-- The field delta inside a struct value; the end of the input also ends the
struct (`for state.b.Len() > 0`). -/
def decodeDelta : Decoder Nat
  | [] => some (0, [])
  | bs => decodeUint bs

/-- Inverse of `encodeNameId`: a struct with fields `Name` (0) and `Id` (1). -/
def decodeNameId : Decoder (Bytes × Int) := fun bs =>
  match decodeDelta bs with
  | some (0, r) => some (([], 0), r)
  | some (1, r) =>
    match decodeBytes r with
    | none => none
    | some (name, r) =>
      match decodeDelta r with
      | some (0, r) => some ((name, 0), r)
      | some (1, r) =>
        match decodeInt r with
        | none => none
        | some (id, r) =>
          match decodeDelta r with
          | some (0, r) => some ((name, id), r)
          | _ => none
      | _ => none
  | some (2, r) =>
    match decodeInt r with
    | none => none
    | some (id, r) =>
      match decodeDelta r with
      | some (0, r) => some (([], id), r)
      | _ => none
  | _ => none

/-- The slice of `fieldType` of a `structType`, then the end of the struct. -/
def decodeFieldTypes : Decoder (List (Bytes × Int)) := fun bs =>
  match decodeUint bs with
  | none => none
  | some (n, r) =>
    match decodeMany decodeNameId n r with
    | none => none
    | some (fs, r) =>
      match decodeDelta r with
      | some (0, r) => some (fs, r)
      | _ => none

/-- A `structType`: `CommonType` (0), `Field` (1). -/
def decodeStructType : Decoder (List (Bytes × Int)) := fun bs =>
  match decodeDelta bs with
  | some (0, r) => some ([], r)
  | some (1, r) =>
    match decodeNameId r with
    | none => none
    | some (_, r) =>
      match decodeDelta r with
      | some (0, r) => some ([], r)
      | some (1, r) => decodeFieldTypes r
      | _ => none
  | some (2, r) => decodeFieldTypes r
  | _ => none

/-- The element id of a `sliceType`, then the end of the struct. -/
def decodeElem : Decoder Int := fun bs =>
  match decodeInt bs with
  | none => none
  | some (e, r) =>
    match decodeDelta r with
    | some (0, r) => some (e, r)
    | _ => none

/-- A `sliceType`: `CommonType` (0), `Elem` (1). -/
def decodeSliceType : Decoder Int := fun bs =>
  match decodeDelta bs with
  | some (0, r) => some (0, r)
  | some (1, r) =>
    match decodeNameId r with
    | none => none
    | some (_, r) =>
      match decodeDelta r with
      | some (0, r) => some (0, r)
      | some (1, r) => decodeElem r
      | _ => none
  | some (2, r) => decodeElem r
  | _ => none

/-- A `wireType` holding a `SliceT` (field 1) or a `StructT` (field 2). -/
def decodeWireType : Decoder WireType := fun bs =>
  match decodeDelta bs with
  | some (2, r) =>
    match decodeSliceType r with
    | none => none
    | some (e, r) =>
      match decodeDelta r with
      | some (0, r) => some (.sliceT e, r)
      | _ => none
  | some (3, r) =>
    match decodeStructType r with
    | none => none
    | some (fs, r) =>
      match decodeDelta r with
      | some (0, r) => some (.structT fs, r)
      | _ => none
  | _ => none

/-- Inverse of `message`: the next message and the rest of the stream. -/
def readMessage : Decoder Bytes := decodeBytes

/-- The types a decoder has received so far, by id. -/
abbrev Table := List (Nat × WireType)

/-- Read messages up to the first one that carries a value
(`decodeTypeSequence`): every type definition met on the way is recorded; its
id must be a user id not yet defined, and nothing may follow it in its
message.  Returns the id of the value, the rest of its message, and the table. -/
def decodeTypeSequence : Nat → Table → Bytes → Option (Nat × Bytes × Table)
  | 0, _, _ => none
  | fuel + 1, table, data =>
    match readMessage data with
    | none => none
    | some (msg, rest) =>
      match decodeInt msg with
      | none => none
      | some (id, body) =>
        if 0 ≤ id then some (id.toNat, body, table)
        else if (-id).toNat < 64 ∨ (table.lookup (-id).toNat).isSome then none
        else
          match decodeWireType body with
          | some (wt, []) => decodeTypeSequence fuel (((-id).toNat, wt) :: table) rest
          | _ => none

/-- How the value of a received field is laid out. -/
inductive Shape
  | int
  | bytes
  | list
  deriving DecidableEq

/-- The layout of a value of wire type `w`. -/
def shapeOf (table : Table) (w : Int) : Option Shape :=
  if w = 2 then some .int
  else if w = 5 ∨ w = 6 then some .bytes
  else if w < 0 then none
  else
    match table.lookup w.toNat with
    | some (.sliceT e) => if e = 5 ∨ e = 6 then some .list else none
    | _ => none

/-- Read a value of the given layout. -/
def decodeShape : Shape → Decoder Value
  | .int, bs => (decodeInt bs).map fun p => (.int p.1, p.2)
  | .bytes, bs => (decodeBytes bs).map fun p => (.bytes p.1, p.2)
  | .list, bs =>
    match decodeUint bs with
    | none => none
    | some (n, r) => (decodeMany decodeBytes n r).map fun p => (.list p.1, p.2)

/-- Whether a local field of kind `k` can receive a value of wire type `w`
(`compatibleType`). -/
def compatible (table : Table) (k : Kind) (w : Int) : Bool :=
  match k with
  | .int => w == 2
  | .bytes => w == 5
  | .string => w == 6
  | .strings =>
    if w < 0 then false
    else match table.lookup w.toNat with
      | some (.sliceT e) => e == 6
      | _ => false
  | .byteSlices =>
    if w < 0 then false
    else match table.lookup w.toNat with
      | some (.sliceT e) => e == 5
      | _ => false

/-- Position and kind of the local field called `name`. -/
def findField (name : Bytes) : List (Bytes × Kind) → Nat → Option (Nat × Kind)
  | [], _ => none
  | (n, k) :: fs, i => if n = name then some (i, k) else findField name fs (i + 1)

/-- One decoding instruction per received field (`compileDec`): the layout of
its value, and the local field of the same name that receives it, if any.  A
received field without a name, or whose type does not fit the local field of
its name, is an error. -/
def compile (table : Table) (t : StructType) :
    List (Bytes × Int) → Option (List (Option Nat × Shape))
  | [] => some []
  | (name, w) :: rest =>
    if name.isEmpty then none
    else
      match shapeOf table w, compile table t rest with
      | some shape, some instrs =>
        match findField name t.fields 0 with
        | none => some ((none, shape) :: instrs)
        | some (i, k) => if compatible table k w then some ((some i, shape) :: instrs) else none
      | _, _ => none

/-- The loop of `decodeStruct`: read a delta, stop at zero or at the end of the
input, else read the field it leads to and store it; `next` is one more than the
number of the last field read. -/
def decodeFields (instrs : List (Option Nat × Shape)) :
    Nat → Nat → List Value → Bytes → Option (List Value)
  | 0, _, _, _ => none
  | fuel + 1, next, acc, bs =>
    match decodeDelta bs with
    | none => none
    | some (0, _) => some acc
    | some (delta + 1, r) =>
      match instrs.get? (next + delta) with
      | none => none
      | some (target, shape) =>
        match decodeShape shape r with
        | none => none
        | some (v, r) =>
          decodeFields instrs fuel (next + delta + 1)
            (match target with
              | some i => acc.set i v
              | none => acc) r

/-- What `gob.NewDecoder(r).Decode(&v)` stores in the fields of a zero struct
`v` of type `t`, or `none` when it returns an error.  Fields the stream does
not send keep their zero value; a stream whose struct shares no field name with
`t` is an error. -/
def decode (t : StructType) (data : Bytes) : Option (List Value) :=
  match decodeTypeSequence data.length [] data with
  | none => none
  | some (id, body, table) =>
    match table.lookup id with
    | some (.structT wf) =>
      match compile table t wf with
      | none => none
      | some instrs =>
        if (instrs.all fun i => i.1.isNone) && !t.fields.isEmpty && !wf.isEmpty then none
        else decodeFields instrs (instrs.length + 1) 0 (t.fields.map fun f => f.2.zero) body
    | _ => none

/-- Whether `gob.NewDecoder(r).Decode(nil)` succeeds: the next value is read
according to its received type and thrown away. -/
def discard (data : Bytes) : Bool :=
  match decodeTypeSequence data.length [] data with
  | none => false
  | some (id, body, table) =>
    match table.lookup id with
    | some (.structT wf) =>
      match compile table ⟨[], []⟩ wf with
      | none => false
      | some instrs => (decodeFields instrs (instrs.length + 1) 0 [] body).isSome
    | _ =>
      match shapeOf table id, decodeUint body with
      | some shape, some (0, r) => (decodeShape shape r).isSome
      | _, _ => false

end Gob

/-! ## Transactions (`transaction.go`) -/

structure VehicleRegistration where
  VIN : Bytes
  Owner : Bytes
  RegistrationDate : Int
  deriving DecidableEq

structure VehicleSale where
  VIN : Bytes
  Dealer : Bytes
  Buyer : Bytes
  SaleDate : Int
  Price : Int
  deriving DecidableEq

structure LoanContract where
  VIN : Bytes
  Borrower : Bytes
  Lender : Bytes
  LoanAmount : Int
  StartDate : Int
  EndDate : Int
  deriving DecidableEq

structure genesis where
  VIN : Bytes
  deriving DecidableEq

/-- A non-nil value of the interface `Transaction`: a pointer to one of the four
struct types that implement it. -/
inductive Transaction
  | registration (tx : VehicleRegistration)
  | sale (tx : VehicleSale)
  | loan (tx : LoanContract)
  | genesis (tx : genesis)
  deriving DecidableEq

/-- The struct type `VehicleRegistration` as `encoding/gob` sees it. -/
def VehicleRegistration.gobType : Gob.StructType :=
  ⟨ascii "VehicleRegistration",
    [(ascii "VIN", .string), (ascii "Owner", .bytes), (ascii "RegistrationDate", .int)]⟩

/-- The struct type `VehicleSale` as `encoding/gob` sees it. -/
def VehicleSale.gobType : Gob.StructType :=
  ⟨ascii "VehicleSale",
    [(ascii "VIN", .string), (ascii "Dealer", .bytes), (ascii "Buyer", .bytes),
      (ascii "SaleDate", .int), (ascii "Price", .int)]⟩

/-- The struct type `LoanContract` as `encoding/gob` sees it. -/
def LoanContract.gobType : Gob.StructType :=
  ⟨ascii "LoanContract",
    [(ascii "VIN", .string), (ascii "Borrower", .bytes), (ascii "Lender", .bytes),
      (ascii "LoanAmount", .int), (ascii "StartDate", .int), (ascii "EndDate", .int)]⟩

/-- The struct type `genesis` as `encoding/gob` sees it. -/
def genesis.gobType : Gob.StructType := ⟨ascii "genesis", [(ascii "VIN", .string)]⟩

/-- `func (vr *VehicleRegistration) Serialize() []byte`. -/
def VehicleRegistration.Serialize (reg : Gob.Registry) (vr : VehicleRegistration) : Bytes :=
  Gob.encode reg (reg.id .VehicleRegistration) VehicleRegistration.gobType
    [.bytes vr.VIN, .bytes vr.Owner, .int vr.RegistrationDate]

/-- `func (vr *VehicleSale) Serialize() []byte`. -/
def VehicleSale.Serialize (reg : Gob.Registry) (vr : VehicleSale) : Bytes :=
  Gob.encode reg (reg.id .VehicleSale) VehicleSale.gobType
    [.bytes vr.VIN, .bytes vr.Dealer, .bytes vr.Buyer, .int vr.SaleDate, .int vr.Price]

/-- `func (vr *LoanContract) Serialize() []byte`. -/
def LoanContract.Serialize (reg : Gob.Registry) (vr : LoanContract) : Bytes :=
  Gob.encode reg (reg.id .LoanContract) LoanContract.gobType
    [.bytes vr.VIN, .bytes vr.Borrower, .bytes vr.Lender, .int vr.LoanAmount,
      .int vr.StartDate, .int vr.EndDate]

/-- `func (vr *genesis) Serialize() []byte`. -/
def genesis.Serialize (reg : Gob.Registry) (vr : genesis) : Bytes :=
  Gob.encode reg (reg.id .genesis) genesis.gobType [.bytes vr.VIN]

/-- The method `Serialize` of the interface, dispatched on the dynamic type. -/
def Transaction.Serialize (reg : Gob.Registry) : Transaction → Bytes
  | .registration tx => tx.Serialize reg
  | .sale tx => tx.Serialize reg
  | .loan tx => tx.Serialize reg
  | .genesis tx => tx.Serialize reg

/-- `reflect.TypeOf(tx).Elem().Name()`: the kind tag of a transaction. -/
def Transaction.typeName : Transaction → Bytes
  | .registration _ => ascii "VehicleRegistration"
  | .sale _ => ascii "VehicleSale"
  | .loan _ => ascii "LoanContract"
  | .genesis _ => ascii "genesis"

/-- `gob.NewDecoder(r).Decode(&VehicleRegistration{})`. -/
def VehicleRegistration.decode (data : Bytes) : Option VehicleRegistration :=
  match Gob.decode VehicleRegistration.gobType data with
  | some [.bytes vin, .bytes owner, .int date] => some ⟨vin, owner, date⟩
  | _ => none

/-- `gob.NewDecoder(r).Decode(&VehicleSale{})`. -/
def VehicleSale.decode (data : Bytes) : Option VehicleSale :=
  match Gob.decode VehicleSale.gobType data with
  | some [.bytes vin, .bytes dealer, .bytes buyer, .int date, .int price] =>
    some ⟨vin, dealer, buyer, date, price⟩
  | _ => none

/-- `gob.NewDecoder(r).Decode(&LoanContract{})`. -/
def LoanContract.decode (data : Bytes) : Option LoanContract :=
  match Gob.decode LoanContract.gobType data with
  | some [.bytes vin, .bytes borrower, .bytes lender, .int amount, .int start, .int stop] =>
    some ⟨vin, borrower, lender, amount, start, stop⟩
  | _ => none

/-- `gob.NewDecoder(r).Decode(&genesis{})`. -/
def genesis.decode (data : Bytes) : Option genesis :=
  match Gob.decode genesis.gobType data with
  | some [.bytes vin] => some ⟨vin⟩
  | _ => none

/-- One turn of the loop of `DeserializeBlock`: pick the struct named by the
kind tag and decode the payload into it.  The outer `none` is a decoding error.
`some none` is the case of an unknown tag: the `switch` leaves `tx` a nil
interface, `Decode(nil)` reads the payload and throws it away, and the slot
of the block holds nil. -/
def decodeTransaction (txType : Bytes) (txData : Bytes) : Option (Option Transaction) :=
  if txType = ascii "VehicleRegistration" then
    (VehicleRegistration.decode txData).map fun tx => some (.registration tx)
  else if txType = ascii "VehicleSale" then
    (VehicleSale.decode txData).map fun tx => some (.sale tx)
  else if txType = ascii "LoanContract" then
    (LoanContract.decode txData).map fun tx => some (.loan tx)
  else if txType = ascii "genesis" then
    (genesis.decode txData).map fun tx => some (.genesis tx)
  else if Gob.discard txData then some none
  else none

/-! ## `crypto/sha256` (FIPS 180-4) -/

namespace SHA256

/-- The round constants. -/
def K : List Nat := [
  0x428a2f98, 0x71374491, 0xb5c0fbcf, 0xe9b5dba5, 0x3956c25b, 0x59f111f1, 0x923f82a4, 0xab1c5ed5,
  0xd807aa98, 0x12835b01, 0x243185be, 0x550c7dc3, 0x72be5d74, 0x80deb1fe, 0x9bdc06a7, 0xc19bf174,
  0xe49b69c1, 0xefbe4786, 0x0fc19dc6, 0x240ca1cc, 0x2de92c6f, 0x4a7484aa, 0x5cb0a9dc, 0x76f988da,
  0x983e5152, 0xa831c66d, 0xb00327c8, 0xbf597fc7, 0xc6e00bf3, 0xd5a79147, 0x06ca6351, 0x14292967,
  0x27b70a85, 0x2e1b2138, 0x4d2c6dfc, 0x53380d13, 0x650a7354, 0x766a0abb, 0x81c2c92e, 0x92722c85,
  0xa2bfe8a1, 0xa81a664b, 0xc24b8b70, 0xc76c51a3, 0xd192e819, 0xd6990624, 0xf40e3585, 0x106aa070,
  0x19a4c116, 0x1e376c08, 0x2748774c, 0x34b0bcb5, 0x391c0cb3, 0x4ed8aa4a, 0x5b9cca4f, 0x682e6ff3,
  0x748f82ee, 0x78a5636f, 0x84c87814, 0x8cc70208, 0x90befffa, 0xa4506ceb, 0xbef9a3f7, 0xc67178f2]

/-- The eight working words. -/
structure State where
  a : Nat
  b : Nat
  c : Nat
  d : Nat
  e : Nat
  f : Nat
  g : Nat
  h : Nat

/-- The initial hash value. -/
def H0 : State :=
  ⟨0x6a09e667, 0xbb67ae85, 0x3c6ef372, 0xa54ff53a, 0x510e527f, 0x9b05688c, 0x1f83d9ab, 0x5be0cd19⟩

def rotr (x n : Nat) : Nat := ((x >>> n) ||| (x <<< (32 - n))) % 2 ^ 32

def add32 (x y : Nat) : Nat := (x + y) % 2 ^ 32

def smallSigma0 (x : Nat) : Nat := rotr x 7 ^^^ rotr x 18 ^^^ (x >>> 3)

def smallSigma1 (x : Nat) : Nat := rotr x 17 ^^^ rotr x 19 ^^^ (x >>> 10)

def bigSigma0 (x : Nat) : Nat := rotr x 2 ^^^ rotr x 13 ^^^ rotr x 22

def bigSigma1 (x : Nat) : Nat := rotr x 6 ^^^ rotr x 11 ^^^ rotr x 25

def ch (x y z : Nat) : Nat := (x &&& y) ^^^ ((x ^^^ (2 ^ 32 - 1)) &&& z)

def maj (x y z : Nat) : Nat := (x &&& y) ^^^ (x &&& z) ^^^ (y &&& z)

/-- The schedule word that follows a window of sixteen. -/
def nextW (w : List Nat) : Nat :=
  add32 (add32 (smallSigma1 (w.getD 14 0)) (w.getD 9 0))
    (add32 (smallSigma0 (w.getD 1 0)) (w.getD 0 0))

/-- The first `n` words of the message schedule that starts with the window `w`. -/
def schedule : Nat → List Nat → List Nat
  | 0, _ => []
  | n + 1, w => w.getD 0 0 :: schedule n (w.drop 1 ++ [nextW w])

/-- One round, for the constant `kw.1` and the schedule word `kw.2`. -/
def round (s : State) (kw : Nat × Nat) : State :=
  let t1 := add32 (add32 (add32 (add32 s.h (bigSigma1 s.e)) (ch s.e s.f s.g)) kw.1) kw.2
  let t2 := add32 (bigSigma0 s.a) (maj s.a s.b s.c)
  ⟨add32 t1 t2, s.a, s.b, s.c, add32 s.d t1, s.e, s.f, s.g⟩

/-- The first `n` big-endian 32-bit words of a byte string. -/
def words : Nat → Bytes → List Nat
  | 0, _ => []
  | n + 1, bs => beNat (bs.take 4) :: words n (bs.drop 4)

/-- The compression function on one 64-byte block. -/
def compress (h : State) (block : Bytes) : State :=
  let s := (K.zip (schedule 64 (words 16 block))).foldl round h
  ⟨add32 h.a s.a, add32 h.b s.b, add32 h.c s.c, add32 h.d s.d,
    add32 h.e s.e, add32 h.f s.f, add32 h.g s.g, add32 h.h s.h⟩

/-- The message, a one bit, zero bits up to 56 modulo 64 bytes, and the length
of the message in bits as a 64-bit integer. -/
def pad (msg : Bytes) : Bytes :=
  msg ++ [byte 0x80] ++ List.replicate ((119 - msg.length % 64) % 64) (byte 0) ++
    beBytes 8 (8 * msg.length)

/-- Compress `n` blocks in turn. -/
def blocks : Nat → State → Bytes → State
  | 0, h, _ => h
  | n + 1, h, bs => blocks n (compress h (bs.take 64)) (bs.drop 64)

/-- `sha256.Sum256`. -/
def Sum256 (msg : Bytes) : Bytes :=
  let s := blocks ((pad msg).length / 64) H0 (pad msg)
  beBytes 4 s.a ++ beBytes 4 s.b ++ beBytes 4 s.c ++ beBytes 4 s.d ++
    beBytes 4 s.e ++ beBytes 4 s.f ++ beBytes 4 s.g ++ beBytes 4 s.h

end SHA256

/-! ## `strconv` -/

/-- The decimal digits of `n` in front of `acc`. -/
def decimalDigits : Nat → Nat → Bytes → Bytes
  | 0, _, acc => acc
  | fuel + 1, n, acc =>
    if n < 10 then byte (48 + n) :: acc
    else decimalDigits fuel (n / 10) (byte (48 + n % 10) :: acc)

/-- `strconv.FormatInt(i, 10)`: a minus sign for a negative number, then the
decimal digits of the magnitude without leading zeros. -/
def FormatInt (i : Int) : Bytes :=
  if i < 0 then byte 45 :: decimalDigits (i.natAbs + 1) i.natAbs []
  else decimalDigits (i.natAbs + 1) i.natAbs []

/-- `strconv.Itoa`. -/
def Itoa (i : Int) : Bytes := FormatInt i

/-- The number a string of decimal digits stands for. -/
def parseDecimal (ds : Bytes) : Nat := ds.foldl (fun acc b => acc * 10 + (b.val - 48)) 0

/-- The integer a decimal rendering with an optional minus sign stands for. -/
def ParseInt : Bytes → Int
  | [] => 0
  | b :: ds => if b.val = 45 then -(parseDecimal ds : Int) else (parseDecimal (b :: ds) : Int)

/-! ## Blocks and proof of work (`blockchain.go`, `proof_of_work.go`) -/

structure Block where
  Timestamp : Int
  Transaction_types : List Bytes
  Transactions : List Transaction
  PrevBlockHash : Bytes
  Hash : Bytes
  Nonce : Int
  deriving DecidableEq

def targetBits : Nat := 12

/-- `math.MaxInt64`. -/
def maxNonce : Int := 2 ^ 63 - 1

/-- ProofOfWork represents a proof-of-work. -/
structure ProofOfWork where
  block : Block
  target : Nat
  deriving DecidableEq

/-- NewProofOfWork builds and returns a ProofOfWork. -/
def NewProofOfWork (b : Block) : ProofOfWork := ⟨b, 1 <<< (256 - targetBits)⟩

/-- `func (b *Block) prepareData() []byte`: `headers` grows by one `append` at a
time. -/
def Block.prepareData (reg : Gob.Registry) (b : Block) : Bytes :=
  b.Transactions.foldl (fun headers tx => headers ++ tx.Serialize reg)
    ((([] ++ b.PrevBlockHash) ++ FormatInt b.Timestamp) ++ Itoa b.Nonce)

/-- The loop of `Run`, for at most `fuel` more turns: while the nonce is below
`maxNonce`, hash the prepared data; stop if the digest is below the target, else
step the nonce.  `hash` is the digest of the turn before. -/
def runLoop (reg : Gob.Registry) (target : Nat) : Nat → Block → Bytes → Bytes × Block
  | 0, b, hash => (hash, b)
  | fuel + 1, b, hash =>
    if b.Nonce < maxNonce then
      if beNat (SHA256.Sum256 (b.prepareData reg)) < target then
        (SHA256.Sum256 (b.prepareData reg), b)
      else
        runLoop reg target fuel { b with Nonce := b.Nonce + 1 } (SHA256.Sum256 (b.prepareData reg))
    else (hash, b)

/-- Run performs a proof-of-work: the returned hash, and the block with the
nonce the loop left in it.  The nonce starts at 0 and the loop makes at most
`maxNonce` turns, so the fuel never runs out before the loop condition fails. -/
def ProofOfWork.Run (reg : Gob.Registry) (pow : ProofOfWork) : Bytes × Block :=
  runLoop reg pow.target maxNonce.toNat { pow.block with Nonce := 0 }
    (List.replicate 32 (byte 0))

/-- Validate validates block's PoW. -/
def ProofOfWork.Validate (reg : Gob.Registry) (pow : ProofOfWork) : Bool :=
  decide (beNat (SHA256.Sum256 (pow.block.prepareData reg)) < pow.target)

/-- `NewBlock`, the clock reading `now`. -/
def NewBlock (reg : Gob.Registry) (now : Int) (transactions : List Transaction)
    (prevBlockHash : Bytes) : Block :=
  let block : Block := ⟨now, [], transactions, prevBlockHash, [], 0⟩
  let pow := NewProofOfWork block
  let res := pow.Run reg
  { res.2 with Hash := res.1, Transaction_types := transactions.map Transaction.typeName }

/-- `NewGenesisBlock`. -/
def NewGenesisBlock (reg : Gob.Registry) (now : Int) : Block :=
  NewBlock reg now [.genesis ⟨ascii "GENESIS BLOCK"⟩] []

/-! ## The encoded form of a block (`blockchain.go`) -/

/-- How a Go function ends: it returns a value, it returns an error, or it
panics. -/
inductive Outcome (α : Type)
  | ok (a : α)
  | error (msg : String)
  | panic
  deriving DecidableEq

/-- The anonymous struct `tempBlock` of `Serialize` and `DeserializeBlock` as
`encoding/gob` sees it. -/
def blockRecord : Gob.StructType :=
  ⟨[], [(ascii "Timestamp", .int), (ascii "Transaction_types", .strings),
    (ascii "Transactions", .byteSlices), (ascii "PrevBlockHash", .bytes),
    (ascii "Hash", .bytes), (ascii "Nonce", .int)]⟩

/-- `func (b *Block) Serialize() []byte`. -/
def Block.Serialize (reg : Gob.Registry) (b : Block) : Bytes :=
  Gob.encode reg (reg.id .blockRecord) blockRecord
    [.int b.Timestamp, .list b.Transaction_types,
      .list (b.Transactions.map fun tx => tx.Serialize reg),
      .bytes b.PrevBlockHash, .bytes b.Hash, .int b.Nonce]

/-- A `*Block` as `DeserializeBlock` builds it: a slot of `Transactions` holds
the nil interface when its kind tag was unknown. -/
structure DecodedBlock where
  Timestamp : Int
  Transaction_types : List Bytes
  Transactions : List (Option Transaction)
  PrevBlockHash : Bytes
  Hash : Bytes
  Nonce : Int
  deriving DecidableEq

/-- A block all of whose slots hold a transaction. -/
def Block.decoded (b : Block) : DecodedBlock :=
  ⟨b.Timestamp, b.Transaction_types, b.Transactions.map some, b.PrevBlockHash, b.Hash, b.Nonce⟩

/-- The loop of `DeserializeBlock` over the payloads: payload `i` is decoded
under tag `i`; indexing the tags past their end panics, a payload that does not
decode returns the error. -/
def decodeTransactions : List Bytes → List Bytes → Outcome (List (Option Transaction))
  | _, [] => .ok []
  | [], _ :: _ => .panic
  | txType :: types, txData :: payloads =>
    match decodeTransaction txType txData with
    | none => .error "failed to decode transaction"
    | some tx =>
      match decodeTransactions types payloads with
      | .ok txs => .ok (tx :: txs)
      | .error msg => .error msg
      | .panic => .panic

/-- `DeserializeBlock`. -/
def DeserializeBlock (data : Bytes) : Outcome DecodedBlock :=
  match Gob.decode blockRecord data with
  | some [.int timestamp, .list types, .list payloads, .bytes prev, .bytes hash, .int nonce] =>
    match decodeTransactions types payloads with
    | .ok txs => .ok ⟨timestamp, types, txs, prev, hash, nonce⟩
    | .error msg => .error msg
    | .panic => .panic
  | _ => .error "failed to decode block"

/-! ## The chain in its bucket (`main.go`) -/

/-- The bucket `blocks` of the database: its entries, at most one per key. -/
structure Bucket where
  entries : List (Bytes × Bytes)
  deriving DecidableEq

/-- `b.Get(key)`: the value stored under the key, nil when there is none. -/
def Bucket.Get (b : Bucket) (key : Bytes) : Bytes := (b.entries.lookup key).getD []

/-- `b.Put(key, value)` for a key that is not empty: the entry replaces the one
of the same key. -/
def Bucket.Put (b : Bucket) (key value : Bytes) : Bucket :=
  ⟨(key, value) :: b.entries.filter fun e => e.1 != key⟩

/-- Blockchain keeps a sequence of Blocks. -/
structure Blockchain where
  tip : Bytes
  db : Bucket
  deriving DecidableEq

structure BlockchainIterator where
  currentHash : Bytes
  db : Bucket
  deriving DecidableEq

/-- The key of the tip pointer. -/
def tipKey : Bytes := ascii "l"

/-- AddBlock saves provided data as a block in the blockchain; `now` is the clock
reading of `NewBlock`. -/
def Blockchain.AddBlock (reg : Gob.Registry) (now : Int) (bc : Blockchain)
    (t : List Transaction) : Blockchain :=
  let lastHash := bc.db.Get tipKey
  let newBlock := NewBlock reg now t lastHash
  ⟨newBlock.Hash, (bc.db.Put newBlock.Hash (newBlock.Serialize reg)).Put tipKey newBlock.Hash⟩

def Blockchain.Iterator (bc : Blockchain) : BlockchainIterator := ⟨bc.tip, bc.db⟩

/-- Next returns next block starting from the tip.  The error of
`DeserializeBlock` is dropped, so when the entry is missing or does not decode
the block is nil and reading its `PrevBlockHash` panics. -/
def BlockchainIterator.Next (i : BlockchainIterator) :
    Outcome (DecodedBlock × BlockchainIterator) :=
  match DeserializeBlock (i.db.Get i.currentHash) with
  | .ok block => .ok (block, { i with currentHash := block.PrevBlockHash })
  | _ => .panic

/-- NewBlockchain creates a new Blockchain with genesis Block.  `db` is the
bucket `blocks` if the database has one. -/
def NewBlockchain (reg : Gob.Registry) (now : Int) (db : Option Bucket) : Blockchain :=
  match db with
  | none =>
    let genesis := NewGenesisBlock reg now
    ⟨genesis.Hash, ((Bucket.mk []).Put genesis.Hash (genesis.Serialize reg)).Put tipKey genesis.Hash⟩
  | some b => ⟨b.Get tipKey, b⟩

/-! ## Queries (`utils.go`) -/

/-- The inner loop of `FindLatestOwnerByVIN` over the transactions in the order
given: the first registration or sale of `vin` names the owner. -/
def ownerIn (vin : Bytes) : List (Option Transaction) → Option Bytes
  | [] => none
  | some (.registration tx) :: rest => if tx.VIN = vin then some tx.Owner else ownerIn vin rest
  | some (.sale tx) :: rest => if tx.VIN = vin then some tx.Buyer else ownerIn vin rest
  | _ :: rest => ownerIn vin rest

/-- The outer loop of `FindLatestOwnerByVIN`, for at most `fuel` blocks; `none`
when the fuel runs out.  The transactions of a block are visited from the last
to the first. -/
def findOwnerLoop (vin : Bytes) : Nat → BlockchainIterator → Option (Outcome Bytes)
  | 0, _ => none
  | fuel + 1, bci =>
    match bci.Next with
    | .ok (block, bci2) =>
      match ownerIn vin block.Transactions.reverse with
      | some owner => some (.ok owner)
      | none =>
        if block.PrevBlockHash.length = 0 then some (.error "vehicle not found")
        else findOwnerLoop vin fuel bci2
    | _ => some .panic

/-- `FindLatestOwnerByVIN`. -/
def Blockchain.FindLatestOwnerByVIN (bc : Blockchain) (vin : Bytes) (fuel : Nat) :
    Option (Outcome Bytes) :=
  findOwnerLoop vin fuel bc.Iterator

structure CLI where
  bc : Blockchain
  deriving DecidableEq

/-- The inner loop of `hasActiveLoan`: whether some loan contract of `vin` ends
after `currentTime`. -/
def activeLoanIn (vin : Bytes) (currentTime : Int) : List (Option Transaction) → Bool
  | [] => false
  | some (.loan tx) :: rest =>
    if tx.VIN = vin then
      if tx.EndDate > currentTime then true else activeLoanIn vin currentTime rest
    else activeLoanIn vin currentTime rest
  | _ :: rest => activeLoanIn vin currentTime rest

/-- The outer loop of `hasActiveLoan`, for at most `fuel` blocks; `none` when the
fuel runs out. -/
def activeLoanLoop (vin : Bytes) (currentTime : Int) :
    Nat → BlockchainIterator → Option (Outcome Bool)
  | 0, _ => none
  | fuel + 1, bci =>
    match bci.Next with
    | .ok (block, bci2) =>
      if activeLoanIn vin currentTime block.Transactions then some (.ok true)
      else if block.PrevBlockHash.length = 0 then some (.ok false)
      else activeLoanLoop vin currentTime fuel bci2
    | _ => some .panic

/-- `hasActiveLoan`, the clock reading `currentTime`. -/
def CLI.hasActiveLoan (cli : CLI) (currentTime : Int) (vin : Bytes) (fuel : Nat) :
    Option (Outcome Bool) :=
  activeLoanLoop vin currentTime fuel cli.bc.Iterator

/-! ## Confirmed blocks and the sale path (`message.go`, `cli.go`) -/

/-- The check `Put` of `bolt` makes before it stores: the key is not empty and
not longer than 32768 bytes, the value not longer than 2^31 - 2 bytes; `none`
when `Put` returns an error. -/
def Bucket.tryPut (b : Bucket) (key value : Bytes) : Option Bucket :=
  if key.length = 0 ∨ 32768 < key.length ∨ 2 ^ 31 - 2 < value.length then none
  else some (b.Put key value)

/-- The transactions in the slots of a decoded block, when no slot is nil. -/
def filledSlots : List (Option Transaction) → Option (List Transaction)
  | [] => some []
  | none :: _ => none
  | some tx :: rest => (filledSlots rest).map fun txs => tx :: txs

/-- The block a decoded block is when none of its transactions is nil. -/
def DecodedBlock.toBlock (d : DecodedBlock) : Option Block :=
  (filledSlots d.Transactions).map fun txs =>
    ⟨d.Timestamp, d.Transaction_types, txs, d.PrevBlockHash, d.Hash, d.Nonce⟩

/-- `handleBlockCreationConfirmation` (`message.go`), as it acts on the chain.
`data` is what `base64.StdEncoding.DecodeString(content)` returned, `none` for an
error.  The function returns without a change when the content or the block
does not decode; `block.Serialize()` panics on a nil transaction; an error of
`Put` ends the update without a change and the function panics. -/
def handleBlockCreationConfirmation (reg : Gob.Registry) (bc : Blockchain)
    (data : Option Bytes) : Outcome Blockchain :=
  match data with
  | none => .ok bc
  | some data =>
    match DeserializeBlock data with
    | .error _ => .ok bc
    | .panic => .panic
    | .ok block =>
      match block.toBlock with
      | none => .panic
      | some b =>
        match bc.db.tryPut block.Hash (b.Serialize reg) with
        | none => .panic
        | some db1 =>
          match db1.tryPut tipKey block.Hash with
          | none => .panic
          | some db2 => .ok ⟨block.Hash, db2⟩

/-- `addVehicleSale` (`cli.go`) after the flags are parsed: the chain it leaves
and how it ends, `error` standing for `os.Exit(1)` after the message.  `date` is
the Unix time `time.Parse` gave for the `-date` flag, `none` for an error;
`currentTime` is the clock reading of `hasActiveLoan`, `now` that of
`NewBlock`; `none` when the fuel of a query runs out. -/
def CLI.addVehicleSale (reg : Gob.Registry) (now currentTime : Int) (cli : CLI)
    (vin dealer buyer : Bytes) (date : Option Int) (price : Int) (fuel : Nat) :
    Option (Blockchain × Outcome Unit) :=
  if vin = [] then some (cli.bc, .error "A valid VIN is required.")
  else if dealer = [] ∨ buyer = [] then
    some (cli.bc, .error "Both dealer and buyer identifiers are required.")
  else if price ≤ 0 then some (cli.bc, .error "Sale price must be greater than 0.")
  else
    match date with
    | none => some (cli.bc, .panic)
    | some saleDate =>
      match cli.bc.FindLatestOwnerByVIN vin fuel with
      | none => none
      | some .panic => some (cli.bc, .panic)
      | some (.error _) =>
        some (cli.bc, .error "Error: Could not find the vehicle with the specified VIN.")
      | some (.ok currentOwner) =>
        if currentOwner ≠ dealer then
          some (cli.bc, .error "Error: The dealer is not the current owner of the vehicle.")
        else
          match cli.hasActiveLoan currentTime vin fuel with
          | none => none
          | some (.ok true) =>
            some (cli.bc, .error
              "Error: The vehicle is currently under an active loan and cannot be sold.")
          | some (.ok false) =>
            some (cli.bc.AddBlock reg now [.sale ⟨vin, dealer, buyer, saleDate, price⟩], .ok ())
          | some _ => some (cli.bc, .panic)

/-! ## Vocabulary of the statements -/

/-- A 64-bit signed integer. -/
def isInt64 (i : Int) : Prop := -2 ^ 63 ≤ i ∧ i < 2 ^ 63

instance (i : Int) : Decidable (isInt64 i) := by unfold isInt64; infer_instance

namespace Gob

/-- The layout a value is sent in. -/
def Value.shape : Value → Shape
  | .int _ => .int
  | .bytes _ => .bytes
  | .list _ => .list

/-- The layout of the values of a kind. -/
def Kind.shape : Kind → Shape
  | .int => .int
  | .bytes => .bytes
  | .string => .bytes
  | .strings => .list
  | .byteSlices => .list

/-- The kinds whose type id is predefined. -/
def Kind.isBasic : Kind → Bool
  | .int => true
  | .bytes => true
  | .string => true
  | _ => false

/-- Whether a value is of the Go type of a field of the given kind. -/
def Value.hasKind : Value → Kind → Bool
  | .int _, .int => true
  | .bytes _, .bytes => true
  | .bytes _, .string => true
  | .list _, .strings => true
  | .list _, .byteSlices => true
  | _, _ => false

/-- The integers among the values are 64-bit. -/
def Value.InRange : Value → Prop
  | .int i => isInt64 i
  | _ => True

/-- A measure of the room a value takes: one for the value and for each element,
plus the number of its bytes. -/
def Value.size : Value → Nat
  | .int _ => 1
  | .bytes b => 1 + b.length
  | .list l => 1 + (l.map fun b => 1 + b.length).sum

/-- The fields of a struct type as its definition message announces them. -/
def StructType.wire (reg : Registry) (t : StructType) : List (Bytes × Int) :=
  t.fields.map fun f => (f.1, ((f.2.wireId reg : Nat) : Int))

/-- A struct type `encoding/gob` can send field by field: at least one field,
field names distinct and not empty, and names of a moderate total length. -/
structure StructType.Valid (t : StructType) : Prop where
  fields_ne : t.fields ≠ []
  nodup : (t.fields.map Prod.fst).Nodup
  named : ∀ f ∈ t.fields, f.1 ≠ []
  small : t.name.length + (t.fields.map fun f => 1 + f.1.length).sum < 2 ^ 32

/-- Field values that fit the fields of a struct type one by one. -/
def StructType.Holds (t : StructType) (vs : List Value) : Prop :=
  List.Forall₂ (fun v f => v.hasKind f.2 = true) vs t.fields

end Gob

/-- The types a decoder has received after the three definitions that precede an
encoded block. -/
def Gob.blockTable (reg : Gob.Registry) : Gob.Table :=
  [(reg.id .byteSliceSlice, .sliceT 5), (reg.id .stringSlice, .sliceT 6),
    (reg.id .blockRecord, .structT (blockRecord.wire reg))]

/-- A transaction a 64-bit Go program can hold and `encoding/gob` can send in
one message: its integers are 64-bit and each of its strings and byte slices is
shorter than 2^31 bytes (which keeps the message under the limit of 2^33
bytes). -/
def Transaction.WellFormed : Transaction → Prop
  | .registration tx =>
    tx.VIN.length < 2 ^ 31 ∧ tx.Owner.length < 2 ^ 31 ∧ isInt64 tx.RegistrationDate
  | .sale tx =>
    tx.VIN.length < 2 ^ 31 ∧ tx.Dealer.length < 2 ^ 31 ∧ tx.Buyer.length < 2 ^ 31 ∧
      isInt64 tx.SaleDate ∧ isInt64 tx.Price
  | .loan tx =>
    tx.VIN.length < 2 ^ 31 ∧ tx.Borrower.length < 2 ^ 31 ∧ tx.Lender.length < 2 ^ 31 ∧
      isInt64 tx.LoanAmount ∧ isInt64 tx.StartDate ∧ isInt64 tx.EndDate
  | .genesis tx => tx.VIN.length < 2 ^ 31

instance (tx : Transaction) : Decidable tx.WellFormed := by
  cases tx <;> unfold Transaction.WellFormed <;> infer_instance

/-- A block a 64-bit Go program can hold and `encoding/gob` can send, with kind
tags that name its transactions: 64-bit timestamp and nonce, well-formed
transactions, fewer than 2^20 of them, hashes shorter than 2^31 bytes. -/
structure Block.WellFormed (b : Block) : Prop where
  timestamp : isInt64 b.Timestamp
  nonce : isInt64 b.Nonce
  types : b.Transaction_types = b.Transactions.map Transaction.typeName
  transactions : ∀ tx ∈ b.Transactions, tx.WellFormed
  count : b.Transactions.length < 2 ^ 20
  prev : b.PrevBlockHash.length < 2 ^ 31
  hash : b.Hash.length < 2 ^ 31

/-- The digest of the prepared data of `b`, read as a big-endian integer, is
below `target`. -/
def meets (reg : Gob.Registry) (target : Nat) (b : Block) : Prop :=
  beNat (SHA256.Sum256 (b.prepareData reg)) < target

instance (reg : Gob.Registry) (target : Nat) (b : Block) : Decidable (meets reg target b) := by
  unfold meets; infer_instance

/-! ## Chains and what the queries are to compute -/

/-- Draining an iterator with `Next`, for at most `fuel` blocks: the blocks it
returns, newest first, up to and including the first block with an empty
`PrevBlockHash`.  `none` when `Next` panics or the fuel runs out first; a chain
is well formed when this succeeds. -/
def drain : Nat → BlockchainIterator → Option (List DecodedBlock)
  | 0, _ => none
  | fuel + 1, bci =>
    match bci.Next with
    | .ok (block, bci2) =>
      if block.PrevBlockHash.length = 0 then some [block]
      else (drain fuel bci2).map fun rest => block :: rest
    | _ => none

/-- The owner a single transaction names for `vin`: the `Owner` of a registration
of `vin`, the `Buyer` of a sale of `vin`, nothing for any other transaction. -/
def Transaction.ownerOf (vin : Bytes) : Transaction → Option Bytes
  | .registration tx => if tx.VIN = vin then some tx.Owner else none
  | .sale tx => if tx.VIN = vin then some tx.Buyer else none
  | .loan _ => none
  | .genesis _ => none

/-- The owner a slot of a block names for `vin`; a nil slot names none. -/
def slotOwner (vin : Bytes) (slot : Option Transaction) : Option Bytes :=
  slot.bind (Transaction.ownerOf vin)

/-- The transactions of a chain in the order of the walk from the tip to genesis,
each block from its last transaction to its first. -/
def walkOrder (blocks : List DecodedBlock) : List (Option Transaction) :=
  blocks.flatMap fun b => b.Transactions.reverse

/-- The transactions of a chain in the order they were recorded: oldest block
first, each block from its first transaction to its last. -/
def recordedOrder (blocks : List DecodedBlock) : List (Option Transaction) :=
  blocks.reverse.flatMap fun b => b.Transactions

/-- A loan contract of `vin` that ends after `asOf`. -/
def isActiveLoan (vin : Bytes) (asOf : Int) (slot : Option Transaction) : Prop :=
  ∃ l : LoanContract, slot = some (.loan l) ∧ l.VIN = vin ∧ asOf < l.EndDate

/-- How `FindLatestOwnerByVIN` ends for the first owner named on the walk: it
returns that owner, or the error when there is none. -/
def ownerResult : Option Bytes → Outcome Bytes
  | some owner => .ok owner
  | none => .error "vehicle not found"

/-- Bit `i` of a byte string, bit 0 being the most significant bit of the first
byte. -/
def bitAt (bs : Bytes) (i : Nat) : Bool := (bs.getD (i / 8) (byte 0)).val.testBit (7 - i % 8)

/-- The hash of the newest block of a list of blocks, newest first. -/
def tipOf : List Block → Bytes
  | [] => []
  | b :: _ => b.Hash

/-- The blocks of a chain after the appends `steps`, newest first: each append,
a clock reading and a transaction list, builds its block with `NewBlock` on the
hash of the newest block before it. -/
def extendBlocks (reg : Gob.Registry) : List Block → List (Int × List Transaction) → List Block
  | bs, [] => bs
  | bs, s :: rest => extendBlocks reg (NewBlock reg s.1 s.2 (tipOf bs) :: bs) rest

/-- One `AddBlock` call for each append, in order. -/
def Blockchain.AddBlocks (reg : Gob.Registry) :
    Blockchain → List (Int × List Transaction) → Blockchain
  | bc, [] => bc
  | bc, s :: rest => Blockchain.AddBlocks reg (bc.AddBlock reg s.1 s.2) rest

/-- The chain `NewBlockchain` creates in an empty database at the clock reading
`now`, followed by the appends `steps`. -/
def chainOf (reg : Gob.Registry) (now : Int) (steps : List (Int × List Transaction)) :
    Blockchain :=
  (NewBlockchain reg now none).AddBlocks reg steps

/-- The blocks built for that chain, newest first. -/
def blocksOf (reg : Gob.Registry) (now : Int) (steps : List (Int × List Transaction)) :
    List Block :=
  extendBlocks reg [NewGenesisBlock reg now] steps

/-- The bucket of `bc` holds the blocks `bs`, newest first, as a chain: the tip
and the tip pointer are the hash of the newest, each block is stored under its
32-byte hash in a form that decodes to it, each block but the oldest names the
hash of the next, the oldest names none, and nothing is stored under the empty
key. -/
structure Stores (reg : Gob.Registry) (bc : Blockchain) (bs : List Block) : Prop where
  tip : bc.tip = tipOf bs
  pointer : bc.db.Get tipKey = tipOf bs
  stored : ∀ b ∈ bs, bc.db.Get b.Hash = b.Serialize reg
  decodes : ∀ b ∈ bs, DeserializeBlock (b.Serialize reg) = .ok b.decoded
  hashes : ∀ b ∈ bs, b.Hash.length = 32
  linked : List.Chain' (fun a b : Block => a.PrevBlockHash = b.Hash) bs
  oldest : ∀ b, bs.getLast? = some b → b.PrevBlockHash = []
  nonempty : bs ≠ []
  nothing : bc.db.Get [] = []

/-- The states of the chain the program reaches from an empty database:
`NewBlockchain` there, then any number of `AddBlock` calls, confirmations handled
and reopenings of the database, with any inputs. -/
inductive Reachable (reg : Gob.Registry) : Blockchain → Prop
  | create (now : Int) : Reachable reg (NewBlockchain reg now none)
  | reopen (bc : Blockchain) (now : Int) :
    Reachable reg bc → Reachable reg (NewBlockchain reg now (some bc.db))
  | add (bc : Blockchain) (now : Int) (t : List Transaction) :
    Reachable reg bc → Reachable reg (bc.AddBlock reg now t)
  | confirm (bc : Blockchain) (data : Option Bytes) (bc2 : Blockchain) :
    Reachable reg bc → handleBlockCreationConfirmation reg bc data = .ok bc2 → Reachable reg bc2

/-- A block `encoding/gob` can send in one message: 64-bit timestamp and nonce,
well-formed transactions, kind tags that begin with the names of the
transactions, an encoded form shorter than 2^33 bytes. -/
structure Block.Sendable (reg : Gob.Registry) (b : Block) : Prop where
  timestamp : isInt64 b.Timestamp
  nonce : isInt64 b.Nonce
  types : ∃ extra, b.Transaction_types = b.Transactions.map Transaction.typeName ++ extra
  transactions : ∀ tx ∈ b.Transactions, tx.WellFormed
  size : (b.Serialize reg).length < 2 ^ 33

/-- The states reached with inputs `encoding/gob` can send and no confirmed
block that names the key of the tip pointer as its hash: 64-bit clock readings,
well-formed transactions, appended blocks with an encoded form shorter than 2^33
bytes, and confirmations that carry the encoded form of a sendable block whose
`Hash` is not "l".  A confirmation that does not decode leaves the state as it
is. -/
inductive ReachableSound (reg : Gob.Registry) : Blockchain → Prop
  | create (now : Int) : isInt64 now → ReachableSound reg (NewBlockchain reg now none)
  | reopen (bc : Blockchain) (now : Int) :
    ReachableSound reg bc → ReachableSound reg (NewBlockchain reg now (some bc.db))
  | add (bc : Blockchain) (now : Int) (t : List Transaction) :
    ReachableSound reg bc → isInt64 now → (∀ tx ∈ t, tx.WellFormed) →
    ((NewBlock reg now t (bc.db.Get tipKey)).Serialize reg).length < 2 ^ 33 →
    ReachableSound reg (bc.AddBlock reg now t)
  | confirm (bc : Blockchain) (b : Block) (bc2 : Blockchain) :
    ReachableSound reg bc → b.Sendable reg → b.Hash ≠ tipKey →
    handleBlockCreationConfirmation reg bc (some (b.Serialize reg)) = .ok bc2 →
    ReachableSound reg bc2

/-! ## Example chains

One numbering of the types, and chains built under it.  The clock readings are
chosen so that nonce 0 seals each block. -/

/-- One numbering: the ids from 65 on, in the order in which a process that
creates the chain, registers a vehicle, records a loan and then a sale first
encodes the types. -/
def idsInOrder : Gob.GoType → Nat
  | .genesis => 65
  | .blockRecord => 66
  | .stringSlice => 67
  | .byteSliceSlice => 68
  | .VehicleRegistration => 69
  | .LoanContract => 70
  | .VehicleSale => 71

/-- The registry with that numbering. -/
def registryInOrder : Gob.Registry :=
  ⟨idsInOrder, by intro t; cases t <;> decide, by intro t; cases t <;> decide,
    by intro s t; cases s <;> cases t <;> decide⟩

/-- A chain created at 1700000885. -/
def freshChain : Blockchain := NewBlockchain registryInOrder 1700000885 none

/-- The fresh chain, then the registration of V1 to Alice, then the sale of V1
from Alice to Bob. -/
def ownershipChain : Blockchain :=
  ((freshChain.AddBlock registryInOrder 1700101011
      [.registration ⟨ascii "V1", ascii "Alice", 1600000000⟩]).AddBlock
    registryInOrder 1700209554 [.sale ⟨ascii "V1", ascii "Alice", ascii "Bob", 1650000000, 100⟩])

/-- The fresh chain, then the registration of V2 to Carl, then a loan on V2 that
ends at 1900000000. -/
def loanChain : Blockchain :=
  ((freshChain.AddBlock registryInOrder 1700102743
      [.registration ⟨ascii "V2", ascii "Carl", 1600000000⟩]).AddBlock
    registryInOrder 1700200059
      [.loan ⟨ascii "V2", ascii "Carl", ascii "Bank", 5000, 1600000000, 1900000000⟩])

/-- The loan chain, then a second loan on V2 that ended at 1600000000. -/
def loanChainPast : Blockchain :=
  loanChain.AddBlock registryInOrder 1700300874
    [.loan ⟨ascii "V2", ascii "Carl", ascii "Bank", 5000, 1500000000, 1600000000⟩]

/-- The blocks of the ownership chain, newest first. -/
def ownershipBlocks : List DecodedBlock :=
  [⟨1700209554, [ascii "VehicleSale"],
      [some (.sale ⟨ascii "V1", ascii "Alice", ascii "Bob", 1650000000, 100⟩)],
      beBytes 32 0x000847d9fcccbf0ec1065050675c7102019bd459dbe709e3b84a22249b5f5059,
      beBytes 32 0x000c25024b4df6c78d22dcf6776fbc0a391494a9dc8571053110d276ed093676, 0⟩,
    ⟨1700101011, [ascii "VehicleRegistration"],
      [some (.registration ⟨ascii "V1", ascii "Alice", 1600000000⟩)],
      beBytes 32 0x00075d1af2123a249981dcf498654d4935e7b8b286aefe700f2ae9654c91e55f,
      beBytes 32 0x000847d9fcccbf0ec1065050675c7102019bd459dbe709e3b84a22249b5f5059, 0⟩,
    ⟨1700000885, [ascii "genesis"], [some (.genesis ⟨ascii "GENESIS BLOCK"⟩)], [],
      beBytes 32 0x00075d1af2123a249981dcf498654d4935e7b8b286aefe700f2ae9654c91e55f, 0⟩]

/-- The blocks of the loan chain, newest first. -/
def loanBlocks : List DecodedBlock :=
  [⟨1700200059, [ascii "LoanContract"],
      [some (.loan ⟨ascii "V2", ascii "Carl", ascii "Bank", 5000, 1600000000, 1900000000⟩)],
      beBytes 32 0x000a3d5c2632778ebad2660274568750fff8cadd82a0d58eaf5aed369fe78f3f,
      beBytes 32 0x00020dc9a499df787415ff4eb4d414744fc22d482b07a07a38becfd3d8fe2562, 0⟩,
    ⟨1700102743, [ascii "VehicleRegistration"],
      [some (.registration ⟨ascii "V2", ascii "Carl", 1600000000⟩)],
      beBytes 32 0x00075d1af2123a249981dcf498654d4935e7b8b286aefe700f2ae9654c91e55f,
      beBytes 32 0x000a3d5c2632778ebad2660274568750fff8cadd82a0d58eaf5aed369fe78f3f, 0⟩,
    ⟨1700000885, [ascii "genesis"], [some (.genesis ⟨ascii "GENESIS BLOCK"⟩)], [],
      beBytes 32 0x00075d1af2123a249981dcf498654d4935e7b8b286aefe700f2ae9654c91e55f, 0⟩]

/-- A proof-of-work whose target no digest is below. -/
def exhaustedPow : ProofOfWork :=
  ⟨⟨1700000885, [], [.genesis ⟨ascii "GENESIS BLOCK"⟩], [], [], 0⟩, 0⟩

/-- The genesis block of the fresh chain with its kind tag replaced by "Bogus". -/
def bogusBlock : Block :=
  ⟨1700000885, [ascii "Bogus"], [.genesis ⟨ascii "GENESIS BLOCK"⟩], [],
    beBytes 32 0x00075d1af2123a249981dcf498654d4935e7b8b286aefe700f2ae9654c91e55f, 0⟩

/-- The genesis block of the fresh chain with a second kind tag and no second
transaction. -/
def surplusTagBlock : Block :=
  ⟨1700000885, [ascii "genesis", ascii "VehicleSale"], [.genesis ⟨ascii "GENESIS BLOCK"⟩], [],
    beBytes 32 0x00075d1af2123a249981dcf498654d4935e7b8b286aefe700f2ae9654c91e55f, 0⟩

/-- The genesis block of the fresh chain with another timestamp under the same
hash. -/
def restampedGenesis : Block :=
  ⟨1700002410, [ascii "genesis"], [.genesis ⟨ascii "GENESIS BLOCK"⟩], [],
    beBytes 32 0x00075d1af2123a249981dcf498654d4935e7b8b286aefe700f2ae9654c91e55f, 0⟩

/-- The genesis block of the fresh chain with the key of the tip pointer as its
hash. -/
def pointerNamedBlock : Block :=
  ⟨1700000885, [ascii "genesis"], [.genesis ⟨ascii "GENESIS BLOCK"⟩], [], ascii "l", 0⟩

/-- The block that registers V1 to Alice on the fresh chain, as a peer would
confirm it. -/
def registrationBlock : Block :=
  ⟨1700101011, [ascii "VehicleRegistration"],
    [.registration ⟨ascii "V1", ascii "Alice", 1600000000⟩],
    beBytes 32 0x00075d1af2123a249981dcf498654d4935e7b8b286aefe700f2ae9654c91e55f,
    beBytes 32 0x000847d9fcccbf0ec1065050675c7102019bd459dbe709e3b84a22249b5f5059, 0⟩

/-- The fresh chain after the confirmation of the genesis block restamped. -/
def overwrittenChain : Blockchain :=
  ⟨restampedGenesis.Hash,
    (freshChain.db.Put restampedGenesis.Hash (restampedGenesis.Serialize registryInOrder)).Put
      tipKey restampedGenesis.Hash⟩

/-- The fresh chain after the confirmation of the block named like the tip
pointer. -/
def pointerNamedChain : Blockchain :=
  ⟨tipKey, (freshChain.db.Put tipKey (pointerNamedBlock.Serialize registryInOrder)).Put tipKey
    tipKey⟩

/-- The genesis block of the example chains. -/
def genesisBlock : Block :=
  ⟨1700000885, [ascii "genesis"], [.genesis ⟨ascii "GENESIS BLOCK"⟩], [],
    beBytes 32 0x00075d1af2123a249981dcf498654d4935e7b8b286aefe700f2ae9654c91e55f, 0⟩

/-- The third block of the ownership chain: the sale of V1 to Bob. -/
def saleV1Block : Block :=
  ⟨1700209554, [ascii "VehicleSale"],
    [.sale ⟨ascii "V1", ascii "Alice", ascii "Bob", 1650000000, 100⟩],
    beBytes 32 0x000847d9fcccbf0ec1065050675c7102019bd459dbe709e3b84a22249b5f5059,
    beBytes 32 0x000c25024b4df6c78d22dcf6776fbc0a391494a9dc8571053110d276ed093676, 0⟩

/-- The second block of the loan chain. -/
def registrationV2Block : Block :=
  ⟨1700102743, [ascii "VehicleRegistration"],
    [.registration ⟨ascii "V2", ascii "Carl", 1600000000⟩],
    beBytes 32 0x00075d1af2123a249981dcf498654d4935e7b8b286aefe700f2ae9654c91e55f,
    beBytes 32 0x000a3d5c2632778ebad2660274568750fff8cadd82a0d58eaf5aed369fe78f3f, 0⟩

/-- The third block of the loan chain. -/
def loanV2Block : Block :=
  ⟨1700200059, [ascii "LoanContract"],
    [.loan ⟨ascii "V2", ascii "Carl", ascii "Bank", 5000, 1600000000, 1900000000⟩],
    beBytes 32 0x000a3d5c2632778ebad2660274568750fff8cadd82a0d58eaf5aed369fe78f3f,
    beBytes 32 0x00020dc9a499df787415ff4eb4d414744fc22d482b07a07a38becfd3d8fe2562, 0⟩

/-- The block of the past loan appended to the loan chain. -/
def pastLoanV2Block : Block :=
  ⟨1700300874, [ascii "LoanContract"],
    [.loan ⟨ascii "V2", ascii "Carl", ascii "Bank", 5000, 1500000000, 1600000000⟩],
    beBytes 32 0x00020dc9a499df787415ff4eb4d414744fc22d482b07a07a38becfd3d8fe2562,
    beBytes 32 0x000f0f852b99c4d583a14af02ab451188af3c7065b415c8feee79d99dca22322, 0⟩

/-- A block as a peer can confirm it: it names the key of the tip pointer as its
predecessor, and its `Hash` is the encoded form of the third block of the loan
chain, the block with the loan on V2 that ends at 1900000000. -/
def loanCarrierBlock : Block :=
  ⟨1700000885, [ascii "genesis"], [.genesis ⟨ascii "GENESIS BLOCK"⟩], tipKey,
    loanV2Block.Serialize registryInOrder, 0⟩

/-- The fresh chain after the confirmation of that block. -/
def loanCarrierChain : Blockchain :=
  ⟨loanCarrierBlock.Hash,
    (freshChain.db.Put loanCarrierBlock.Hash (loanCarrierBlock.Serialize registryInOrder)).Put
      tipKey loanCarrierBlock.Hash⟩

/-- The block `AddBlock` builds at 1700402908 for the registration of V3 on that
chain. -/
def registrationV3Block : Block :=
  ⟨1700402908, [ascii "VehicleRegistration"],
    [.registration ⟨ascii "V3", ascii "Dana", 1600000000⟩],
    loanV2Block.Serialize registryInOrder,
    beBytes 32 0x0001fa63397d7f57a8c82cf09c562534894a2078524f4c90a064ea9f6d7048de, 0⟩

set_option maxRecDepth 1000000

/-! # Theorems

## Bytes and integers on the wire -/

theorem byte_val (n : Nat) : (byte n).val = n % 256 := rfl

theorem beBytes_length (n x : Nat) : (beBytes n x).length = n := by
  induction n with
  | zero => rfl
  | succ n ih => simp [beBytes, ih]

theorem beNat_foldl (bs : Bytes) (acc : Nat) :
    bs.foldl (fun a (b : Byte) => a * 256 + b.val) acc = acc * 256 ^ bs.length + beNat bs := by
  induction bs generalizing acc with
  | nil => simp [beNat]
  | cons b bs ih =>
    simp only [List.foldl_cons, beNat, List.length_cons]
    rw [ih, ih (0 * 256 + b.val)]
    ring

theorem beNat_cons (b : Byte) (bs : Bytes) :
    beNat (b :: bs) = b.val * 256 ^ bs.length + beNat bs := by
  unfold beNat
  rw [List.foldl_cons, beNat_foldl]
  simp
  rfl

theorem beNat_beBytes (n x : Nat) : beNat (beBytes n x) = x % 256 ^ n := by
  induction n with
  | zero => simp [beBytes, beNat, Nat.mod_one]
  | succ n ih =>
    rw [beBytes, beNat_cons, ih, beBytes_length, byte_val, Nat.shiftRight_eq_div_pow,
      pow_succ, Nat.mod_mul, Nat.pow_mul]
    norm_num
    ring

theorem beNat_lt (bs : Bytes) : beNat bs < 256 ^ bs.length := by
  induction bs with
  | nil => simp [beNat]
  | cons b bs ih =>
    rw [beNat_cons, List.length_cons, pow_succ]
    have := b.isLt
    nlinarith

namespace Gob

theorem byteLen_pos (x : Nat) : 1 ≤ byteLen x ∧ byteLen x ≤ 8 := by
  unfold byteLen
  split_ifs <;> omega

theorem lt_pow_byteLen (x : Nat) (h : x < 2 ^ 64) : x < 256 ^ byteLen x := by
  unfold byteLen
  split_ifs <;> norm_num at * <;> omega

theorem decodeUint_encodeUint (x : Nat) (h : x < 2 ^ 64) (rest : Bytes) :
    decodeUint (encodeUint x ++ rest) = some (x, rest) := by
  unfold encodeUint
  split_ifs with hx
  · have : x % 256 = x := Nat.mod_eq_of_lt (by omega)
    simp [decodeUint, byte_val, this, hx]
  · obtain ⟨h1, h8⟩ := byteLen_pos x
    have hb : (256 - byteLen x) % 256 = 256 - byteLen x := Nat.mod_eq_of_lt (by omega)
    have hs : 256 - (256 - byteLen x) = byteLen x := by omega
    simp only [List.cons_append, decodeUint, byte_val, hb, hs]
    rw [if_neg (by omega), if_neg (by omega), if_neg (by simp [beBytes_length])]
    rw [List.take_left' (beBytes_length _ _), List.drop_left' (beBytes_length _ _),
      beNat_beBytes, Nat.mod_eq_of_lt (lt_pow_byteLen x h)]


theorem decodeInt_encodeInt (i : Int) (hlo : -2 ^ 63 ≤ i) (hhi : i < 2 ^ 63) (rest : Bytes) :
    decodeInt (encodeInt i ++ rest) = some (i, rest) := by
  unfold decodeInt encodeInt
  split_ifs with hneg
  · rw [decodeUint_encodeUint _ (by omega)]
    simp only [Option.some.injEq, Prod.mk.injEq, and_true]
    rw [if_pos (by omega)]
    omega
  · rw [decodeUint_encodeUint _ (by omega)]
    simp only [Option.some.injEq, Prod.mk.injEq, and_true]
    rw [if_neg (by omega)]
    omega

theorem decodeBytes_encodeBytes (b : Bytes) (h : b.length < 2 ^ 64) (rest : Bytes) :
    decodeBytes (encodeBytes b ++ rest) = some (b, rest) := by
  unfold decodeBytes encodeBytes
  rw [List.append_assoc, decodeUint_encodeUint _ h]
  simp

theorem decodeMany_encodeBytes (l : List Bytes) (h : ∀ b ∈ l, b.length < 2 ^ 64)
    (rest : Bytes) :
    decodeMany decodeBytes l.length ((l.map encodeBytes).flatten ++ rest) = some (l, rest) := by
  induction l with
  | nil => simp [decodeMany]
  | cons b l ih =>
    simp only [List.map_cons, List.flatten_cons, List.length_cons, decodeMany, List.append_assoc]
    rw [decodeBytes_encodeBytes b (h b (by simp))]
    simp only
    rw [ih (fun c hc => h c (by simp [hc]))]


theorem decodeDelta_byte (k : Nat) (hk : k ≤ 127) (rest : Bytes) :
    decodeDelta (byte k :: rest) = some (k, rest) := by
  have : k % 256 = k := Nat.mod_eq_of_lt (by omega)
  simp [decodeDelta, decodeUint, byte_val, this, hk]

theorem encodeUint_ne_nil (x : Nat) : encodeUint x ≠ [] := by
  unfold encodeUint
  split_ifs <;> simp

theorem decodeDelta_encodeUint (x : Nat) (h : x < 2 ^ 64) (rest : Bytes) :
    decodeDelta (encodeUint x ++ rest) = some (x, rest) := by
  rw [← decodeUint_encodeUint x h rest]
  cases hx : encodeUint x with
  | nil => exact absurd hx (encodeUint_ne_nil x)
  | cons b bs => rfl

theorem decodeNameId_encodeNameId (name : Bytes) (id : Int) (hn : name.length < 2 ^ 64)
    (hlo : -2 ^ 63 ≤ id) (hhi : id < 2 ^ 63) (rest : Bytes) :
    decodeNameId (encodeNameId name id ++ rest) = some ((name, id), rest) := by
  unfold encodeNameId decodeNameId
  by_cases hname : name = [] <;> by_cases hid : id = 0
  · subst hname; subst hid
    simp [decodeDelta_byte]
  · subst hname
    simp [hid, decodeDelta_byte, decodeInt_encodeInt id hlo hhi]
  · subst hid
    simp [hname, decodeDelta_byte, decodeBytes_encodeBytes name hn]
  · simp [hname, hid, decodeDelta_byte, decodeBytes_encodeBytes name hn,
      decodeInt_encodeInt id hlo hhi]

theorem decodeMany_encodeNameId (fs : List (Bytes × Int))
    (h : ∀ f ∈ fs, f.1.length < 2 ^ 64 ∧ -2 ^ 63 ≤ f.2 ∧ f.2 < 2 ^ 63) (rest : Bytes) :
    decodeMany decodeNameId fs.length
      ((fs.map fun f => encodeNameId f.1 f.2).flatten ++ rest) = some (fs, rest) := by
  induction fs with
  | nil => simp [decodeMany]
  | cons f fs ih =>
    obtain ⟨h1, h2, h3⟩ := h f (by simp)
    simp only [List.map_cons, List.flatten_cons, List.length_cons, decodeMany, List.append_assoc]
    rw [decodeNameId_encodeNameId f.1 f.2 h1 h2 h3]
    simp only
    rw [ih (fun c hc => h c (by simp [hc]))]

theorem wireId_bounds (reg : Registry) (k : Kind) :
    0 < k.wireId reg ∧ k.wireId reg < 2 ^ 31 := by
  cases k <;> simp only [Kind.wireId] <;>
    first
      | exact ⟨by decide, by decide⟩
      | exact ⟨by have := reg.user .stringSlice; omega, reg.small _⟩
      | exact ⟨by have := reg.user .byteSliceSlice; omega, reg.small _⟩

theorem names_sum_bound (fs : List (Bytes × Kind)) :
    fs.length ≤ (fs.map fun f => 1 + f.1.length).sum ∧
      ∀ f ∈ fs, f.1.length < (fs.map fun f => 1 + f.1.length).sum := by
  induction fs with
  | nil => simp
  | cons a l ih =>
    obtain ⟨h1, h2⟩ := ih
    refine ⟨by simp only [List.length_cons, List.map_cons, List.sum_cons]; omega, ?_⟩
    intro f hf
    simp only [List.map_cons, List.sum_cons]
    rcases List.mem_cons.mp hf with rfl | hf
    · omega
    · have := h2 f hf
      omega

theorem valid_short {t : StructType} (ht : t.Valid) :
    ∀ f ∈ t.fields, f.1.length < 2 ^ 64 := by
  intro f hf
  have := (names_sum_bound t.fields).2 f hf
  have := ht.small
  omega

theorem valid_name_short {t : StructType} (ht : t.Valid) :
    t.name.length < 2 ^ 64 := by
  have := ht.small
  omega

theorem valid_few {t : StructType} (ht : t.Valid) : t.fields.length < 2 ^ 64 := by
  have := (names_sum_bound t.fields).1
  have := ht.small
  omega

theorem decodeWireType_encodeStructDef (reg : Registry) (tid : Nat) (t : StructType)
    (ht : t.Valid) (htid : tid < 2 ^ 31) (rest : Bytes) :
    decodeWireType (encodeStructDef reg tid t ++ rest) = some (.structT (t.wire reg), rest) := by
  have hfs : t.fields.isEmpty = false := by
    cases hf : t.fields with
    | nil => exact absurd hf ht.fields_ne
    | cons a l => rfl
  have hmany := decodeMany_encodeNameId (t.wire reg) (by
    intro f hf
    simp only [StructType.wire, List.mem_map] at hf
    obtain ⟨g, hg, rfl⟩ := hf
    have := wireId_bounds reg g.2
    exact ⟨valid_short ht g hg, by simp only; omega, by simp only; omega⟩)
  have hlen : (t.wire reg).length = t.fields.length := by simp [StructType.wire]
  have hmap : (t.wire reg).map (fun f => encodeNameId f.1 f.2) =
      t.fields.map fun f => encodeNameId f.1 (f.2.wireId reg) := by
    simp [StructType.wire, List.map_map, Function.comp_def]
  rw [hlen, hmap] at hmany
  unfold encodeStructDef decodeWireType decodeStructType decodeFieldTypes
  simp only [hfs, List.cons_append, List.nil_append, List.append_assoc, Bool.false_eq_true,
    if_false, decodeDelta_byte 3 (by omega), decodeDelta_byte 1 (by omega)]
  rw [decodeNameId_encodeNameId t.name tid (valid_name_short ht) (by omega) (by omega)]
  simp only [decodeDelta_byte 1 (by omega)]
  rw [decodeUint_encodeUint _ (valid_few ht)]
  simp only
  rw [hmany]
  simp only [decodeDelta_byte 0 (by omega)]

theorem decodeWireType_encodeSliceDef (name : Bytes) (tid elem : Nat)
    (hname : name.length < 2 ^ 64) (htid : tid < 2 ^ 31)
    (he : elem < 2 ^ 31) (he0 : elem ≠ 0) (rest : Bytes) :
    decodeWireType (encodeSliceDef name tid elem ++ rest) = some (.sliceT elem, rest) := by
  unfold encodeSliceDef decodeWireType decodeSliceType decodeElem
  simp only [List.cons_append, List.nil_append, List.append_assoc,
    decodeDelta_byte 2 (by omega), decodeDelta_byte 1 (by omega), beq_iff_eq, he0, if_false]
  rw [decodeNameId_encodeNameId name tid hname (by omega) (by omega)]
  simp only [decodeDelta_byte 1 (by omega)]
  rw [decodeInt_encodeInt elem (by omega) (by omega)]
  simp only [decodeDelta_byte 0 (by omega)]

theorem readMessage_message (body rest : Bytes) (h : body.length < 2 ^ 64) :
    readMessage (message body ++ rest) = some (body, rest) := by
  unfold readMessage message
  exact decodeBytes_encodeBytes body h rest

end Gob

/-! ## Lengths, values and the field loop -/

namespace Gob

theorem encodeUint_length_le (x : Nat) : (encodeUint x).length ≤ 9 := by
  unfold encodeUint
  have := byteLen_pos x
  split_ifs
  · simp
  · simp only [List.length_cons, beBytes_length]; omega

theorem encodeInt_length_le (i : Int) : (encodeInt i).length ≤ 9 := encodeUint_length_le _

theorem encodeBytes_length_le (b : Bytes) : (encodeBytes b).length ≤ 9 + b.length := by
  unfold encodeBytes
  have := encodeUint_length_le b.length
  simp only [List.length_append]
  omega

theorem encodeNameId_length_le (name : Bytes) (id : Int) :
    (encodeNameId name id).length ≤ 21 + name.length := by
  unfold encodeNameId
  have := encodeBytes_length_le name
  have := encodeInt_length_le id
  split_ifs <;> simp only [List.length_append, List.length_cons, List.length_nil] <;> omega

theorem flatten_encodeBytes_length_le (l : List Bytes) :
    ((l.map encodeBytes).flatten).length ≤ 9 * (l.map fun b => 1 + b.length).sum := by
  induction l with
  | nil => simp
  | cons b l ih =>
    have := encodeBytes_length_le b
    simp only [List.map_cons, List.flatten_cons, List.length_append, List.sum_cons]
    omega

theorem encodeValue_length_le (v : Value) : (encodeValue v).length ≤ 9 * v.size := by
  cases v with
  | int i => have := encodeInt_length_le i; simp only [encodeValue, Value.size]; omega
  | bytes b => have := encodeBytes_length_le b; simp only [encodeValue, Value.size]; omega
  | list l =>
    have := encodeUint_length_le l.length
    have := flatten_encodeBytes_length_le l
    simp only [encodeValue, Value.size, List.length_append]
    omega

theorem encodeFields_length_le (vs : List Value) (i sent : Nat) :
    (encodeFields i sent vs).length ≤ 1 + 18 * (vs.map Value.size).sum := by
  induction vs generalizing i sent with
  | nil => simp [encodeFields]
  | cons v vs ih =>
    have hv := encodeValue_length_le v
    have hu := encodeUint_length_le (i + 1 - sent)
    have hpos : 1 ≤ v.size := by cases v <;> simp [Value.size]
    have h1 := ih (i + 1) sent
    have h2 := ih (i + 1) (i + 1)
    simp only [encodeFields, List.map_cons, List.sum_cons]
    split_ifs
    · omega
    · simp only [List.length_append]
      omega

theorem encodeStructDef_length_le (reg : Registry) (tid : Nat) (t : StructType) :
    (encodeStructDef reg tid t).length ≤
      40 + 21 * (t.name.length + (t.fields.map fun f => 1 + f.1.length).sum) := by
  have h1 := encodeNameId_length_le t.name tid
  have h2 := encodeUint_length_le t.fields.length
  have h3 : ((t.fields.map fun f => encodeNameId f.1 (f.2.wireId reg)).flatten).length ≤
      21 * (t.fields.map fun f => 1 + f.1.length).sum := by
    induction t.fields with
    | nil => simp
    | cons f fs ih =>
      have := encodeNameId_length_le f.1 (f.2.wireId reg)
      simp only [List.map_cons, List.flatten_cons, List.length_append, List.sum_cons]
      omega
  unfold encodeStructDef
  split_ifs <;> simp only [List.length_append, List.length_cons, List.length_nil] <;> omega

theorem sum_size_bounds (l : List Bytes) :
    l.length ≤ (l.map fun b => 1 + b.length).sum ∧
      ∀ b ∈ l, b.length < (l.map fun b => 1 + b.length).sum := by
  induction l with
  | nil => simp
  | cons a l ih =>
    obtain ⟨h1, h2⟩ := ih
    refine ⟨by simp only [List.length_cons, List.map_cons, List.sum_cons]; omega, ?_⟩
    intro f hf
    simp only [List.map_cons, List.sum_cons]
    rcases List.mem_cons.mp hf with rfl | hf
    · omega
    · have := h2 f hf
      omega

theorem decodeShape_encodeValue (v : Value) (hr : v.InRange) (hs : v.size < 2 ^ 64)
    (rest : Bytes) : decodeShape v.shape (encodeValue v ++ rest) = some (v, rest) := by
  cases v with
  | int i =>
    obtain ⟨h1, h2⟩ := hr
    simp [decodeShape, encodeValue, Value.shape, decodeInt_encodeInt i h1 h2]
  | bytes b =>
    have hb : b.length < 2 ^ 64 := by simp only [Value.size] at hs; omega
    simp [decodeShape, encodeValue, Value.shape, decodeBytes_encodeBytes b hb]
  | list l =>
    simp only [Value.size] at hs
    obtain ⟨h1, h2⟩ := sum_size_bounds l
    simp only [decodeShape, encodeValue, Value.shape, List.append_assoc]
    rw [decodeUint_encodeUint _ (by omega)]
    simp only
    rw [decodeMany_encodeBytes l (fun b hb => by have := h2 b hb; omega)]
    rfl

theorem hasKind_shape {v : Value} {k : Kind} (h : v.hasKind k = true) : v.shape = k.shape := by
  cases v <;> cases k <;> simp_all [Value.hasKind, Value.shape, Kind.shape]

theorem hasKind_zero {v : Value} {k : Kind} (h : v.hasKind k = true) (hz : v.isZero = true) :
    k.zero = v := by
  cases v <;> cases k <;> simp_all [Value.hasKind, Value.isZero, Kind.zero]

/-- The decoding loop reads back what `encodeFields` wrote. -/
theorem decodeFields_encodeFields (instrs : List (Option Nat × Shape)) (rest : Bytes)
    (vs : List Value) :
    ∀ (done zs : List Value) (sent fuel : Nat),
      (∀ j v, (done ++ vs).get? j = some v → instrs.get? j = some (some j, v.shape)) →
      List.Forall₂ (fun v z => v.isZero = true → z = v) vs zs →
      sent ≤ done.length → vs.length < fuel →
      (∀ v ∈ vs, v.InRange) → (vs.map Value.size).sum < 2 ^ 60 →
      done.length + vs.length < 2 ^ 60 →
      decodeFields instrs fuel sent (done ++ zs) (encodeFields done.length sent vs ++ rest) =
        some (done ++ vs) := by
  induction vs with
  | nil =>
    intro done zs sent fuel _ hz _ hfuel _ _ _
    cases hz
    obtain ⟨f, rfl⟩ : ∃ f, fuel = f + 1 := ⟨fuel - 1, by simp at hfuel; omega⟩
    simp [encodeFields, decodeFields, decodeDelta_byte]
  | cons v vs ih =>
    intro done zs sent fuel hin hz hsent hfuel hr hsize hlen
    cases hz with
    | cons hvz hrest =>
      rename_i z zs
      simp only [List.map_cons, List.sum_cons, List.length_cons] at hsize hlen hfuel
      have hin2 : ∀ j w, ((done ++ [v]) ++ vs).get? j = some w →
          instrs.get? j = some (some j, w.shape) := by
        intro j w hj
        exact hin j w (by simpa using hj)
      have hlen1 : (done ++ [v]).length = done.length + 1 := by simp
      by_cases hzero : v.isZero = true
      · have hzv := hvz hzero
        subst hzv
        have := ih (done ++ [z]) zs sent fuel hin2 hrest (by rw [hlen1]; omega) (by omega)
          (fun w hw => hr w (by simp [hw])) (by omega) (by rw [hlen1]; omega)
        simp only [encodeFields, hzero, if_true]
        rw [hlen1] at this
        simpa using this
      · obtain ⟨f, rfl⟩ : ∃ f, fuel = f + 1 := ⟨fuel - 1, by omega⟩
        have hd : done.length + 1 - sent = (done.length - sent) + 1 := by omega
        have hget : instrs.get? (sent + (done.length - sent)) = some (some done.length, v.shape) := by
          have : sent + (done.length - sent) = done.length := by omega
          rw [this]
          exact hin _ v (by
            rw [List.get?_eq_getElem?, List.getElem?_append_right (le_refl _)]
            simp)
        have hvsize : v.size < 2 ^ 64 := by omega
        have := ih (done ++ [v]) zs (done.length + 1) f hin2 hrest (by rw [hlen1]) (by omega)
          (fun w hw => hr w (by simp [hw])) (by omega) (by rw [hlen1]; omega)
        rw [hlen1] at this
        simp only [encodeFields, hzero, Bool.false_eq_true, if_false, List.append_assoc]
        unfold decodeFields
        rw [decodeDelta_encodeUint _ (by omega), hd]
        simp only [hget]
        rw [decodeShape_encodeValue v (hr v (by simp)) hvsize]
        simp only [List.set_append_right _ _ (le_refl _), Nat.sub_self, List.set_cons_zero]
        have h3 : sent + (done.length - sent) + 1 = done.length + 1 := by omega
        rw [h3]
        simpa using this

end Gob

/-! ## Decoding instructions and the type sequence -/

namespace Gob

theorem findField_append (name : Bytes) (k : Kind) (pre post : List (Bytes × Kind))
    (h : name ∉ pre.map Prod.fst) (i : Nat) :
    findField name (pre ++ (name, k) :: post) i = some (i + pre.length, k) := by
  induction pre generalizing i with
  | nil => simp [findField]
  | cons p pre ih =>
    obtain ⟨n, kk⟩ := p
    simp only [List.map_cons, List.mem_cons, not_or] at h
    rw [List.cons_append, findField, if_neg (fun e => h.1 e.symm), ih h.2]
    simp only [List.length_cons, Option.some.injEq, Prod.mk.injEq, and_true]
    omega

/-- Compiling a struct type against its own definition pairs every received
field with the local field of the same position. -/
theorem compile_wire (reg : Registry) (table : Table) (t : StructType) (ht : t.Valid)
    (htable : ∀ f ∈ t.fields, shapeOf table (f.2.wireId reg) = some f.2.shape ∧
      compatible table f.2 (f.2.wireId reg) = true) :
    ∀ (post pre : List (Bytes × Kind)), t.fields = pre ++ post →
      ∃ instrs, compile table t (post.map fun f => (f.1, ((f.2.wireId reg : Nat) : Int))) =
          some instrs ∧ instrs.length = post.length ∧
        ∀ j f, post.get? j = some f → instrs.get? j = some (some (pre.length + j), f.2.shape) := by
  intro post
  induction post with
  | nil =>
    intro pre _
    exact ⟨[], by simp [compile], rfl, by simp⟩
  | cons f post ih =>
    intro pre hpre
    have hmem : f ∈ t.fields := by rw [hpre]; simp
    obtain ⟨hshape, hcompat⟩ := htable f hmem
    obtain ⟨instrs, hc, hl, hget⟩ := ih (pre ++ [f]) (by rw [hpre]; simp)
    have hnodup := ht.nodup
    rw [hpre, List.map_append, List.map_cons] at hnodup
    have hnotin : f.1 ∉ pre.map Prod.fst := by
      intro hin
      have := (List.nodup_append.mp hnodup).2.2
      exact this hin (by simp)
    have hfind : findField f.1 t.fields 0 = some (pre.length, f.2) := by
      rw [hpre]
      have := findField_append f.1 f.2 pre post hnotin 0
      simpa using this
    have hne : f.1.isEmpty = false := by
      have := ht.named f hmem
      cases hf : f.1 with
      | nil => exact absurd hf this
      | cons a l => rfl
    refine ⟨(some pre.length, f.2.shape) :: instrs, ?_, by simp [hl], ?_⟩
    · simp only [List.map_cons, compile, hne, Bool.false_eq_true, if_false, hshape, hc, hfind,
        hcompat, if_true]
    · intro j g hj
      cases j with
      | zero =>
        simp only [List.get?_cons_zero, Option.some.injEq] at hj
        subst hj
        simp
      | succ j =>
        simp only [List.get?_cons_succ] at hj
        have := hget j g hj
        simp only [List.get?_cons_succ, this, List.length_append, List.length_cons,
          List.length_nil]
        congr 3
        omega

theorem shapeOf_basic (reg : Registry) (table : Table) (k : Kind) (hk : k.isBasic = true) :
    shapeOf table (k.wireId reg) = some k.shape ∧ compatible table k (k.wireId reg) = true := by
  cases k <;> simp_all [Kind.isBasic, shapeOf, compatible, Kind.wireId, Kind.shape]

theorem sliceDefs_basic (reg : Registry) (ks : List Kind) (hk : ∀ k ∈ ks, k.isBasic = true)
    (s b : Bool) : sliceDefs reg ks s b = [] := by
  induction ks generalizing s b with
  | nil => rfl
  | cons k ks ih =>
    have h1 := hk k (by simp)
    have h2 := ih (fun c hc => hk c (by simp [hc]))
    cases k <;> first
      | (cases s <;> cases b <;> simp [sliceDefs, h2]; done)
      | simp [Kind.isBasic] at h1

theorem decodeTypeSequence_mono (fuel : Nat) :
    ∀ (extra : Nat) (table : Table) (data : Bytes) (r : Nat × Bytes × Table),
      decodeTypeSequence fuel table data = some r →
      decodeTypeSequence (fuel + extra) table data = some r := by
  induction fuel with
  | zero => intro extra table data r h; simp [decodeTypeSequence] at h
  | succ fuel ih =>
    intro extra table data r h
    have he : fuel + 1 + extra = (fuel + extra) + 1 := by omega
    rw [he]
    cases hm : readMessage data with
    | none => simp [decodeTypeSequence, hm] at h
    | some p =>
      obtain ⟨msg, rest⟩ := p
      cases hi : decodeInt msg with
      | none => simp [decodeTypeSequence, hm, hi] at h
      | some q =>
        obtain ⟨id, body⟩ := q
        simp only [decodeTypeSequence, hm, hi] at h ⊢
        split_ifs at h ⊢ with h1 h2
        · exact h
        · cases hw : decodeWireType body with
          | none => simp [hw] at h
          | some w =>
            obtain ⟨wt, extraBytes⟩ := w
            cases extraBytes with
            | nil =>
              simp only [hw] at h ⊢
              exact ih extra _ _ _ h
            | cons a l => simp [hw] at h

end Gob

/-! ## Structs of basic fields -/

namespace Gob

theorem message_length_pos (body : Bytes) : 1 ≤ (message body).length := by
  unfold message
  have : (encodeUint body.length).length ≠ 0 := by
    intro h
    exact encodeUint_ne_nil _ (List.length_eq_zero.mp h)
  simp only [List.length_append]
  omega

theorem holds_zero (fields : List (Bytes × Kind)) (vs : List Value)
    (h : List.Forall₂ (fun v f => v.hasKind f.2 = true) vs fields) :
    List.Forall₂ (fun v z => v.isZero = true → z = v) vs (fields.map fun f => f.2.zero) := by
  induction h with
  | nil => exact List.Forall₂.nil
  | cons hk _ ih => exact List.Forall₂.cons (fun hz => hasKind_zero hk hz) ih

theorem holds_get (fields : List (Bytes × Kind)) (vs : List Value)
    (h : List.Forall₂ (fun v f => v.hasKind f.2 = true) vs fields) :
    ∀ j v, vs.get? j = some v → ∃ f, fields.get? j = some f ∧ v.shape = f.2.shape := by
  induction h with
  | nil => intro j v hj; simp at hj
  | cons hk _ ih =>
    intro j v hj
    cases j with
    | zero =>
      simp only [List.get?_cons_zero, Option.some.injEq] at hj
      subst hj
      exact ⟨_, rfl, hasKind_shape hk⟩
    | succ j => exact ih j v (by simpa using hj)

/-- The type sequence of a struct of basic fields: one definition, then the
value. -/
theorem decodeTypeSequence_encode_basic (reg : Registry) (tid : Nat) (h64 : 64 < tid)
    (h31 : tid < 2 ^ 31) (t : StructType) (ht : t.Valid) (body : Bytes)
    (hbody : body.length < 2 ^ 63) :
    decodeTypeSequence 2 []
        (message (encodeInt (-(tid : Int)) ++ encodeStructDef reg tid t) ++
          message (encodeInt tid ++ body)) =
      some (tid, body, [(tid, .structT (t.wire reg))]) := by
  have hdef : (encodeInt (-(tid : Int)) ++ encodeStructDef reg tid t).length < 2 ^ 64 := by
    have h1 := encodeInt_length_le (-(tid : Int))
    have h2 := encodeStructDef_length_le reg tid t
    have h3 := ht.small
    simp only [List.length_append]
    omega
  have hval : (encodeInt (tid : Int) ++ body).length < 2 ^ 64 := by
    have h1 := encodeInt_length_le (tid : Int)
    simp only [List.length_append]
    omega
  have hw := decodeWireType_encodeStructDef reg tid t ht h31 []
  rw [List.append_nil] at hw
  have hneg : ¬ (0 : Int) ≤ -(tid : Int) := by omega
  have hto : (-(-(tid : Int))).toNat = tid := by simp
  have hm2 := readMessage_message (encodeInt (tid : Int) ++ body) [] hval
  rw [List.append_nil] at hm2
  simp only [decodeTypeSequence, readMessage_message _ _ hdef,
    decodeInt_encodeInt (-(tid : Int)) (by omega) (by omega), hneg, if_false, hto, hw,
    List.lookup, Option.isSome_none, Bool.false_eq_true, or_false, hm2,
    decodeInt_encodeInt (tid : Int) (by omega) (by omega)]
  rw [if_neg (by omega), if_pos (by omega)]
  simp

/-- A struct of basic fields decodes to the values it was encoded from. -/
theorem decode_encode_basic (reg : Registry) (tid : Nat) (h64 : 64 < tid) (h31 : tid < 2 ^ 31)
    (t : StructType) (ht : t.Valid) (hb : ∀ f ∈ t.fields, f.2.isBasic = true)
    (vs : List Value) (hv : t.Holds vs) (hr : ∀ v ∈ vs, v.InRange)
    (hs : (vs.map Value.size).sum < 2 ^ 40) :
    decode t (encode reg tid t vs) = some vs := by
  have hlen : vs.length = t.fields.length := List.Forall₂.length_eq hv
  have hfew := (names_sum_bound t.fields).1
  have hsmall := ht.small
  have hbody : (encodeFields 0 0 vs).length < 2 ^ 63 := by
    have := encodeFields_length_le vs 0 0
    omega
  have hseq := decodeTypeSequence_encode_basic reg tid h64 h31 t ht _ hbody
  have hdefs : sliceDefs reg (t.fields.map Prod.snd) false false = [] :=
    sliceDefs_basic reg _ (by
      intro k hk
      obtain ⟨f, hf, rfl⟩ := List.mem_map.mp hk
      exact hb f hf) false false
  have henc : encode reg tid t vs =
      message (encodeInt (-(tid : Int)) ++ encodeStructDef reg tid t) ++
        message (encodeInt tid ++ encodeFields 0 0 vs) := by
    simp [encode, hdefs]
  have hl2 : 2 ≤ (encode reg tid t vs).length := by
    rw [henc, List.length_append]
    have := message_length_pos (encodeInt (-(tid : Int)) ++ encodeStructDef reg tid t)
    have := message_length_pos (encodeInt (tid : Int) ++ encodeFields 0 0 vs)
    omega
  have hseq2 := decodeTypeSequence_mono 2 ((encode reg tid t vs).length - 2) _ _ _ hseq
  rw [show 2 + ((encode reg tid t vs).length - 2) = (encode reg tid t vs).length by omega,
    ← henc] at hseq2
  obtain ⟨instrs, hc, hil, hget⟩ := compile_wire reg [(tid, .structT (t.wire reg))] t ht
    (fun f hf => shapeOf_basic reg _ f.2 (hb f hf)) t.fields [] rfl
  have hall : (instrs.all fun i => i.1.isNone) = false := by
    cases hf : t.fields with
    | nil => exact absurd hf ht.fields_ne
    | cons f fs =>
      have h0 := hget 0 f (by simp [hf])
      cases instrs with
      | nil => simp at h0
      | cons i is =>
        simp only [List.get?_cons_zero, Option.some.injEq] at h0
        subst h0
        simp
  have hfields := decodeFields_encodeFields instrs [] vs [] (t.fields.map fun f => f.2.zero) 0
    (instrs.length + 1)
    (by
      intro j v hj
      obtain ⟨f, hf, hsh⟩ := holds_get t.fields vs hv j v (by simpa using hj)
      have := hget j f hf
      simpa [hsh] using this)
    (holds_zero t.fields vs hv) (le_refl _) (by omega) hr (by omega)
    (by simp only [List.length_nil]; omega)
  simp only [List.nil_append, List.length_nil, List.append_nil] at hfields
  unfold decode
  rw [hseq2]
  simp only [List.lookup, beq_self_eq_true]
  have hwire : (t.wire reg) = t.fields.map fun f => (f.1, ((f.2.wireId reg : Nat) : Int)) := rfl
  rw [← hwire] at hc
  rw [hc]
  simp only [hall, Bool.false_and, Bool.false_eq_true, if_false]
  exact hfields

end Gob

/-! ## The four transaction types -/

theorem VehicleRegistration_gobType_valid : VehicleRegistration.gobType.Valid :=
  ⟨by decide, by decide, by decide, by decide⟩

theorem VehicleSale_gobType_valid : VehicleSale.gobType.Valid :=
  ⟨by decide, by decide, by decide, by decide⟩

theorem LoanContract_gobType_valid : LoanContract.gobType.Valid :=
  ⟨by decide, by decide, by decide, by decide⟩

theorem genesis_gobType_valid : genesis.gobType.Valid :=
  ⟨by decide, by decide, by decide, by decide⟩

theorem VehicleRegistration_decode_Serialize (reg : Gob.Registry) (tx : VehicleRegistration)
    (h : (Transaction.registration tx).WellFormed) :
    VehicleRegistration.decode (tx.Serialize reg) = some tx := by
  obtain ⟨h1, h2, h3⟩ := h
  have := Gob.decode_encode_basic reg (reg.id .VehicleRegistration) (reg.user _) (reg.small _)
    VehicleRegistration.gobType VehicleRegistration_gobType_valid (by decide)
    [.bytes tx.VIN, .bytes tx.Owner, .int tx.RegistrationDate]
    (by simp [Gob.StructType.Holds, VehicleRegistration.gobType, Gob.Value.hasKind])
    (by simp [Gob.Value.InRange, h3])
    (by simp only [List.map_cons, List.map_nil, List.sum_cons, List.sum_nil, Gob.Value.size]; omega)
  simp [VehicleRegistration.decode, VehicleRegistration.Serialize, this]

theorem VehicleSale_decode_Serialize (reg : Gob.Registry) (tx : VehicleSale)
    (h : (Transaction.sale tx).WellFormed) :
    VehicleSale.decode (tx.Serialize reg) = some tx := by
  obtain ⟨h1, h2, h3, h4, h5⟩ := h
  have := Gob.decode_encode_basic reg (reg.id .VehicleSale) (reg.user _) (reg.small _)
    VehicleSale.gobType VehicleSale_gobType_valid (by decide)
    [.bytes tx.VIN, .bytes tx.Dealer, .bytes tx.Buyer, .int tx.SaleDate, .int tx.Price]
    (by simp [Gob.StructType.Holds, VehicleSale.gobType, Gob.Value.hasKind])
    (by simp [Gob.Value.InRange, h4, h5])
    (by simp only [List.map_cons, List.map_nil, List.sum_cons, List.sum_nil, Gob.Value.size]; omega)
  simp [VehicleSale.decode, VehicleSale.Serialize, this]

theorem LoanContract_decode_Serialize (reg : Gob.Registry) (tx : LoanContract)
    (h : (Transaction.loan tx).WellFormed) :
    LoanContract.decode (tx.Serialize reg) = some tx := by
  obtain ⟨h1, h2, h3, h4, h5, h6⟩ := h
  have := Gob.decode_encode_basic reg (reg.id .LoanContract) (reg.user _) (reg.small _)
    LoanContract.gobType LoanContract_gobType_valid (by decide)
    [.bytes tx.VIN, .bytes tx.Borrower, .bytes tx.Lender, .int tx.LoanAmount,
      .int tx.StartDate, .int tx.EndDate]
    (by simp [Gob.StructType.Holds, LoanContract.gobType, Gob.Value.hasKind])
    (by simp [Gob.Value.InRange, h4, h5, h6])
    (by simp only [List.map_cons, List.map_nil, List.sum_cons, List.sum_nil, Gob.Value.size]; omega)
  simp [LoanContract.decode, LoanContract.Serialize, this]

theorem genesis_decode_Serialize (reg : Gob.Registry) (tx : genesis)
    (h : (Transaction.genesis tx).WellFormed) :
    genesis.decode (tx.Serialize reg) = some tx := by
  have h1 : tx.VIN.length < 2 ^ 31 := h
  have := Gob.decode_encode_basic reg (reg.id .genesis) (reg.user _) (reg.small _)
    genesis.gobType genesis_gobType_valid (by decide)
    [.bytes tx.VIN]
    (by simp [Gob.StructType.Holds, genesis.gobType, Gob.Value.hasKind])
    (by simp [Gob.Value.InRange])
    (by simp only [List.map_cons, List.map_nil, List.sum_cons, List.sum_nil, Gob.Value.size]; omega)
  simp [genesis.decode, genesis.Serialize, this]

/-- One turn of the loop of `DeserializeBlock` reads back a serialized
transaction under its own kind tag. -/
theorem decodeTransaction_Serialize (reg : Gob.Registry) (tx : Transaction)
    (h : tx.WellFormed) :
    decodeTransaction tx.typeName (tx.Serialize reg) = some (some tx) := by
  cases tx with
  | registration tx =>
    simp [decodeTransaction, Transaction.typeName, Transaction.Serialize,
      VehicleRegistration_decode_Serialize reg tx h]
  | sale tx =>
    have hne : ascii "VehicleSale" ≠ ascii "VehicleRegistration" := by decide
    simp [decodeTransaction, Transaction.typeName, Transaction.Serialize, hne,
      VehicleSale_decode_Serialize reg tx h]
  | loan tx =>
    have hne1 : ascii "LoanContract" ≠ ascii "VehicleRegistration" := by decide
    have hne2 : ascii "LoanContract" ≠ ascii "VehicleSale" := by decide
    simp [decodeTransaction, Transaction.typeName, Transaction.Serialize, hne1, hne2,
      LoanContract_decode_Serialize reg tx h]
  | genesis tx =>
    have hne1 : ascii "genesis" ≠ ascii "VehicleRegistration" := by decide
    have hne2 : ascii "genesis" ≠ ascii "VehicleSale" := by decide
    have hne3 : ascii "genesis" ≠ ascii "LoanContract" := by decide
    simp [decodeTransaction, Transaction.typeName, Transaction.Serialize, hne1, hne2, hne3,
      genesis_decode_Serialize reg tx h]

/-! ## The search loop -/

theorem foldl_append_flatten {α : Type} (f : α → Bytes) (l : List α) (init : Bytes) :
    l.foldl (fun h a => h ++ f a) init = init ++ (l.map f).flatten := by
  induction l generalizing init with
  | nil => simp
  | cons a l ih => simp [List.foldl_cons, ih, List.append_assoc]

theorem prepareData_concat (reg : Gob.Registry) (b : Block) :
    b.prepareData reg = b.PrevBlockHash ++ FormatInt b.Timestamp ++ Itoa b.Nonce ++
      (b.Transactions.map (Transaction.Serialize reg)).flatten := by
  unfold Block.prepareData
  rw [foldl_append_flatten]
  simp

theorem Sum256_length (msg : Bytes) : (SHA256.Sum256 msg).length = 32 := by
  simp [SHA256.Sum256, beBytes_length]

theorem block_nonce_eta (b : Block) : { b with Nonce := b.Nonce + 0 } = b := by
  cases b; simp

/-- The search loop stops at the first nonce, from the one it starts with, whose
digest is below the target, provided there is one within the fuel and below
`maxNonce`. -/
theorem runLoop_found (reg : Gob.Registry) (target : Nat) :
    ∀ (d : Nat) (b : Block) (hash : Bytes) (fuel : Nat),
      meets reg target { b with Nonce := b.Nonce + d } → b.Nonce + d < maxNonce → d < fuel →
      ∃ m, m ≤ d ∧
        runLoop reg target fuel b hash =
          (SHA256.Sum256 (({ b with Nonce := b.Nonce + m } : Block).prepareData reg),
            { b with Nonce := b.Nonce + m }) ∧
        meets reg target { b with Nonce := b.Nonce + m } ∧
        ∀ k : Nat, k < m → ¬ meets reg target { b with Nonce := b.Nonce + k } := by
  intro d
  induction d with
  | zero =>
    intro b hash fuel hv hlt hfuel
    obtain ⟨f, rfl⟩ : ∃ f, fuel = f + 1 := ⟨fuel - 1, by omega⟩
    refine ⟨0, le_refl _, ?_, hv, by intro k hk; omega⟩
    simp only [Nat.cast_zero, block_nonce_eta] at hv hlt ⊢
    have hlt2 : b.Nonce < maxNonce := by simpa using hlt
    simp only [runLoop, hlt2, if_true]
    exact if_pos hv
  | succ d ih =>
    intro b hash fuel hv hlt hfuel
    obtain ⟨f, rfl⟩ : ∃ f, fuel = f + 1 := ⟨fuel - 1, by omega⟩
    have hlt2 : b.Nonce < maxNonce := by push_cast at hlt; omega
    by_cases h0 : meets reg target b
    · refine ⟨0, Nat.zero_le _, ?_, ?_, by intro k hk; omega⟩
      · simp only [Nat.cast_zero, block_nonce_eta, runLoop, hlt2, if_true]
        exact if_pos h0
      · simpa [block_nonce_eta] using h0
    · have hb : ∀ x : Int, ({ ({ b with Nonce := b.Nonce + 1 } : Block) with
          Nonce := b.Nonce + 1 + x } : Block) = { b with Nonce := b.Nonce + 1 + x } := fun _ => rfl
      obtain ⟨m, hm, hrun, hmeet, hleast⟩ := ih { b with Nonce := b.Nonce + 1 }
        (SHA256.Sum256 (b.prepareData reg)) f
        (by
          have : b.Nonce + 1 + (d : Int) = b.Nonce + ((d + 1 : Nat) : Int) := by push_cast; ring
          simp only [this]
          exact hv)
        (by simp only; push_cast at hlt ⊢; omega) (by omega)
      simp only at hrun hmeet hleast
      have hcast : ∀ x : Nat, b.Nonce + 1 + (x : Int) = b.Nonce + ((x + 1 : Nat) : Int) := by
        intro x; push_cast; ring
      refine ⟨m + 1, by omega, ?_, ?_, ?_⟩
      · simp only [runLoop, hlt2, if_true]
        rw [if_neg (show ¬ beNat (SHA256.Sum256 (b.prepareData reg)) < target from h0), hrun,
          hcast]
      · rw [← hcast]; exact hmeet
      · intro k hk
        cases k with
        | zero => simpa [block_nonce_eta] using h0
        | succ k =>
          rw [← hcast]
          exact hleast k (by omega)

/-- The loop only steps the nonce, never past a nonce whose digest is below the
target. -/
theorem runLoop_least (reg : Gob.Registry) (target : Nat) :
    ∀ (fuel : Nat) (b : Block) (hash : Bytes),
      (runLoop reg target fuel b hash).2 =
          { b with Nonce := (runLoop reg target fuel b hash).2.Nonce } ∧
        b.Nonce ≤ (runLoop reg target fuel b hash).2.Nonce ∧
        ∀ k : Nat, b.Nonce + k < (runLoop reg target fuel b hash).2.Nonce →
          ¬ meets reg target { b with Nonce := b.Nonce + k } := by
  intro fuel
  induction fuel with
  | zero =>
    intro b hash
    have hr : runLoop reg target 0 b hash = (hash, b) := rfl
    rw [hr]
    exact ⟨rfl, le_refl _, fun k hk => absurd hk (by simp only; omega)⟩
  | succ fuel ih =>
    intro b hash
    by_cases hlt : b.Nonce < maxNonce
    · by_cases h0 : beNat (SHA256.Sum256 (b.prepareData reg)) < target
      · have hr : runLoop reg target (fuel + 1) b hash = (SHA256.Sum256 (b.prepareData reg), b) := by
          simp only [runLoop, hlt, h0, if_true]
        rw [hr]
        exact ⟨rfl, le_refl _, fun k hk => absurd hk (by simp only; omega)⟩
      · have hr : runLoop reg target (fuel + 1) b hash =
            runLoop reg target fuel { b with Nonce := b.Nonce + 1 }
              (SHA256.Sum256 (b.prepareData reg)) := by
          simp only [runLoop, hlt, h0, if_true, if_false]
        rw [hr]
        obtain ⟨h1, h2, h3⟩ := ih { b with Nonce := b.Nonce + 1 } (SHA256.Sum256 (b.prepareData reg))
        refine ⟨?_, ?_, ?_⟩
        · rw [h1]
        · simp only at h2; omega
        · intro k hk
          cases k with
          | zero =>
            rw [Nat.cast_zero, block_nonce_eta]
            exact h0
          | succ k =>
            have := h3 k (by simp only; push_cast at hk; omega)
            have hcast : b.Nonce + 1 + (k : Int) = b.Nonce + ((k + 1 : Nat) : Int) := by
              push_cast; ring
            simp only [hcast] at this
            exact this
    · have hr : runLoop reg target (fuel + 1) b hash = (hash, b) := by
        simp only [runLoop, hlt, if_false]
      rw [hr]
      exact ⟨rfl, le_refl _, fun k hk => absurd hk (by simp only; omega)⟩

/-! ## The record of a block -/

namespace Gob

/-- Once the type sequence has been read, a value whose struct definition is the
local one decodes to the values it was encoded from. -/
theorem decode_of_sequence (reg : Registry) (tid : Nat) (t : StructType) (ht : t.Valid)
    (vs : List Value) (hv : t.Holds vs) (hr : ∀ v ∈ vs, v.InRange)
    (hs : (vs.map Value.size).sum < 2 ^ 58) (data : Bytes) (table : Table)
    (hseq : decodeTypeSequence data.length [] data = some (tid, encodeFields 0 0 vs, table))
    (hlook : table.lookup tid = some (.structT (t.wire reg)))
    (htable : ∀ f ∈ t.fields, shapeOf table (f.2.wireId reg) = some f.2.shape ∧
      compatible table f.2 (f.2.wireId reg) = true) :
    decode t data = some vs := by
  have hlen : vs.length = t.fields.length := List.Forall₂.length_eq hv
  have hfew := (names_sum_bound t.fields).1
  have hsmall := ht.small
  obtain ⟨instrs, hc, hil, hget⟩ := compile_wire reg table t ht htable t.fields [] rfl
  have hall : (instrs.all fun i => i.1.isNone) = false := by
    cases hf : t.fields with
    | nil => exact absurd hf ht.fields_ne
    | cons f fs =>
      have h0 := hget 0 f (by simp [hf])
      cases instrs with
      | nil => simp at h0
      | cons i is =>
        simp only [List.get?_cons_zero, Option.some.injEq] at h0
        subst h0
        simp
  have hfields := decodeFields_encodeFields instrs [] vs [] (t.fields.map fun f => f.2.zero) 0
    (instrs.length + 1)
    (by
      intro j v hj
      obtain ⟨f, hf, hsh⟩ := holds_get t.fields vs hv j v (by simpa using hj)
      have := hget j f hf
      simpa [hsh] using this)
    (holds_zero t.fields vs hv) (le_refl _) (by omega) hr (by omega)
    (by simp only [List.length_nil]; omega)
  simp only [List.nil_append, List.length_nil, List.append_nil] at hfields
  have hwire : (t.wire reg) = t.fields.map fun f => (f.1, ((f.2.wireId reg : Nat) : Int)) := rfl
  rw [← hwire] at hc
  unfold decode
  rw [hseq]
  simp only [hlook, hc, hall, Bool.false_and, Bool.false_eq_true, if_false]
  exact hfields

end Gob

theorem blockRecord_valid : blockRecord.Valid := ⟨by decide, by decide, by decide, by decide⟩

namespace Gob

theorem sliceDefs_blockRecord (reg : Registry) :
    sliceDefs reg (blockRecord.fields.map Prod.snd) false false =
      message (encodeInt (-(reg.id .stringSlice : Int)) ++
        encodeSliceDef (ascii "[]string") (reg.id .stringSlice) 6) ++
        message (encodeInt (-(reg.id .byteSliceSlice : Int)) ++
          encodeSliceDef (ascii "[][]uint8") (reg.id .byteSliceSlice) 5) := by
  simp [blockRecord, sliceDefs]

theorem encodeSliceDef_length_le (name : Bytes) (tid elem : Nat) :
    (encodeSliceDef name tid elem).length ≤ 40 + name.length := by
  unfold encodeSliceDef
  have h1 := encodeNameId_length_le name tid
  have h2 := encodeInt_length_le elem
  split_ifs <;> simp only [List.length_append, List.length_cons, List.length_nil] at * <;> omega

theorem decodeTypeSequence_blockRecord (reg : Registry) (body : Bytes)
    (hbody : body.length < 2 ^ 63) :
    decodeTypeSequence 4 []
        (message (encodeInt (-(reg.id .blockRecord : Int)) ++
            encodeStructDef reg (reg.id .blockRecord) blockRecord) ++
          (message (encodeInt (-(reg.id .stringSlice : Int)) ++
              encodeSliceDef (ascii "[]string") (reg.id .stringSlice) 6) ++
            (message (encodeInt (-(reg.id .byteSliceSlice : Int)) ++
              encodeSliceDef (ascii "[][]uint8") (reg.id .byteSliceSlice) 5) ++
            message (encodeInt (reg.id .blockRecord) ++ body)))) =
      some (reg.id .blockRecord, body, blockTable reg) := by
  have ht := blockRecord_valid
  have hu1 := reg.user .blockRecord
  have hu2 := reg.user .stringSlice
  have hu3 := reg.user .byteSliceSlice
  have hs1 := reg.small .blockRecord
  have hs2 := reg.small .stringSlice
  have hs3 := reg.small .byteSliceSlice
  have hd12 : reg.id .stringSlice ≠ reg.id .blockRecord := fun e => by
    have := reg.distinct _ _ e; cases this
  have hd13 : reg.id .byteSliceSlice ≠ reg.id .blockRecord := fun e => by
    have := reg.distinct _ _ e; cases this
  have hd23 : reg.id .byteSliceSlice ≠ reg.id .stringSlice := fun e => by
    have := reg.distinct _ _ e; cases this
  have hdef : (encodeInt (-(reg.id .blockRecord : Int)) ++
      encodeStructDef reg (reg.id .blockRecord) blockRecord).length < 2 ^ 64 := by
    have h1 := encodeInt_length_le (-(reg.id .blockRecord : Int))
    have h2 := encodeStructDef_length_le reg (reg.id .blockRecord) blockRecord
    have h3 := ht.small
    simp only [List.length_append]
    omega
  have hsl : ∀ (name : Bytes) (tid elem : Nat), name.length < 2 ^ 32 →
      (encodeInt (-(tid : Int)) ++ encodeSliceDef name tid elem).length < 2 ^ 64 := by
    intro name tid elem hname
    have h1 := encodeInt_length_le (-(tid : Int))
    have h2 := encodeSliceDef_length_le name tid elem
    simp only [List.length_append]
    omega
  have hval : (encodeInt (reg.id .blockRecord : Int) ++ body).length < 2 ^ 64 := by
    have h1 := encodeInt_length_le (reg.id .blockRecord : Int)
    simp only [List.length_append]
    omega
  have hw := decodeWireType_encodeStructDef reg (reg.id .blockRecord) blockRecord ht hs1 []
  rw [List.append_nil] at hw
  have hw2 := decodeWireType_encodeSliceDef (ascii "[]string") (reg.id .stringSlice) 6 (by decide)
    hs2 (by norm_num) (by norm_num) []
  rw [List.append_nil] at hw2
  have hw3 := decodeWireType_encodeSliceDef (ascii "[][]uint8") (reg.id .byteSliceSlice) 5
    (by decide) hs3 (by norm_num) (by norm_num) []
  rw [List.append_nil] at hw3
  have hneg : ∀ n : Nat, 64 < n → ¬ (0 : Int) ≤ -(n : Int) := by intro n hn; omega
  have hto : ∀ n : Nat, (-(-(n : Int))).toNat = n := by intro n; simp
  have hm4 := readMessage_message (encodeInt (reg.id .blockRecord : Int) ++ body) [] hval
  rw [List.append_nil] at hm4
  simp only [decodeTypeSequence, readMessage_message _ _ hdef,
    readMessage_message _ _ (hsl (ascii "[]string") _ _ (by decide)),
    readMessage_message _ _ (hsl (ascii "[][]uint8") _ _ (by decide)),
    decodeInt_encodeInt (-(reg.id .blockRecord : Int)) (by omega) (by omega),
    decodeInt_encodeInt (-(reg.id .stringSlice : Int)) (by omega) (by omega),
    decodeInt_encodeInt (-(reg.id .byteSliceSlice : Int)) (by omega) (by omega),
    hneg _ hu1, hneg _ hu2, hneg _ hu3, if_false, hto, hw, hw2, hw3,
    List.lookup, Option.isSome_none, Bool.false_eq_true, or_false, hm4,
    decodeInt_encodeInt (reg.id .blockRecord : Int) (by omega) (by omega)]
  have e1 : (reg.id .stringSlice == reg.id .blockRecord) = false := by simpa using hd12
  have e2 : (reg.id .byteSliceSlice == reg.id .stringSlice) = false := by simpa using hd23
  have e3 : (reg.id .byteSliceSlice == reg.id .blockRecord) = false := by simpa using hd13
  simp only [e1, e2, e3, Option.isSome_none, Bool.false_eq_true, or_false]
  rw [if_neg (by omega), if_neg (by omega), if_neg (by omega), if_pos (by omega)]
  simp [blockTable]


theorem message_length_le (body : Bytes) : (message body).length ≤ 9 + body.length := by
  unfold message
  have := encodeUint_length_le body.length
  simp only [List.length_append]
  omega

theorem encode_basic_length_le (reg : Registry) (tid : Nat) (t : StructType)
    (hb : ∀ f ∈ t.fields, f.2.isBasic = true) (vs : List Value) :
    (encode reg tid t vs).length ≤
      100 + 21 * (t.name.length + (t.fields.map fun f => 1 + f.1.length).sum) +
        18 * (vs.map Value.size).sum := by
  have hdefs : sliceDefs reg (t.fields.map Prod.snd) false false = [] :=
    sliceDefs_basic reg _ (by
      intro k hk
      obtain ⟨f, hf, rfl⟩ := List.mem_map.mp hk
      exact hb f hf) false false
  have h1 := message_length_le (encodeInt (-(tid : Int)) ++ encodeStructDef reg tid t)
  have h2 := message_length_le (encodeInt (tid : Int) ++ encodeFields 0 0 vs)
  have h3 := encodeInt_length_le (-(tid : Int))
  have h4 := encodeInt_length_le (tid : Int)
  have h5 := encodeStructDef_length_le reg tid t
  have h6 := encodeFields_length_le vs 0 0
  simp only [encode, hdefs, List.length_append, List.append_nil, List.length_nil] at *
  omega

theorem shapeOf_blockTable (reg : Registry) :
    ∀ f ∈ blockRecord.fields, shapeOf (blockTable reg) (f.2.wireId reg) = some f.2.shape ∧
      compatible (blockTable reg) f.2 (f.2.wireId reg) = true := by
  have hu2 := reg.user .stringSlice
  have hu3 := reg.user .byteSliceSlice
  have hd23 : reg.id .byteSliceSlice ≠ reg.id .stringSlice := fun e => by
    have := reg.distinct _ _ e; cases this
  have e2 : (reg.id .stringSlice == reg.id .byteSliceSlice) = false := by
    simpa using fun e => hd23 e.symm
  have n1 : ¬ ((reg.id .stringSlice : Int) = 2) := by omega
  have n2 : ¬ ((reg.id .stringSlice : Int) = 5 ∨ (reg.id .stringSlice : Int) = 6) := by omega
  have n3 : ¬ ((reg.id .stringSlice : Int) < 0) := by omega
  have m1 : ¬ ((reg.id .byteSliceSlice : Int) = 2) := by omega
  have m2 : ¬ ((reg.id .byteSliceSlice : Int) = 5 ∨ (reg.id .byteSliceSlice : Int) = 6) := by
    omega
  have m3 : ¬ ((reg.id .byteSliceSlice : Int) < 0) := by omega
  intro f hf
  simp only [blockRecord, List.mem_cons, List.mem_singleton, List.not_mem_nil, or_false] at hf
  rcases hf with rfl | rfl | rfl | rfl | rfl | rfl
  · exact shapeOf_basic reg _ .int rfl
  · simp only [Kind.wireId, Kind.shape, shapeOf, compatible, blockTable, n1, n2, n3, if_false,
      Int.toNat_ofNat, List.lookup, e2, beq_self_eq_true]
    simp
  · simp only [Kind.wireId, Kind.shape, shapeOf, compatible, blockTable, m1, m2, m3, if_false,
      Int.toNat_ofNat, List.lookup, beq_self_eq_true]
    simp
  · exact shapeOf_basic reg _ .bytes rfl
  · exact shapeOf_basic reg _ .bytes rfl
  · exact shapeOf_basic reg _ .int rfl

/-- The record of a block decodes to the values it was encoded from. -/
theorem decode_encode_blockRecord (reg : Registry) (vs : List Value) (hv : blockRecord.Holds vs)
    (hr : ∀ v ∈ vs, v.InRange) (hs : (vs.map Value.size).sum < 2 ^ 58) :
    decode blockRecord (encode reg (reg.id .blockRecord) blockRecord vs) = some vs := by
  have hbody : (encodeFields 0 0 vs).length < 2 ^ 63 := by
    have := encodeFields_length_le vs 0 0
    omega
  have hseq := decodeTypeSequence_blockRecord reg _ hbody
  have henc : encode reg (reg.id .blockRecord) blockRecord vs =
      message (encodeInt (-(reg.id .blockRecord : Int)) ++
            encodeStructDef reg (reg.id .blockRecord) blockRecord) ++
          (message (encodeInt (-(reg.id .stringSlice : Int)) ++
              encodeSliceDef (ascii "[]string") (reg.id .stringSlice) 6) ++
            (message (encodeInt (-(reg.id .byteSliceSlice : Int)) ++
              encodeSliceDef (ascii "[][]uint8") (reg.id .byteSliceSlice) 5) ++
            message (encodeInt (reg.id .blockRecord) ++ encodeFields 0 0 vs))) := by
    simp only [encode, sliceDefs_blockRecord, List.append_assoc]
  have hl4 : 4 ≤ (encode reg (reg.id .blockRecord) blockRecord vs).length := by
    rw [henc]
    simp only [List.length_append]
    have := message_length_pos (encodeInt (-(reg.id .blockRecord : Int)) ++
      encodeStructDef reg (reg.id .blockRecord) blockRecord)
    have := message_length_pos (encodeInt (-(reg.id .stringSlice : Int)) ++
      encodeSliceDef (ascii "[]string") (reg.id .stringSlice) 6)
    have := message_length_pos (encodeInt (-(reg.id .byteSliceSlice : Int)) ++
      encodeSliceDef (ascii "[][]uint8") (reg.id .byteSliceSlice) 5)
    have := message_length_pos (encodeInt (reg.id .blockRecord : Int) ++ encodeFields 0 0 vs)
    omega
  have hseq2 := decodeTypeSequence_mono 4
    ((encode reg (reg.id .blockRecord) blockRecord vs).length - 4) _ _ _ hseq
  rw [show 4 + ((encode reg (reg.id .blockRecord) blockRecord vs).length - 4) =
      (encode reg (reg.id .blockRecord) blockRecord vs).length by omega, ← henc] at hseq2
  exact decode_of_sequence reg (reg.id .blockRecord) blockRecord blockRecord_valid vs hv hr hs _
    (blockTable reg) hseq2 (by
      have hd12 : reg.id .stringSlice ≠ reg.id .blockRecord := fun e => by
        have := reg.distinct _ _ e; cases this
      have hd13 : reg.id .byteSliceSlice ≠ reg.id .blockRecord := fun e => by
        have := reg.distinct _ _ e; cases this
      have e1 : (reg.id .blockRecord == reg.id .stringSlice) = false := by
        simpa using fun e => hd12 e.symm
      have e3 : (reg.id .blockRecord == reg.id .byteSliceSlice) = false := by
        simpa using fun e => hd13 e.symm
      simp [blockTable, List.lookup, e1, e3])
    (shapeOf_blockTable reg)

end Gob

theorem Serialize_length_lt (reg : Gob.Registry) (tx : Transaction)
    (h : tx.WellFormed) : (tx.Serialize reg).length < 2 ^ 37 := by
  cases tx with
  | registration tx =>
    obtain ⟨h1, h2, h3⟩ := h
    have := Gob.encode_basic_length_le reg (reg.id .VehicleRegistration)
      VehicleRegistration.gobType (by decide)
      [.bytes tx.VIN, .bytes tx.Owner, .int tx.RegistrationDate]
    have hn : VehicleRegistration.gobType.name.length +
        (VehicleRegistration.gobType.fields.map fun f => 1 + f.1.length).sum ≤ 100 := by decide
    simp only [List.map_cons, List.map_nil, List.sum_cons, List.sum_nil, Gob.Value.size] at this
    simp only [Transaction.Serialize, VehicleRegistration.Serialize]
    omega
  | sale tx =>
    obtain ⟨h1, h2, h3, h4, h5⟩ := h
    have := Gob.encode_basic_length_le reg (reg.id .VehicleSale) VehicleSale.gobType (by decide)
      [.bytes tx.VIN, .bytes tx.Dealer, .bytes tx.Buyer, .int tx.SaleDate, .int tx.Price]
    have hn : VehicleSale.gobType.name.length +
        (VehicleSale.gobType.fields.map fun f => 1 + f.1.length).sum ≤ 100 := by decide
    simp only [List.map_cons, List.map_nil, List.sum_cons, List.sum_nil, Gob.Value.size] at this
    simp only [Transaction.Serialize, VehicleSale.Serialize]
    omega
  | loan tx =>
    obtain ⟨h1, h2, h3, h4, h5, h6⟩ := h
    have := Gob.encode_basic_length_le reg (reg.id .LoanContract) LoanContract.gobType
      (by decide)
      [.bytes tx.VIN, .bytes tx.Borrower, .bytes tx.Lender, .int tx.LoanAmount,
        .int tx.StartDate, .int tx.EndDate]
    have hn : LoanContract.gobType.name.length +
        (LoanContract.gobType.fields.map fun f => 1 + f.1.length).sum ≤ 100 := by decide
    simp only [List.map_cons, List.map_nil, List.sum_cons, List.sum_nil, Gob.Value.size] at this
    simp only [Transaction.Serialize, LoanContract.Serialize]
    omega
  | genesis tx =>
    have h1 : tx.VIN.length < 2 ^ 31 := h
    have := Gob.encode_basic_length_le reg (reg.id .genesis) genesis.gobType (by decide)
      [.bytes tx.VIN]
    have hn : genesis.gobType.name.length +
        (genesis.gobType.fields.map fun f => 1 + f.1.length).sum ≤ 100 := by decide
    simp only [List.map_cons, List.map_nil, List.sum_cons, List.sum_nil, Gob.Value.size] at this
    simp only [Transaction.Serialize, genesis.Serialize]
    omega

theorem decodeTransactions_Serialize (reg : Gob.Registry) (txs : List Transaction)
    (h : ∀ tx ∈ txs, tx.WellFormed) :
    decodeTransactions (txs.map Transaction.typeName) (txs.map fun tx => tx.Serialize reg) =
      .ok (txs.map some) := by
  induction txs with
  | nil => rfl
  | cons tx txs ih =>
    simp only [List.map_cons, decodeTransactions,
      decodeTransaction_Serialize reg tx (h tx (by simp)), ih (fun t ht => h t (by simp [ht]))]

theorem typeName_length_le (tx : Transaction) : tx.typeName.length ≤ 19 := by
  cases tx with
  | registration tx => exact (by decide : (ascii "VehicleRegistration").length ≤ 19)
  | sale tx => exact (by decide : (ascii "VehicleSale").length ≤ 19)
  | loan tx => exact (by decide : (ascii "LoanContract").length ≤ 19)
  | genesis tx => exact (by decide : (ascii "genesis").length ≤ 19)

/-- A well-formed block decodes from its encoded form to itself. -/
theorem DeserializeBlock_Serialize (reg : Gob.Registry) (b : Block) (h : b.WellFormed) :
    DeserializeBlock (b.Serialize reg) = .ok b.decoded := by
  have hsum1 : (b.Transaction_types.map fun s => 1 + s.length).sum ≤
      b.Transactions.length * 20 := by
    rw [h.types, List.map_map]
    have := List.sum_le_card_nsmul (b.Transactions.map ((fun s : Bytes => 1 + s.length) ∘
      Transaction.typeName)) 20 (by
        intro x hx
        obtain ⟨tx, _, rfl⟩ := List.mem_map.mp hx
        have := typeName_length_le tx
        simp only [Function.comp_apply]
        omega)
    simpa using this
  have hsum2 : ((b.Transactions.map fun tx => tx.Serialize reg).map fun s => 1 + s.length).sum ≤
      b.Transactions.length * 2 ^ 37 := by
    rw [List.map_map]
    have := List.sum_le_card_nsmul (b.Transactions.map ((fun s : Bytes => 1 + s.length) ∘
      fun tx => tx.Serialize reg)) (2 ^ 37) (by
        intro x hx
        obtain ⟨tx, htx, rfl⟩ := List.mem_map.mp hx
        have := Serialize_length_lt reg tx (h.transactions tx htx)
        simp only [Function.comp_apply]
        omega)
    simpa using this
  have hc := h.count
  have hp := h.prev
  have hh := h.hash
  have hdec := Gob.decode_encode_blockRecord reg
    [.int b.Timestamp, .list b.Transaction_types,
      .list (b.Transactions.map fun tx => tx.Serialize reg),
      .bytes b.PrevBlockHash, .bytes b.Hash, .int b.Nonce]
    (by simp [Gob.StructType.Holds, blockRecord, Gob.Value.hasKind])
    (by simp [Gob.Value.InRange, h.timestamp, h.nonce])
    (by
      simp only [List.map_cons, List.map_nil, List.sum_cons, List.sum_nil, Gob.Value.size]
      omega)
  unfold DeserializeBlock Block.Serialize
  rw [hdec]
  simp only
  rw [h.types, decodeTransactions_Serialize reg b.Transactions h.transactions]
  simp [Block.decoded, h.types]

/-! ## Blocks in the bucket -/

theorem runLoop_hash_length (reg : Gob.Registry) (target : Nat) :
    ∀ (fuel : Nat) (b : Block) (hash : Bytes), hash.length = 32 →
      (runLoop reg target fuel b hash).1.length = 32 := by
  intro fuel
  induction fuel with
  | zero => intro b hash h; exact h
  | succ fuel ih =>
    intro b hash h
    simp only [runLoop]
    split_ifs
    · exact Sum256_length _
    · exact ih _ _ (Sum256_length _)
    · exact h

theorem runLoop_nonce_le (reg : Gob.Registry) (target : Nat) :
    ∀ (fuel : Nat) (b : Block) (hash : Bytes), b.Nonce ≤ maxNonce →
      (runLoop reg target fuel b hash).2.Nonce ≤ maxNonce := by
  intro fuel
  induction fuel with
  | zero => intro b hash h; exact h
  | succ fuel ih =>
    intro b hash h
    simp only [runLoop]
    split_ifs with h1 h2
    · exact h
    · exact ih _ _ (by simp only; omega)
    · exact h

/-- The fields of the block `NewBlock` returns, but for the nonce and the hash the
search leaves. -/
theorem NewBlock_fields (reg : Gob.Registry) (now : Int) (txs : List Transaction)
    (prev : Bytes) :
    (NewBlock reg now txs prev).Timestamp = now ∧
      (NewBlock reg now txs prev).Transaction_types = txs.map Transaction.typeName ∧
      (NewBlock reg now txs prev).Transactions = txs ∧
      (NewBlock reg now txs prev).PrevBlockHash = prev ∧
      (NewBlock reg now txs prev).Hash.length = 32 ∧
      0 ≤ (NewBlock reg now txs prev).Nonce ∧ (NewBlock reg now txs prev).Nonce ≤ maxNonce := by
  obtain ⟨h1, h2, -⟩ := runLoop_least reg (NewProofOfWork ⟨now, [], txs, prev, [], 0⟩).target
    maxNonce.toNat ⟨now, [], txs, prev, [], 0⟩ (List.replicate 32 (byte 0))
  have h3 := runLoop_nonce_le reg (NewProofOfWork ⟨now, [], txs, prev, [], 0⟩).target
    maxNonce.toNat ⟨now, [], txs, prev, [], 0⟩ (List.replicate 32 (byte 0))
    (show (0 : Int) ≤ maxNonce by decide)
  have h4 := runLoop_hash_length reg (NewProofOfWork ⟨now, [], txs, prev, [], 0⟩).target
    maxNonce.toNat ⟨now, [], txs, prev, [], 0⟩ (List.replicate 32 (byte 0)) (by simp)
  simp only [NewBlock, ProofOfWork.Run, NewProofOfWork] at h1 h2 h3 h4 ⊢
  rw [h1]
  refine ⟨?_, ?_, ?_, ?_, h4, h2, h3⟩ <;> first | rfl | trivial

theorem NewBlock_wellFormed (reg : Gob.Registry) (now : Int) (txs : List Transaction)
    (prev : Bytes) (hnow : isInt64 now) (htx : ∀ tx ∈ txs, tx.WellFormed)
    (hcount : txs.length < 2 ^ 20) (hprev : prev.length < 2 ^ 31) :
    (NewBlock reg now txs prev).WellFormed := by
  obtain ⟨h1, h2, h3, h4, h5, h6, h7⟩ := NewBlock_fields reg now txs prev
  refine ⟨by rw [h1]; exact hnow, ?_, by rw [h2, h3], by rw [h3]; exact htx, by rw [h3]; exact hcount,
    by rw [h4]; exact hprev, by rw [h5]; norm_num⟩
  have : maxNonce = 2 ^ 63 - 1 := rfl
  constructor <;> omega

theorem Get_Put_same (b : Bucket) (k v : Bytes) : (b.Put k v).Get k = v := by
  simp [Bucket.Get, Bucket.Put, List.lookup]

theorem lookup_filter_ne (k k2 : Bytes) (h : k2 ≠ k) (l : List (Bytes × Bytes)) :
    (l.filter fun e => e.1 != k).lookup k2 = l.lookup k2 := by
  induction l with
  | nil => rfl
  | cons e l ih =>
    obtain ⟨a, v⟩ := e
    by_cases ha : a = k
    · subst ha
      have hne : (k2 == a) = false := by simpa using h
      simp [List.filter, List.lookup, hne, ih]
    · have hne : (a != k) = true := by simpa using ha
      simp only [List.filter, hne, List.lookup]
      cases hk : k2 == a <;> simp [ih]

theorem Get_Put_ne (b : Bucket) (k v k2 : Bytes) (h : k2 ≠ k) :
    (b.Put k v).Get k2 = b.Get k2 := by
  have hne : (k2 == k) = false := by simpa using h
  simp only [Bucket.Get, Bucket.Put, List.lookup, hne, lookup_filter_ne k k2 h]

theorem tipKey_length : tipKey.length = 1 := by decide

/-- What `AddBlock` leaves in the bucket: the new block under its hash, the
hash under the tip key, every other key as before. -/
theorem AddBlock_db (reg : Gob.Registry) (now : Int) (bc : Blockchain) (t : List Transaction) :
    (bc.AddBlock reg now t).tip = (NewBlock reg now t (bc.db.Get tipKey)).Hash ∧
      (bc.AddBlock reg now t).db.Get tipKey = (NewBlock reg now t (bc.db.Get tipKey)).Hash ∧
      (bc.AddBlock reg now t).db.Get (NewBlock reg now t (bc.db.Get tipKey)).Hash =
        (NewBlock reg now t (bc.db.Get tipKey)).Serialize reg ∧
      ∀ k, k ≠ tipKey → k ≠ (NewBlock reg now t (bc.db.Get tipKey)).Hash →
        (bc.AddBlock reg now t).db.Get k = bc.db.Get k := by
  have hlen := (NewBlock_fields reg now t (bc.db.Get tipKey)).2.2.2.2.1
  have hne : (NewBlock reg now t (bc.db.Get tipKey)).Hash ≠ tipKey := by
    intro e
    rw [e, tipKey_length] at hlen
    omega
  refine ⟨rfl, ?_, ?_, ?_⟩
  · simp only [Blockchain.AddBlock, Get_Put_same]
  · simp only [Blockchain.AddBlock]
    rw [Get_Put_ne _ _ _ _ hne, Get_Put_same]
  · intro k h1 h2
    simp only [Blockchain.AddBlock]
    rw [Get_Put_ne _ _ _ _ h1, Get_Put_ne _ _ _ _ h2]

/-- The hash under the tip key of a chain made by `NewBlockchain` on an empty
database and `AddBlock`. -/
theorem NewBlockchain_tip_length (reg : Gob.Registry) (now : Int) :
    ((NewBlockchain reg now none).db.Get tipKey).length = 32 := by
  simp only [NewBlockchain, Get_Put_same]
  exact (NewBlock_fields reg now _ _).2.2.2.2.1

theorem AddBlock_tip_length (reg : Gob.Registry) (now : Int) (bc : Blockchain)
    (t : List Transaction) : ((bc.AddBlock reg now t).db.Get tipKey).length = 32 := by
  rw [(AddBlock_db reg now bc t).2.1]
  exact (NewBlock_fields reg now _ _).2.2.2.2.1

/-- After `AddBlock`, `Next` on a fresh iterator returns the new block and moves
to the hash that was the tip before. -/
theorem AddBlock_Next (reg : Gob.Registry) (now : Int) (bc : Blockchain) (t : List Transaction)
    (hnow : isInt64 now) (ht : ∀ tx ∈ t, tx.WellFormed) (hcount : t.length < 2 ^ 20)
    (hprev : (bc.db.Get tipKey).length < 2 ^ 31) :
    (bc.AddBlock reg now t).Iterator.Next =
      .ok ((NewBlock reg now t (bc.db.Get tipKey)).decoded,
        ⟨bc.db.Get tipKey, (bc.AddBlock reg now t).db⟩) := by
  obtain ⟨h1, -, h3, -⟩ := AddBlock_db reg now bc t
  have hwf := NewBlock_wellFormed reg now t (bc.db.Get tipKey) hnow ht hcount hprev
  have hp := (NewBlock_fields reg now t (bc.db.Get tipKey)).2.2.2.1
  simp only [BlockchainIterator.Next, Blockchain.Iterator, h1, h3,
    DeserializeBlock_Serialize reg _ hwf]
  simp [Block.decoded, hp]

/-! ## The query loops -/

theorem ownerIn_eq_findSome (vin : Bytes) (l : List (Option Transaction)) :
    ownerIn vin l = l.findSome? (slotOwner vin) := by
  induction l with
  | nil => rfl
  | cons slot l ih =>
    cases slot with
    | none => simp [ownerIn, slotOwner, ih]
    | some tx =>
      cases tx with
      | registration tx =>
        by_cases h : tx.VIN = vin <;>
          simp [ownerIn, slotOwner, Transaction.ownerOf, h, ih]
      | sale tx =>
        by_cases h : tx.VIN = vin <;>
          simp [ownerIn, slotOwner, Transaction.ownerOf, h, ih]
      | loan tx => simp [ownerIn, slotOwner, Transaction.ownerOf, ih]
      | genesis tx => simp [ownerIn, slotOwner, Transaction.ownerOf, ih]

theorem findSome_eq_head_filterMap {α β : Type} (f : α → Option β) (l : List α) :
    l.findSome? f = (l.filterMap f).head? := by
  induction l with
  | nil => rfl
  | cons a l ih =>
    rw [List.findSome?_cons, List.filterMap_cons]
    cases h : f a with
    | none => exact ih
    | some b => rfl

theorem walkOrder_eq_reverse (blocks : List DecodedBlock) :
    walkOrder blocks = (recordedOrder blocks).reverse := by
  unfold walkOrder recordedOrder
  rw [List.reverse_flatMap, List.reverse_reverse]
  rfl

theorem walk_first_eq_recorded_last (vin : Bytes) (blocks : List DecodedBlock) :
    (walkOrder blocks).findSome? (slotOwner vin) =
      ((recordedOrder blocks).filterMap (slotOwner vin)).getLast? := by
  rw [findSome_eq_head_filterMap, walkOrder_eq_reverse, List.filterMap_reverse,
    List.head?_reverse]

theorem findOwnerLoop_drain (vin : Bytes) :
    ∀ (fuel : Nat) (bci : BlockchainIterator) (blocks : List DecodedBlock),
      drain fuel bci = some blocks →
      findOwnerLoop vin fuel bci =
        some (ownerResult ((walkOrder blocks).findSome? (slotOwner vin))) := by
  intro fuel
  induction fuel with
  | zero => intro bci blocks h; simp [drain] at h
  | succ fuel ih =>
    intro bci blocks h
    cases hn : bci.Next with
    | error msg => simp [drain, hn] at h
    | panic => simp [drain, hn] at h
    | ok p =>
      obtain ⟨block, bci2⟩ := p
      simp only [drain, hn] at h
      simp only [findOwnerLoop, hn, ownerIn_eq_findSome]
      by_cases hg : block.PrevBlockHash.length = 0
      · simp only [hg, if_true, Option.some.injEq] at h
        subst h
        simp only [walkOrder, List.flatMap_cons, List.flatMap_nil, List.append_nil]
        cases hf : block.Transactions.reverse.findSome? (slotOwner vin) with
        | some owner => rfl
        | none => simp only [hg, if_true, ownerResult]
      · simp only [hg, if_false, Option.map_eq_some'] at h
        obtain ⟨rest, hrest, rfl⟩ := h
        simp only [walkOrder, List.flatMap_cons, List.findSome?_append, hg, if_false]
        cases hf : block.Transactions.reverse.findSome? (slotOwner vin) with
        | some owner => rfl
        | none =>
          simp only [Option.none_or]
          exact ih bci2 rest hrest

theorem activeLoanIn_iff (vin : Bytes) (asOf : Int) (l : List (Option Transaction)) :
    activeLoanIn vin asOf l = true ↔ ∃ slot ∈ l, isActiveLoan vin asOf slot := by
  induction l with
  | nil => simp [activeLoanIn]
  | cons slot l ih =>
    have hstep : (∃ s ∈ slot :: l, isActiveLoan vin asOf s) ↔
        (isActiveLoan vin asOf slot ∨ ∃ s ∈ l, isActiveLoan vin asOf s) := by simp
    rw [hstep, ← ih]
    cases slot with
    | none => simp [activeLoanIn, isActiveLoan]
    | some tx =>
      cases tx with
      | loan tx =>
        by_cases h : tx.VIN = vin <;> by_cases h2 : tx.EndDate > asOf <;>
          simp_all [activeLoanIn, isActiveLoan]
      | registration tx => simp [activeLoanIn, isActiveLoan]
      | sale tx => simp [activeLoanIn, isActiveLoan]
      | genesis tx => simp [activeLoanIn, isActiveLoan]

theorem activeLoanLoop_drain (vin : Bytes) (asOf : Int) :
    ∀ (fuel : Nat) (bci : BlockchainIterator) (blocks : List DecodedBlock),
      drain fuel bci = some blocks →
      ∃ r : Bool, activeLoanLoop vin asOf fuel bci = some (.ok r) ∧
        (r = true ↔ ∃ b ∈ blocks, ∃ slot ∈ b.Transactions, isActiveLoan vin asOf slot) := by
  intro fuel
  induction fuel with
  | zero => intro bci blocks h; simp [drain] at h
  | succ fuel ih =>
    intro bci blocks h
    cases hn : bci.Next with
    | error msg => simp [drain, hn] at h
    | panic => simp [drain, hn] at h
    | ok p =>
      obtain ⟨block, bci2⟩ := p
      simp only [drain, hn] at h
      simp only [activeLoanLoop, hn]
      by_cases ha : activeLoanIn vin asOf block.Transactions = true
      · refine ⟨true, by simp [ha], ?_⟩
        have hmem : block ∈ blocks := by
          by_cases hg : block.PrevBlockHash.length = 0
          · simp only [hg, if_true, Option.some.injEq] at h
            subst h; simp
          · simp only [hg, if_false, Option.map_eq_some'] at h
            obtain ⟨rest, _, rfl⟩ := h
            simp
        simp only [true_iff]
        exact ⟨block, hmem, (activeLoanIn_iff vin asOf _).mp ha⟩
      · have hno : ¬ ∃ slot ∈ block.Transactions, isActiveLoan vin asOf slot :=
          fun hex => ha ((activeLoanIn_iff vin asOf _).mpr hex)
        by_cases hg : block.PrevBlockHash.length = 0
        · simp only [hg, if_true, Option.some.injEq] at h
          subst h
          refine ⟨false, by simp [ha, hg], ?_⟩
          simp only [Bool.false_eq_true, false_iff, List.mem_singleton, exists_eq_left]
          exact hno
        · simp only [hg, if_false, Option.map_eq_some'] at h
          obtain ⟨rest, hrest, rfl⟩ := h
          obtain ⟨r, hr, hiff⟩ := ih bci2 rest hrest
          refine ⟨r, by simp [ha, hg, hr], ?_⟩
          rw [hiff]
          simp only [List.mem_cons, exists_eq_or_imp]
          constructor
          · intro hx; exact Or.inr hx
          · intro hx
            rcases hx with hx | hx
            · exact absurd hx hno
            · exact hx

/-! ## The library models: decimal rendering and published vectors -/

theorem byte_digit_val (d : Nat) (h : d < 10) : (byte (48 + d)).val = 48 + d := by
  simp only [byte_val]
  omega

/-- The digits `decimalDigits` puts in front of `acc`: decimal digits, at least
one, that read back as `n`. -/
theorem decimalDigits_spec :
    ∀ (fuel n : Nat) (acc : Bytes), n < fuel →
      ∃ ds : Bytes, decimalDigits fuel n acc = ds ++ acc ∧ ds ≠ [] ∧
        (∀ b ∈ ds, 48 ≤ b.val ∧ b.val ≤ 57) ∧
        ∀ init : Nat, ds.foldl (fun a (b : Byte) => a * 10 + (b.val - 48)) init =
          init * 10 ^ ds.length + n := by
  intro fuel
  induction fuel with
  | zero => intro n acc h; omega
  | succ fuel ih =>
    intro n acc h
    by_cases hn : n < 10
    · refine ⟨[byte (48 + n)], by simp [decimalDigits, hn], by simp, ?_, ?_⟩
      · intro b hb
        simp only [List.mem_singleton] at hb
        subst hb
        rw [byte_digit_val n hn]
        omega
      · intro init
        simp only [List.foldl_cons, List.foldl_nil, List.length_singleton, pow_one,
          byte_digit_val n hn]
        omega
    · obtain ⟨ds, hds, hne, hdig, hval⟩ := ih (n / 10) (byte (48 + n % 10) :: acc) (by omega)
      have hlt : n % 10 < 10 := Nat.mod_lt _ (by norm_num)
      refine ⟨ds ++ [byte (48 + n % 10)], ?_, by simp, ?_, ?_⟩
      · simp only [decimalDigits, hn, if_false, hds, List.append_assoc, List.singleton_append]
      · intro b hb
        rcases List.mem_append.mp hb with hb | hb
        · exact hdig b hb
        · simp only [List.mem_singleton] at hb
          subst hb
          rw [byte_digit_val _ hlt]
          omega
      · intro init
        rw [List.foldl_append, hval init]
        simp only [List.foldl_cons, List.foldl_nil, List.length_append, List.length_singleton,
          byte_digit_val _ hlt, pow_succ]
        have := Nat.div_add_mod n 10
        have e : 48 + n % 10 - 48 = n % 10 := by omega
        rw [e]
        nlinarith [Nat.div_add_mod n 10]

/-- `FormatInt` is a decimal rendering: it reads back as the number rendered. -/
theorem ParseInt_FormatInt (i : Int) : ParseInt (FormatInt i) = i := by
  unfold FormatInt
  obtain ⟨ds, hds, hne, hdig, hval⟩ := decimalDigits_spec (i.natAbs + 1) i.natAbs [] (by omega)
  rw [List.append_nil] at hds
  have hparse : parseDecimal ds = i.natAbs := by
    have := hval 0
    simpa [parseDecimal] using this
  split_ifs with hneg
  · rw [hds]
    have h45 : (byte 45).val = 45 := rfl
    simp only [ParseInt, h45, if_true, hparse]
    omega
  · rw [hds]
    cases hd : ds with
    | nil => exact absurd hd hne
    | cons b rest =>
      have hb := hdig b (by rw [hd]; simp)
      have hb45 : b.val ≠ 45 := by omega
      simp only [ParseInt, hb45, if_false]
      rw [← hd, hparse]
      omega

/-- `FormatInt` renders different numbers differently. -/
theorem FormatInt_injective : Function.Injective FormatInt := by
  intro a b h
  rw [← ParseInt_FormatInt a, ← ParseInt_FormatInt b, h]

/-- The model of `crypto/sha256` on the test vector "abc" of FIPS 180-4. -/
theorem Sum256_abc :
    SHA256.Sum256 (ascii "abc") =
      beBytes 32 0xba7816bf8f01cfea414140de5dae2223b00361a396177a9cb410ff61f20015ad := by
  decide

/-- The model of `encoding/gob` on the example of the package documentation:
`Point{22, 33}` with `type Point struct { X, Y int }` and type id 65. -/
theorem encode_documented_example :
    Gob.encode registryInOrder 65 ⟨ascii "Point", [(ascii "X", .int), (ascii "Y", .int)]⟩
        [.int 22, .int 33] =
      [0x1f, 0xff, 0x81, 0x03, 0x01, 0x01, 0x05, 0x50, 0x6f, 0x69, 0x6e, 0x74, 0x01, 0xff, 0x82,
        0x00, 0x01, 0x02, 0x01, 0x01, 0x58, 0x01, 0x04, 0x00, 0x01, 0x01, 0x59, 0x01, 0x04, 0x00,
        0x00, 0x00, 0x07, 0xff, 0x82, 0x01, 0x2c, 0x01, 0x42, 0x00] := by
  decide

/-! ## The search when no nonce meets the target -/

/-- When no nonce from the one the loop starts with meets the target and the fuel
ends at `maxNonce`, the loop returns the digest of its last turn and leaves the
nonce one past it. -/
theorem runLoop_exhausted (reg : Gob.Registry) (target : Nat) :
    ∀ (fuel : Nat) (b : Block) (hash : Bytes),
      b.Nonce + ((fuel + 1 : Nat) : Int) ≤ maxNonce →
      (∀ k : Nat, k ≤ fuel → ¬ meets reg target { b with Nonce := b.Nonce + k }) →
      runLoop reg target (fuel + 1) b hash =
        (SHA256.Sum256 (({ b with Nonce := b.Nonce + fuel } : Block).prepareData reg),
          { b with Nonce := b.Nonce + ((fuel + 1 : Nat) : Int) }) := by
  intro fuel
  induction fuel with
  | zero =>
    intro b hash hle hno
    have hlt : b.Nonce < maxNonce := by push_cast at hle; omega
    have h0 : ¬ beNat (SHA256.Sum256 (b.prepareData reg)) < target := by
      have := hno 0 (le_refl _)
      rwa [Nat.cast_zero, block_nonce_eta] at this
    have hr : runLoop reg target 1 b hash =
        runLoop reg target 0 { b with Nonce := b.Nonce + 1 }
          (SHA256.Sum256 (b.prepareData reg)) := by
      simp only [runLoop, hlt, h0, if_true, if_false]
    rw [hr]
    simp only [runLoop, Nat.cast_zero, block_nonce_eta, zero_add, Nat.cast_one]
  | succ fuel ih =>
    intro b hash hle hno
    have hlt : b.Nonce < maxNonce := by push_cast at hle; omega
    have h0 : ¬ beNat (SHA256.Sum256 (b.prepareData reg)) < target := by
      have := hno 0 (Nat.zero_le _)
      rwa [Nat.cast_zero, block_nonce_eta] at this
    have hr : runLoop reg target (fuel + 1 + 1) b hash =
        runLoop reg target (fuel + 1) { b with Nonce := b.Nonce + 1 }
          (SHA256.Sum256 (b.prepareData reg)) := by
      simp only [runLoop, hlt, h0, if_true, if_false]
    rw [hr, ih { b with Nonce := b.Nonce + 1 } _ (by simp only; push_cast at hle ⊢; omega)
      (by
        intro k hk
        have := hno (k + 1) (by omega)
        have hcast : b.Nonce + 1 + (k : Int) = b.Nonce + ((k + 1 : Nat) : Int) := by
          push_cast; ring
        simp only [hcast]
        exact this)]
    have e1 : b.Nonce + 1 + (fuel : Int) = b.Nonce + ((fuel + 1 : Nat) : Int) := by
      push_cast; ring
    have e2 : b.Nonce + 1 + ((fuel + 1 : Nat) : Int) = b.Nonce + ((fuel + 1 + 1 : Nat) : Int) := by
      push_cast; ring
    simp only [e1, e2]

theorem maxNonce_toNat : maxNonce.toNat = (2 ^ 63 - 2) + 1 := by decide

/-- What `Run` returns when no nonce below `maxNonce` meets the target. -/
theorem Run_exhausted (reg : Gob.Registry) (pow : ProofOfWork)
    (h : ∀ n : Nat, (n : Int) < maxNonce →
      ¬ meets reg pow.target { pow.block with Nonce := (n : Int) }) :
    pow.Run reg =
      (SHA256.Sum256 (({ pow.block with Nonce := maxNonce - 1 } : Block).prepareData reg),
        { pow.block with Nonce := maxNonce }) := by
  have hrun := runLoop_exhausted reg pow.target (2 ^ 63 - 2) { pow.block with Nonce := 0 }
    (List.replicate 32 (byte 0)) (by simp only [maxNonce]; norm_num)
    (by
      intro k hk
      simp only [zero_add]
      exact h k (by simp only [maxNonce]; omega))
  simp only [zero_add] at hrun
  unfold ProofOfWork.Run
  rw [maxNonce_toNat, hrun]
  rfl

/-- What `NewBlock` returns when no nonce below `maxNonce` meets the target: a
block like any other, its `Hash` the digest of the last nonce tried. -/
theorem NewBlock_exhausted (reg : Gob.Registry) (now : Int) (txs : List Transaction)
    (prev : Bytes)
    (h : ∀ n : Nat, (n : Int) < maxNonce →
      ¬ meets reg (2 ^ (256 - targetBits)) ⟨now, [], txs, prev, [], n⟩) :
    NewBlock reg now txs prev =
      ⟨now, txs.map Transaction.typeName, txs, prev,
        SHA256.Sum256 ((⟨now, [], txs, prev, [], maxNonce - 1⟩ : Block).prepareData reg),
        maxNonce⟩ := by
  have hrun := Run_exhausted reg (NewProofOfWork ⟨now, [], txs, prev, [], 0⟩) (by
    intro n hn
    have := h n hn
    simpa only [NewProofOfWork, Nat.one_shiftLeft] using this)
  simp only [NewBlock, hrun]
  rfl

/-! ## The leading bits of a digest -/

theorem byte_zero_iff_bits (d : Byte) :
    d.val = 0 ↔ ∀ j, j < 8 → d.val.testBit (7 - j) = false := by
  revert d; decide

theorem byte_lt16_iff_bits (d : Byte) :
    d.val < 16 ↔ ∀ j, j < 4 → d.val.testBit (7 - j) = false := by
  revert d; decide

/-- A 32-byte string is below 2^244 as a big-endian number exactly when its first
twelve bits are zero. -/
theorem lt_pow_244_iff_bits (d : Bytes) (h : d.length = 32) :
    beNat d < 2 ^ 244 ↔ ∀ i, i < 12 → bitAt d i = false := by
  obtain ⟨d0, d1, rest, rfl, hr⟩ : ∃ d0 d1 rest, d = d0 :: d1 :: rest ∧ rest.length = 30 := by
    match d, h with
    | d0 :: d1 :: rest, h => exact ⟨d0, d1, rest, rfl, by simpa using h⟩
  have hlt := beNat_lt rest
  rw [hr] at hlt
  have hnum : beNat (d0 :: d1 :: rest) < 2 ^ 244 ↔ d0.val = 0 ∧ d1.val < 16 := by
    rw [beNat_cons, beNat_cons, List.length_cons, hr]
    have h0 := d0.isLt
    have h1 := d1.isLt
    constructor
    · intro hx
      constructor <;> omega
    · rintro ⟨e0, e1⟩
      rw [e0]
      omega
  rw [hnum, byte_zero_iff_bits, byte_lt16_iff_bits]
  constructor
  · rintro ⟨a0, a1⟩ i hi
    by_cases h8 : i < 8
    · have : i / 8 = 0 := by omega
      have h2 : i % 8 = i := by omega
      simp only [bitAt, this, h2, List.getD_cons_zero]
      exact a0 i h8
    · have : i / 8 = 1 := by omega
      have h2 : i % 8 = i - 8 := by omega
      simp only [bitAt, this, h2, List.getD_cons_succ, List.getD_cons_zero]
      exact a1 (i - 8) (by omega)
  · intro hb
    constructor
    · intro j hj
      have := hb j (by omega)
      have h1 : j / 8 = 0 := by omega
      have h2 : j % 8 = j := by omega
      simpa only [bitAt, h1, h2, List.getD_cons_zero] using this
    · intro j hj
      have := hb (j + 8) (by omega)
      have h1 : (j + 8) / 8 = 1 := by omega
      have h2 : (j + 8) % 8 = j := by omega
      simpa only [bitAt, h1, h2, List.getD_cons_succ, List.getD_cons_zero] using this

/-! ## Blocks by the length of their encoded form -/

namespace Gob

theorem encodeUint_length_pos (x : Nat) : 1 ≤ (encodeUint x).length := by
  unfold encodeUint
  split_ifs <;> simp

theorem flatten_encodeBytes_length_ge (l : List Bytes) :
    (l.map fun b => 1 + b.length).sum ≤ ((l.map encodeBytes).flatten).length := by
  induction l with
  | nil => simp
  | cons b l ih =>
    have := encodeUint_length_pos b.length
    simp only [List.map_cons, List.sum_cons, List.flatten_cons, List.length_append, encodeBytes]
    omega

/-- The encoding of a value is at least as long as the measure of its room. -/
theorem size_le_encodeValue_length (v : Value) : v.size ≤ (encodeValue v).length := by
  cases v with
  | int i => exact encodeUint_length_pos _
  | bytes b =>
    have := encodeUint_length_pos b.length
    simp only [Value.size, encodeValue, encodeBytes, List.length_append]
    omega
  | list l =>
    have := encodeUint_length_pos l.length
    have := flatten_encodeBytes_length_ge l
    simp only [Value.size, encodeValue, List.length_append]
    omega

theorem size_of_isZero (v : Value) (h : v.isZero = true) : v.size = 1 := by
  cases v with
  | int i => rfl
  | bytes b =>
    have : b = [] := by simpa [Value.isZero] using h
    simp [Value.size, this]
  | list l =>
    have : l = [] := by simpa [Value.isZero] using h
    simp [Value.size, this]

theorem sum_size_le_encodeFields_length (vs : List Value) (i sent : Nat) :
    (vs.map Value.size).sum ≤ (encodeFields i sent vs).length + vs.length := by
  induction vs generalizing i sent with
  | nil => simp
  | cons v vs ih =>
    simp only [List.map_cons, List.sum_cons, encodeFields, List.length_cons]
    split_ifs with hz
    · have := ih (i + 1) sent
      have := size_of_isZero v hz
      omega
    · have := ih (i + 1) (i + 1)
      have := size_le_encodeValue_length v
      simp only [List.length_append]
      omega

theorem encodeFields_length_le_encode (reg : Registry) (tid : Nat) (t : StructType)
    (vs : List Value) : (encodeFields 0 0 vs).length ≤ (encode reg tid t vs).length := by
  simp only [encode, message, List.length_append]
  omega

end Gob

theorem decodeTransactions_surplus (reg : Gob.Registry) (txs : List Transaction)
    (extra : List Bytes) (h : ∀ tx ∈ txs, tx.WellFormed) :
    decodeTransactions (txs.map Transaction.typeName ++ extra)
      (txs.map fun tx => tx.Serialize reg) = .ok (txs.map some) := by
  induction txs with
  | nil => cases extra <;> rfl
  | cons tx txs ih =>
    have ih2 := ih (fun t ht => h t (by simp [ht]))
    rw [List.map_cons, List.map_cons, List.cons_append, decodeTransactions,
      decodeTransaction_Serialize reg tx (h tx (by simp))]
    simp only [ih2, List.map_cons]

/-- A block within the 8 GB of one message decodes from its encoded form to
itself, when its kind tags begin with the names of its transactions. -/
theorem DeserializeBlock_Serialize_of_length (reg : Gob.Registry) (b : Block)
    (extra : List Bytes) (ht : isInt64 b.Timestamp) (hn : isInt64 b.Nonce)
    (htypes : b.Transaction_types = b.Transactions.map Transaction.typeName ++ extra)
    (htx : ∀ tx ∈ b.Transactions, tx.WellFormed)
    (hsize : (b.Serialize reg).length < 2 ^ 33) :
    DeserializeBlock (b.Serialize reg) = .ok b.decoded := by
  have h1 := Gob.sum_size_le_encodeFields_length
    [.int b.Timestamp, .list b.Transaction_types,
      .list (b.Transactions.map fun tx => tx.Serialize reg),
      .bytes b.PrevBlockHash, .bytes b.Hash, .int b.Nonce] 0 0
  have h2 := Gob.encodeFields_length_le_encode reg (reg.id .blockRecord) blockRecord
    [.int b.Timestamp, .list b.Transaction_types,
      .list (b.Transactions.map fun tx => tx.Serialize reg),
      .bytes b.PrevBlockHash, .bytes b.Hash, .int b.Nonce]
  have hdec := Gob.decode_encode_blockRecord reg
    [.int b.Timestamp, .list b.Transaction_types,
      .list (b.Transactions.map fun tx => tx.Serialize reg),
      .bytes b.PrevBlockHash, .bytes b.Hash, .int b.Nonce]
    (by simp [Gob.StructType.Holds, blockRecord, Gob.Value.hasKind])
    (by simp [Gob.Value.InRange, ht, hn])
    (by
      unfold Block.Serialize at hsize
      simp only [List.length_cons, List.length_nil] at h1
      omega)
  unfold DeserializeBlock Block.Serialize
  rw [hdec]
  simp only
  rw [htypes, decodeTransactions_surplus reg b.Transactions extra htx]
  simp [Block.decoded, htypes]

/-- The block `NewBlock` returns decodes from its encoded form to itself when
that form is within the 8 GB of one message. -/
theorem NewBlock_decodes (reg : Gob.Registry) (now : Int) (txs : List Transaction)
    (prev : Bytes) (hnow : isInt64 now) (htx : ∀ tx ∈ txs, tx.WellFormed)
    (hsize : ((NewBlock reg now txs prev).Serialize reg).length < 2 ^ 33) :
    DeserializeBlock ((NewBlock reg now txs prev).Serialize reg) =
      .ok (NewBlock reg now txs prev).decoded := by
  obtain ⟨f1, f2, f3, f4, f5, f6, f7⟩ := NewBlock_fields reg now txs prev
  have hmax : maxNonce = 2 ^ 63 - 1 := rfl
  exact DeserializeBlock_Serialize_of_length reg _ [] (by rw [f1]; exact hnow)
    (by constructor <;> omega) (by rw [f2, f3, List.append_nil]) (by rw [f3]; exact htx) hsize

/-! ## Chains in the bucket -/

theorem NewBlockchain_stores (reg : Gob.Registry) (now : Int) (hnow : isInt64 now) :
    Stores reg (NewBlockchain reg now none) [NewGenesisBlock reg now] := by
  obtain ⟨f1, f2, f3, f4, f5, f6, f7⟩ :=
    NewBlock_fields reg now [.genesis ⟨ascii "GENESIS BLOCK"⟩] []
  have hwf := NewBlock_wellFormed reg now [.genesis ⟨ascii "GENESIS BLOCK"⟩] [] hnow
    (by
      intro tx htx
      rw [List.mem_singleton] at htx
      subst htx
      exact (by decide : (ascii "GENESIS BLOCK").length < 2 ^ 31))
    (by norm_num) (by norm_num)
  have hne : (NewGenesisBlock reg now).Hash ≠ tipKey := by
    intro e
    have := congrArg List.length e
    rw [tipKey_length] at this
    unfold NewGenesisBlock at this
    omega
  have hne2 : ([] : Bytes) ≠ tipKey := by decide
  have hne3 : ([] : Bytes) ≠ (NewGenesisBlock reg now).Hash := by
    intro e
    have := congrArg List.length e
    unfold NewGenesisBlock at this
    rw [f5] at this
    simp at this
  refine ⟨rfl, ?_, ?_, ?_, ?_, List.chain'_singleton _, ?_, by simp, ?_⟩
  · simp only [NewBlockchain, Get_Put_same, tipOf]
  · intro b hb
    rw [List.mem_singleton] at hb
    subst hb
    simp only [NewBlockchain]
    rw [Get_Put_ne _ _ _ _ hne, Get_Put_same]
  · intro b hb
    rw [List.mem_singleton] at hb
    subst hb
    exact DeserializeBlock_Serialize reg _ hwf
  · intro b hb
    rw [List.mem_singleton] at hb
    subst hb
    exact f5
  · intro b hb
    simp only [List.getLast?_singleton, Option.some.injEq] at hb
    subst hb
    exact f4
  · simp only [NewBlockchain]
    rw [Get_Put_ne _ _ _ _ hne2, Get_Put_ne _ _ _ _ hne3]
    rfl

theorem AddBlock_stores (reg : Gob.Registry) (now : Int) (bc : Blockchain) (t : List Transaction)
    (bs : List Block) (h : Stores reg bc bs)
    (hdec : DeserializeBlock ((NewBlock reg now t (tipOf bs)).Serialize reg) =
      .ok (NewBlock reg now t (tipOf bs)).decoded)
    (hnew : ∀ b ∈ bs, b.Hash ≠ (NewBlock reg now t (tipOf bs)).Hash) :
    Stores reg (bc.AddBlock reg now t) (NewBlock reg now t (tipOf bs) :: bs) := by
  obtain ⟨a1, a2, a3, a4⟩ := AddBlock_db reg now bc t
  rw [h.pointer] at a1 a2 a3 a4
  obtain ⟨f1, f2, f3, f4, f5, f6, f7⟩ := NewBlock_fields reg now t (tipOf bs)
  have hkey : ∀ k : Bytes, k.length = 32 → k ≠ tipKey := by
    intro k hk e
    rw [e, tipKey_length] at hk
    omega
  refine ⟨a1, a2, ?_, ?_, ?_, ?_, ?_, by simp, ?_⟩
  · intro b hb
    rcases List.mem_cons.mp hb with rfl | hb
    · exact a3
    · rw [a4 _ (hkey _ (h.hashes b hb)) (hnew b hb)]
      exact h.stored b hb
  · intro b hb
    rcases List.mem_cons.mp hb with rfl | hb
    · exact hdec
    · exact h.decodes b hb
  · intro b hb
    rcases List.mem_cons.mp hb with rfl | hb
    · exact f5
    · exact h.hashes b hb
  · cases bs with
    | nil => exact absurd rfl h.nonempty
    | cons c rest =>
      exact List.Chain'.cons (by rw [f4]; rfl) h.linked
  · intro b hb
    cases bs with
    | nil => exact absurd rfl h.nonempty
    | cons c rest =>
      rw [List.getLast?_cons_cons] at hb
      exact h.oldest b hb
  · rw [a4 _ (by decide) (by
      intro e
      have := congrArg List.length e
      rw [f5] at this
      simp at this)]
    exact h.nothing

theorem extendBlocks_suffix (reg : Gob.Registry) (steps : List (Int × List Transaction)) :
    ∀ bs : List Block, List.IsSuffix bs (extendBlocks reg bs steps) := by
  induction steps with
  | nil => intro bs; exact List.suffix_refl _
  | cons s rest ih =>
    intro bs
    exact (List.suffix_cons _ _).trans (ih _)

theorem extendBlocks_length (reg : Gob.Registry) (steps : List (Int × List Transaction)) :
    ∀ bs : List Block, (extendBlocks reg bs steps).length = bs.length + steps.length := by
  induction steps with
  | nil => intro bs; rfl
  | cons s rest ih =>
    intro bs
    rw [extendBlocks, ih, List.length_cons, List.length_cons]
    omega

/-- Oldest first, the blocks carry the clock readings and the transaction lists
of the appends in their order. -/
theorem extendBlocks_reverse (reg : Gob.Registry) (steps : List (Int × List Transaction)) :
    ∀ bs : List Block,
      (extendBlocks reg bs steps).reverse.map (fun b => (b.Timestamp, b.Transactions)) =
        bs.reverse.map (fun b => (b.Timestamp, b.Transactions)) ++ steps := by
  induction steps with
  | nil => intro bs; simp [extendBlocks]
  | cons s rest ih =>
    intro bs
    obtain ⟨f1, -, f3, -⟩ := NewBlock_fields reg s.1 s.2 (tipOf bs)
    rw [extendBlocks, ih, List.reverse_cons, List.map_append, List.map_singleton, f1, f3,
      List.append_assoc]
    rfl

/-- The chain invariant holds after any number of appends whose blocks decode
and whose hashes are pairwise distinct. -/
theorem AddBlocks_stores (reg : Gob.Registry) (steps : List (Int × List Transaction)) :
    ∀ (bc : Blockchain) (bs : List Block), Stores reg bc bs →
      (∀ b ∈ extendBlocks reg bs steps,
        DeserializeBlock (b.Serialize reg) = .ok b.decoded) →
      ((extendBlocks reg bs steps).map Block.Hash).Nodup →
      Stores reg (bc.AddBlocks reg steps) (extendBlocks reg bs steps) := by
  induction steps with
  | nil => intro bc bs h _ _; exact h
  | cons s rest ih =>
    intro bc bs h hdec hnd
    have hsuf := extendBlocks_suffix reg rest (NewBlock reg s.1 s.2 (tipOf bs) :: bs)
    have hnd2 : ((NewBlock reg s.1 s.2 (tipOf bs) :: bs).map Block.Hash).Nodup :=
      hnd.sublist (hsuf.sublist.map _)
    rw [List.map_cons, List.nodup_cons] at hnd2
    exact ih _ _
      (AddBlock_stores reg s.1 bc s.2 bs h
        (hdec _ (hsuf.subset (List.mem_cons_self _ _)))
        (fun b hb e => hnd2.1 (e ▸ List.mem_map_of_mem _ hb)))
      hdec hnd

/-- Draining a bucket that stores a chain returns its blocks, newest first. -/
theorem drain_stored (db : Bucket) :
    ∀ (bs : List Block) (k : Nat), bs ≠ [] →
      (∀ b ∈ bs, DeserializeBlock (db.Get b.Hash) = .ok b.decoded) →
      (∀ b ∈ bs, b.Hash.length = 32) →
      List.Chain' (fun a b : Block => a.PrevBlockHash = b.Hash) bs →
      (∀ b, bs.getLast? = some b → b.PrevBlockHash = []) →
      drain (bs.length + k) ⟨tipOf bs, db⟩ = some (bs.map Block.decoded) := by
  intro bs
  induction bs with
  | nil => intro k h; exact absurd rfl h
  | cons b rest ih =>
    intro k _ hget hlen hlink hlast
    have hb := hget b (List.mem_cons_self _ _)
    rw [show (b :: rest).length + k = (rest.length + k) + 1 by simp only [List.length_cons]; omega]
    cases rest with
    | nil =>
      have hp : b.PrevBlockHash = [] := hlast b rfl
      simp only [drain, BlockchainIterator.Next, tipOf, hb, Block.decoded, hp, List.length_nil,
        if_true, List.map_cons, List.map_nil]
    | cons c rest =>
      have hp : b.PrevBlockHash = c.Hash := (List.chain'_cons.mp hlink).1
      have hc : c.Hash.length = 32 := hlen c (by simp)
      have hne : ¬ c.Hash.length = 0 := by omega
      have ih2 := ih k (by simp) (fun x hx => hget x (List.mem_cons_of_mem _ hx))
        (fun x hx => hlen x (List.mem_cons_of_mem _ hx)) (List.chain'_cons.mp hlink).2
        (fun x hx => hlast x (by rw [List.getLast?_cons_cons]; exact hx))
      simp only [tipOf] at ih2
      simp only [drain, BlockchainIterator.Next, tipOf, hb, Block.decoded, hp, hne, if_false]
      rw [ih2]
      simp [Block.decoded, hp]

/-- In a linked list of blocks with 32-byte hashes whose oldest names no
predecessor, the oldest is the only block that names none. -/
theorem only_oldest_has_no_predecessor :
    ∀ bs : List Block, (∀ b ∈ bs, b.Hash.length = 32) →
      List.Chain' (fun a b : Block => a.PrevBlockHash = b.Hash) bs →
      (∀ b, bs.getLast? = some b → b.PrevBlockHash = []) →
      ∀ (i : Nat) (h : i < bs.length), (bs.get ⟨i, h⟩).PrevBlockHash = [] ↔ i + 1 = bs.length := by
  intro bs
  induction bs with
  | nil => intro _ _ _ i h; exact absurd h (by simp)
  | cons b rest ih =>
    intro hlen hlink hlast i h
    cases rest with
    | nil =>
      have hi : i = 0 := by simpa using h
      subst hi
      simp [hlast b rfl]
    | cons c rest =>
      cases i with
      | zero =>
        have hp : b.PrevBlockHash = c.Hash := (List.chain'_cons.mp hlink).1
        have hc : c.Hash.length = 32 := hlen c (by simp)
        simp only [List.get_eq_getElem, List.getElem_cons_zero, List.length_cons, hp]
        constructor
        · intro e
          rw [e] at hc
          simp at hc
        · intro e
          omega
      | succ i =>
        have := ih (fun x hx => hlen x (List.mem_cons_of_mem _ hx)) (List.chain'_cons.mp hlink).2
          (fun x hx => hlast x (by rw [List.getLast?_cons_cons]; exact hx)) i
          (by simpa using h)
        simp only [List.get_eq_getElem, List.getElem_cons_succ, List.length_cons] at this ⊢
        rw [this]
        omega

/-- Every block of a chain is one that `NewBlock` built: for the genesis
transaction on no predecessor, or for one of the appends. -/
theorem mem_extendBlocks (reg : Gob.Registry) (steps : List (Int × List Transaction)) :
    ∀ (bs : List Block) (b : Block), b ∈ extendBlocks reg bs steps →
      b ∈ bs ∨ ∃ s ∈ steps, ∃ prev, b = NewBlock reg s.1 s.2 prev := by
  induction steps with
  | nil => intro bs b hb; exact Or.inl hb
  | cons s rest ih =>
    intro bs b hb
    rcases ih _ b hb with h | ⟨s2, hs2, prev, e⟩
    · rcases List.mem_cons.mp h with rfl | h
      · exact Or.inr ⟨s, List.mem_cons_self _ _, _, rfl⟩
      · exact Or.inl h
    · exact Or.inr ⟨s2, List.mem_cons_of_mem _ hs2, prev, e⟩

/-- The chain `NewBlockchain` and `AddBlock` build stores its blocks, when the
clock readings are 64-bit, the transactions well formed, each encoded block
within the 8 GB of one message, and the hashes pairwise distinct. -/
theorem chainOf_stores (reg : Gob.Registry) (now : Int) (steps : List (Int × List Transaction))
    (hnow : isInt64 now) (hsteps : ∀ s ∈ steps, isInt64 s.1 ∧ ∀ tx ∈ s.2, tx.WellFormed)
    (hsize : ∀ b ∈ blocksOf reg now steps, (b.Serialize reg).length < 2 ^ 33)
    (hdistinct : ((blocksOf reg now steps).map Block.Hash).Nodup) :
    Stores reg (chainOf reg now steps) (blocksOf reg now steps) := by
  have hbase := NewBlockchain_stores reg now hnow
  refine AddBlocks_stores reg steps _ _ hbase ?_ hdistinct
  intro b hb
  rcases mem_extendBlocks reg steps _ b hb with h | ⟨s, hs, prev, rfl⟩
  · exact hbase.decodes b h
  · exact NewBlock_decodes reg s.1 s.2 prev (hsteps s hs).1 (hsteps s hs).2 (hsize _ hb)

/-- No chain built by `NewBlockchain` and `AddBlock` stores anything under the
empty key. -/
theorem AddBlocks_nothing (reg : Gob.Registry) (steps : List (Int × List Transaction)) :
    ∀ bc : Blockchain, bc.db.Get [] = [] → (bc.AddBlocks reg steps).db.Get [] = [] := by
  induction steps with
  | nil => intro bc h; exact h
  | cons s rest ih =>
    intro bc h
    refine ih _ ?_
    rw [(AddBlock_db reg s.1 bc s.2).2.2.2 [] (by decide) (by
      intro e
      have := congrArg List.length e
      rw [(NewBlock_fields reg s.1 s.2 _).2.2.2.2.1] at this
      simp at this)]
    exact h

theorem chainOf_nothing (reg : Gob.Registry) (now : Int) (steps : List (Int × List Transaction)) :
    (chainOf reg now steps).db.Get [] = [] := by
  refine AddBlocks_nothing reg steps _ ?_
  simp only [NewBlockchain]
  rw [Get_Put_ne _ _ _ _ (by decide), Get_Put_ne _ _ _ _ (by
    intro e
    have := congrArg List.length e
    unfold NewGenesisBlock at this
    rw [(NewBlock_fields reg now _ _).2.2.2.2.1] at this
    simp at this)]
  rfl

/-- The empty byte string decodes to no block. -/
theorem DeserializeBlock_nil : DeserializeBlock [] = .error "failed to decode block" := by
  decide

theorem lookup_Put_ne (b : Bucket) (k v k2 : Bytes) (h : k2 ≠ k) :
    (b.Put k v).entries.lookup k2 = b.entries.lookup k2 := by
  have hne : (k2 == k) = false := by simpa using h
  simp only [Bucket.Put, List.lookup, hne, lookup_filter_ne k k2 h]

/-! ## Confirmed blocks -/

theorem tryPut_some (b : Bucket) (key value : Bytes) (b2 : Bucket)
    (h : b.tryPut key value = some b2) : b2 = b.Put key value ∧ key ≠ [] := by
  unfold Bucket.tryPut at h
  split_ifs at h with hc
  simp only [Option.some.injEq] at h
  refine ⟨h.symm, ?_⟩
  intro e
  apply hc
  left
  rw [e]
  rfl

theorem filledSlots_map_some (txs : List Transaction) : filledSlots (txs.map some) = some txs := by
  induction txs with
  | nil => rfl
  | cons tx txs ih => simp only [List.map_cons, filledSlots, ih, Option.map_some']

theorem toBlock_decoded (b : Block) : b.decoded.toBlock = some b := by
  simp only [DecodedBlock.toBlock, Block.decoded, filledSlots_map_some, Option.map_some']

/-- What an accepted confirmation leaves: the block the data decodes to, stored
again in its encoded form under the hash it names, and that hash as the tip. -/
theorem confirmation_accepted (reg : Gob.Registry) (bc : Blockchain) (data : Bytes)
    (block : DecodedBlock) (bc2 : Blockchain) (hd : DeserializeBlock data = .ok block)
    (h : handleBlockCreationConfirmation reg bc (some data) = .ok bc2) :
    ∃ b, block.toBlock = some b ∧ block.Hash ≠ [] ∧
      bc2 = ⟨block.Hash, (bc.db.Put block.Hash (b.Serialize reg)).Put tipKey block.Hash⟩ := by
  simp only [handleBlockCreationConfirmation, hd] at h
  cases hb : block.toBlock with
  | none => simp [hb] at h
  | some b =>
    simp only [hb] at h
    cases h1 : bc.db.tryPut block.Hash (b.Serialize reg) with
    | none => simp [h1] at h
    | some db1 =>
      simp only [h1] at h
      cases h2 : db1.tryPut tipKey block.Hash with
      | none => simp [h2] at h
      | some db2 =>
        simp only [h2, Outcome.ok.injEq] at h
        obtain ⟨e1, hne⟩ := tryPut_some _ _ _ _ h1
        obtain ⟨e2, -⟩ := tryPut_some _ _ _ _ h2
        exact ⟨b, rfl, hne, by rw [← h, e2, e1]⟩

/-- A confirmation that is handled to the end either leaves the chain as it was
or is accepted. -/
theorem confirmation_cases (reg : Gob.Registry) (bc : Blockchain) (data : Option Bytes)
    (bc2 : Blockchain) (h : handleBlockCreationConfirmation reg bc data = .ok bc2) :
    bc2 = bc ∨ ∃ d block b, data = some d ∧ DeserializeBlock d = .ok block ∧
      block.toBlock = some b ∧ block.Hash ≠ [] ∧
      bc2 = ⟨block.Hash, (bc.db.Put block.Hash (b.Serialize reg)).Put tipKey block.Hash⟩ := by
  cases data with
  | none =>
    simp only [handleBlockCreationConfirmation, Outcome.ok.injEq] at h
    exact Or.inl h.symm
  | some d =>
    cases hd : DeserializeBlock d with
    | error msg =>
      simp only [handleBlockCreationConfirmation, hd, Outcome.ok.injEq] at h
      exact Or.inl h.symm
    | panic => simp [handleBlockCreationConfirmation, hd] at h
    | ok block =>
      obtain ⟨b, hb, hne, e⟩ := confirmation_accepted reg bc d block bc2 hd h
      exact Or.inr ⟨d, block, b, rfl, hd, hb, hne, e⟩

/-- The tip pointer equals the tip in every reachable state. -/
theorem Reachable_pointer (reg : Gob.Registry) (bc : Blockchain) (h : Reachable reg bc) :
    bc.db.Get tipKey = bc.tip := by
  induction h with
  | create now => simp only [NewBlockchain, Get_Put_same]
  | reopen bc now _ _ => rfl
  | add bc now t _ _ =>
    obtain ⟨a1, a2, -⟩ := AddBlock_db reg now bc t
    rw [a1, a2]
  | confirm bc data bc2 _ hc ih =>
    rcases confirmation_cases reg bc data bc2 hc with rfl | ⟨d, block, b, -, -, -, -, rfl⟩
    · exact ih
    · simp only [Get_Put_same]

/-! ## The end of the search -/

/-- When the loop has fuel up to `maxNonce` and ends below `maxNonce`, it ended
on a success: the hash it returns is the digest at the nonce it leaves, and that
digest is below the target. -/
theorem runLoop_stopped (reg : Gob.Registry) (target : Nat) :
    ∀ (fuel : Nat) (b : Block) (hash : Bytes), maxNonce ≤ b.Nonce + fuel →
      (runLoop reg target fuel b hash).2.Nonce < maxNonce →
      (runLoop reg target fuel b hash).1 =
          SHA256.Sum256 ((runLoop reg target fuel b hash).2.prepareData reg) ∧
        meets reg target (runLoop reg target fuel b hash).2 := by
  intro fuel
  induction fuel with
  | zero =>
    intro b hash hle hlt
    have hr : runLoop reg target 0 b hash = (hash, b) := rfl
    rw [hr] at hlt
    simp only [Nat.cast_zero, add_zero] at hle hlt
    omega
  | succ fuel ih =>
    intro b hash hle hlt
    by_cases hn : b.Nonce < maxNonce
    · by_cases h0 : beNat (SHA256.Sum256 (b.prepareData reg)) < target
      · have hr : runLoop reg target (fuel + 1) b hash = (SHA256.Sum256 (b.prepareData reg), b) := by
          simp only [runLoop, hn, h0, if_true]
        rw [hr]
        exact ⟨rfl, h0⟩
      · have hr : runLoop reg target (fuel + 1) b hash =
            runLoop reg target fuel { b with Nonce := b.Nonce + 1 }
              (SHA256.Sum256 (b.prepareData reg)) := by
          simp only [runLoop, hn, h0, if_true, if_false]
        rw [hr] at hlt ⊢
        exact ih _ _ (by simp only; push_cast at hle; omega) hlt
    · have hr : runLoop reg target (fuel + 1) b hash = (hash, b) := by
        simp only [runLoop, hn, if_false]
      rw [hr] at hlt
      exact absurd hlt hn

/-! ## Appends and the queries -/

/-- More fuel does not change a result of the loop of `hasActiveLoan`. -/
theorem activeLoanLoop_fuel (vin : Bytes) (asOf : Int) :
    ∀ (fuel : Nat) (bci : BlockchainIterator) (r : Outcome Bool) (k : Nat),
      activeLoanLoop vin asOf fuel bci = some r →
      activeLoanLoop vin asOf (fuel + k) bci = some r := by
  intro fuel
  induction fuel with
  | zero => intro bci r k h; simp [activeLoanLoop] at h
  | succ fuel ih =>
    intro bci r k h
    rw [show fuel + 1 + k = (fuel + k) + 1 by omega]
    cases hn : bci.Next with
    | error msg => simpa only [activeLoanLoop, hn] using h
    | panic => simpa only [activeLoanLoop, hn] using h
    | ok p =>
      obtain ⟨block, bci2⟩ := p
      simp only [activeLoanLoop, hn] at h ⊢
      split_ifs at h ⊢ with h1 h2
      · exact h
      · exact h
      · exact ih bci2 r k h

theorem AddBlocks_append (reg : Gob.Registry) (s1 s2 : List (Int × List Transaction)) :
    ∀ bc : Blockchain, bc.AddBlocks reg (s1 ++ s2) = (bc.AddBlocks reg s1).AddBlocks reg s2 := by
  induction s1 with
  | nil => intro bc; rfl
  | cons s rest ih => intro bc; exact ih _

theorem extendBlocks_append (reg : Gob.Registry) (s1 s2 : List (Int × List Transaction)) :
    ∀ bs : List Block,
      extendBlocks reg bs (s1 ++ s2) = extendBlocks reg (extendBlocks reg bs s1) s2 := by
  induction s1 with
  | nil => intro bs; rfl
  | cons s rest ih => intro bs; exact ih _

/-- Draining a chain that stores its blocks returns them, newest first, for any
fuel from their number on. -/
theorem drain_of_stores (reg : Gob.Registry) (bc : Blockchain) (bs : List Block)
    (h : Stores reg bc bs) (k : Nat) :
    drain (bs.length + k) bc.Iterator = some (bs.map Block.decoded) := by
  have hd := drain_stored bc.db bs k h.nonempty
    (fun b hb => by rw [h.stored b hb]; exact h.decodes b hb) h.hashes h.linked h.oldest
  rw [← h.tip] at hd
  exact hd

/-- The loop of `hasActiveLoan` on a chain that stores its blocks, for any fuel
from their number on. -/
theorem hasActiveLoan_of_stores (reg : Gob.Registry) (bc : Blockchain) (bs : List Block)
    (h : Stores reg bc bs) (vin : Bytes) (asOf : Int) (k : Nat) :
    ∃ r : Bool, (CLI.mk bc).hasActiveLoan asOf vin (bs.length + k) = some (.ok r) ∧
      (r = true ↔ ∃ b ∈ bs, ∃ tx ∈ b.Transactions, isActiveLoan vin asOf (some tx)) := by
  obtain ⟨r, hr, hiff⟩ := activeLoanLoop_drain vin asOf _ _ _ (drain_of_stores reg bc bs h k)
  refine ⟨r, hr, ?_⟩
  rw [hiff]
  constructor
  · rintro ⟨d, hd, slot, hslot, ha⟩
    obtain ⟨b, hb, rfl⟩ := List.mem_map.mp hd
    simp only [Block.decoded, List.mem_map] at hslot
    obtain ⟨tx, htx, rfl⟩ := hslot
    exact ⟨b, hb, tx, htx, ha⟩
  · rintro ⟨b, hb, tx, htx, ha⟩
    exact ⟨b.decoded, List.mem_map_of_mem _ hb, some tx,
      by simp only [Block.decoded, List.mem_map]; exact ⟨tx, htx, rfl⟩, ha⟩

theorem ReachableSound_reachable (reg : Gob.Registry) (bc : Blockchain)
    (h : ReachableSound reg bc) : Reachable reg bc := by
  induction h with
  | create now _ => exact .create now
  | reopen bc now _ ih => exact .reopen bc now ih
  | add bc now t _ _ _ _ ih => exact .add bc now t ih
  | confirm bc b bc2 _ _ _ hc ih => exact .confirm bc _ bc2 ih hc

/-- In a state reached with sendable inputs the entry under the tip decodes to
a block that names the tip as its hash. -/
theorem ReachableSound_tip (reg : Gob.Registry) (bc : Blockchain)
    (h : ReachableSound reg bc) :
    ∃ d, DeserializeBlock (bc.db.Get bc.tip) = .ok d ∧ d.Hash = bc.tip := by
  induction h with
  | create now hnow =>
    have hst := NewBlockchain_stores reg now hnow
    refine ⟨(NewGenesisBlock reg now).decoded, ?_, rfl⟩
    rw [hst.tip]
    simp only [tipOf]
    rw [hst.stored _ (List.mem_singleton_self _)]
    exact hst.decodes _ (List.mem_singleton_self _)
  | reopen bc now hb ih =>
    have hp := Reachable_pointer reg bc (ReachableSound_reachable reg bc hb)
    simp only [NewBlockchain, hp]
    exact ih
  | add bc now t _ hnow ht hsize _ =>
    obtain ⟨a1, -, a3, -⟩ := AddBlock_db reg now bc t
    refine ⟨(NewBlock reg now t (bc.db.Get tipKey)).decoded, ?_, ?_⟩
    · rw [a1, a3]
      exact NewBlock_decodes reg now t _ hnow ht hsize
    · rw [a1]
      rfl
  | confirm bc b bc2 _ hs hne hc _ =>
    obtain ⟨extra, hextra⟩ := hs.types
    have hdec := DeserializeBlock_Serialize_of_length reg b extra hs.timestamp hs.nonce hextra
      hs.transactions hs.size
    obtain ⟨b2, hb2, -, rfl⟩ := confirmation_accepted reg bc _ _ bc2 hdec hc
    rw [toBlock_decoded, Option.some.injEq] at hb2
    subst hb2
    refine ⟨b.decoded, ?_, rfl⟩
    have hk : b.decoded.Hash ≠ tipKey := hne
    simp only
    rw [Get_Put_ne _ _ _ _ hk, Get_Put_same]
    exact hdec

/-! ## The example chains, block by block

Each block of the example chains is sealed at nonce 0, so one digest for each
block gives the blocks, and with them what the chains store. -/

/-- A byte string of a given length is determined by its big-endian reading. -/
theorem beNat_injective (a b : Bytes) (hl : a.length = b.length) (h : beNat a = beNat b) :
    a = b := by
  induction a generalizing b with
  | nil =>
    cases b with
    | nil => rfl
    | cons y ys => simp at hl
  | cons x xs ih =>
    cases b with
    | nil => simp at hl
    | cons y ys =>
      simp only [List.length_cons, Nat.succ.injEq] at hl
      rw [beNat_cons, beNat_cons, hl] at h
      have h1 := beNat_lt xs
      have h2 := beNat_lt ys
      rw [hl] at h1
      have hp : 0 < 256 ^ ys.length := by positivity
      have hq : x.val = y.val := by
        have e1 : (x.val * 256 ^ ys.length + beNat xs) / 256 ^ ys.length = x.val := by
          rw [Nat.add_comm, Nat.add_mul_div_right _ _ hp, Nat.div_eq_of_lt h1, Nat.zero_add]
        have e2 : (y.val * 256 ^ ys.length + beNat ys) / 256 ^ ys.length = y.val := by
          rw [Nat.add_comm, Nat.add_mul_div_right _ _ hp, Nat.div_eq_of_lt h2, Nat.zero_add]
        rw [← e1, ← e2, h]
      have hr : beNat xs = beNat ys := by
        rw [hq] at h
        exact Nat.add_left_cancel h
      rw [Fin.ext hq, ih ys hl hr]

/-- The block `NewBlock` returns when nonce 0 meets the target, from the digest
read as a number. -/
theorem NewBlock_sealed_at_zero (reg : Gob.Registry) (now : Int) (txs : List Transaction)
    (prev : Bytes) (n : Nat)
    (hh : beNat (SHA256.Sum256 ((⟨now, [], txs, prev, [], 0⟩ : Block).prepareData reg)) = n)
    (hm : n < 2 ^ 244) :
    NewBlock reg now txs prev = ⟨now, txs.map Transaction.typeName, txs, prev, beBytes 32 n, 0⟩ := by
  have ht : (1 <<< (256 - targetBits) : Nat) = 2 ^ 244 := by decide
  have hlt : (0 : Int) < maxNonce := by decide
  have hb : SHA256.Sum256 ((⟨now, [], txs, prev, [], 0⟩ : Block).prepareData reg) =
      beBytes 32 n := by
    apply beNat_injective
    · rw [Sum256_length, beBytes_length]
    · rw [hh, beNat_beBytes, Nat.mod_eq_of_lt]
      exact lt_trans hm (by norm_num)
  simp only [NewBlock, ProofOfWork.Run, NewProofOfWork]
  rw [maxNonce_toNat, runLoop, if_pos hlt, ht, hh, if_pos hm, hb]


/-- The blocks of a chain from its genesis block. -/
theorem blocksOf_of_genesis (reg : Gob.Registry) (now : Int)
    (steps : List (Int × List Transaction)) (g : Block) (hg : NewGenesisBlock reg now = g) :
    blocksOf reg now steps = extendBlocks reg [g] steps := by
  subst hg; rfl

/-- One append, from the block it builds. -/
theorem extendBlocks_of_block (reg : Gob.Registry) (bs : List Block) (now : Int)
    (txs : List Transaction) (rest : List (Int × List Transaction)) (b : Block)
    (h : NewBlock reg now txs (tipOf bs) = b) :
    extendBlocks reg bs ((now, txs) :: rest) = extendBlocks reg (b :: bs) rest := by
  subst h; rfl

/-- The last append, from the block it builds. -/
theorem extendBlocks_last (reg : Gob.Registry) (bs : List Block) (now : Int)
    (txs : List Transaction) (b : Block) (h : NewBlock reg now txs (tipOf bs) = b) :
    extendBlocks reg bs [(now, txs)] = b :: bs := by
  subst h; rfl

/-- The block `NewBlock` returns, from what `Run` returns. -/
theorem NewBlock_of_Run (reg : Gob.Registry) (now : Int) (txs : List Transaction)
    (prev h : Bytes) (b : Block)
    (hr : (NewProofOfWork ⟨now, [], txs, prev, [], 0⟩).Run reg = (h, b)) :
    NewBlock reg now txs prev =
      { b with Hash := h, Transaction_types := txs.map Transaction.typeName } := by
  simp only [NewBlock]
  rw [hr]

/-- What `Run` returns when nonce 0 misses the target and nonce 1 meets it. -/
theorem Run_sealed_at_one (reg : Gob.Registry) (b : Block) (n0 n1 : Nat)
    (h0 : beNat (SHA256.Sum256 (({ b with Nonce := 0 } : Block).prepareData reg)) = n0)
    (hm0 : ¬ n0 < 2 ^ 244)
    (h1 : beNat (SHA256.Sum256 (({ b with Nonce := 1 } : Block).prepareData reg)) = n1)
    (hm1 : n1 < 2 ^ 244) :
    (NewProofOfWork b).Run reg = (beBytes 32 n1, { b with Nonce := 1 }) := by
  have ht : (1 <<< (256 - targetBits) : Nat) = 2 ^ 244 := by decide
  have hlt0 : (0 : Int) < maxNonce := by decide
  have hlt1 : (1 : Int) < maxNonce := by decide
  have e : maxNonce.toNat = (2 ^ 63 - 3) + 1 + 1 := by decide
  have hb : SHA256.Sum256 (({ b with Nonce := 1 } : Block).prepareData reg) = beBytes 32 n1 := by
    apply beNat_injective
    · rw [Sum256_length, beBytes_length]
    · rw [h1, beNat_beBytes, Nat.mod_eq_of_lt]
      exact lt_trans hm1 (by norm_num)
  simp only [ProofOfWork.Run, NewProofOfWork]
  rw [e, runLoop, if_pos hlt0, ht, h0, if_neg hm0, runLoop]
  simp only [zero_add]
  rw [if_pos hlt1, h1, if_pos hm1, hb]

/-- The digest of the genesis block of the clock reading 1700000885 at nonce 0. -/
theorem genesis_digest :
    beNat (SHA256.Sum256 ((⟨1700000885, [], [.genesis ⟨ascii "GENESIS BLOCK"⟩], [], [], 0⟩ :
      Block).prepareData registryInOrder)) =
      0x00075d1af2123a249981dcf498654d4935e7b8b286aefe700f2ae9654c91e55f := by
  decide

/-- Nonce 0 seals the genesis block of the example chains. -/
theorem genesis_block : NewGenesisBlock registryInOrder 1700000885 = genesisBlock :=
  NewBlock_sealed_at_zero registryInOrder 1700000885 _ [] _ genesis_digest (by norm_num)

/-- The digest of the registration of V1 at nonce 0. -/
theorem registrationV1_digest :
    beNat (SHA256.Sum256 ((⟨1700101011, [],
      [.registration ⟨ascii "V1", ascii "Alice", 1600000000⟩],
      beBytes 32 0x00075d1af2123a249981dcf498654d4935e7b8b286aefe700f2ae9654c91e55f, [], 0⟩ :
      Block).prepareData registryInOrder)) =
      0x000847d9fcccbf0ec1065050675c7102019bd459dbe709e3b84a22249b5f5059 := by
  decide

/-- Nonce 0 seals the registration of V1 on the fresh chain. -/
theorem registrationV1_block :
    NewBlock registryInOrder 1700101011 [.registration ⟨ascii "V1", ascii "Alice", 1600000000⟩]
        (tipOf [genesisBlock]) = registrationBlock :=
  NewBlock_sealed_at_zero registryInOrder 1700101011 _ _ _ registrationV1_digest (by norm_num)

/-- The digest of the sale of V1 at nonce 0. -/
theorem saleV1_digest :
    beNat (SHA256.Sum256 ((⟨1700209554, [],
      [.sale ⟨ascii "V1", ascii "Alice", ascii "Bob", 1650000000, 100⟩],
      beBytes 32 0x000847d9fcccbf0ec1065050675c7102019bd459dbe709e3b84a22249b5f5059, [], 0⟩ :
      Block).prepareData registryInOrder)) =
      0x000c25024b4df6c78d22dcf6776fbc0a391494a9dc8571053110d276ed093676 := by
  decide

/-- Nonce 0 seals the sale of V1 on the chain with the registration. -/
theorem saleV1_block :
    NewBlock registryInOrder 1700209554
        [.sale ⟨ascii "V1", ascii "Alice", ascii "Bob", 1650000000, 100⟩]
        (tipOf [registrationBlock, genesisBlock]) = saleV1Block :=
  NewBlock_sealed_at_zero registryInOrder 1700209554 _ _ _ saleV1_digest (by norm_num)

/-- The blocks of the ownership chain, newest first. -/
theorem ownershipChain_blocksOf :
    blocksOf registryInOrder 1700000885
        [(1700101011, [.registration ⟨ascii "V1", ascii "Alice", 1600000000⟩]),
          (1700209554, [.sale ⟨ascii "V1", ascii "Alice", ascii "Bob", 1650000000, 100⟩])] =
      [saleV1Block, registrationBlock, genesisBlock] :=
  (blocksOf_of_genesis registryInOrder 1700000885
      [(1700101011, [.registration ⟨ascii "V1", ascii "Alice", 1600000000⟩]),
        (1700209554, [.sale ⟨ascii "V1", ascii "Alice", ascii "Bob", 1650000000, 100⟩])]
      genesisBlock genesis_block).trans
    ((extendBlocks_of_block registryInOrder [genesisBlock] 1700101011
        [.registration ⟨ascii "V1", ascii "Alice", 1600000000⟩]
        [(1700209554, [.sale ⟨ascii "V1", ascii "Alice", ascii "Bob", 1650000000, 100⟩])]
        registrationBlock registrationV1_block).trans
      (extendBlocks_last registryInOrder [registrationBlock, genesisBlock] 1700209554
        [.sale ⟨ascii "V1", ascii "Alice", ascii "Bob", 1650000000, 100⟩] saleV1Block
        saleV1_block))

/-- The ownership chain stores its three blocks. -/
theorem ownershipChain_stores :
    Stores registryInOrder ownershipChain [saleV1Block, registrationBlock, genesisBlock] := by
  have h := chainOf_stores registryInOrder 1700000885
    [(1700101011, [.registration ⟨ascii "V1", ascii "Alice", 1600000000⟩]),
      (1700209554, [.sale ⟨ascii "V1", ascii "Alice", ascii "Bob", 1650000000, 100⟩])]
    (by decide) (by decide) (by rw [ownershipChain_blocksOf]; decide)
    (by rw [ownershipChain_blocksOf]; decide)
  rw [ownershipChain_blocksOf] at h
  exact h

/-- The digest of the registration of V2 at nonce 0. -/
theorem registrationV2_digest :
    beNat (SHA256.Sum256 ((⟨1700102743, [],
      [.registration ⟨ascii "V2", ascii "Carl", 1600000000⟩],
      beBytes 32 0x00075d1af2123a249981dcf498654d4935e7b8b286aefe700f2ae9654c91e55f, [], 0⟩ :
      Block).prepareData registryInOrder)) =
      0x000a3d5c2632778ebad2660274568750fff8cadd82a0d58eaf5aed369fe78f3f := by
  decide

/-- Nonce 0 seals the registration of V2 on the fresh chain. -/
theorem registrationV2_block :
    NewBlock registryInOrder 1700102743 [.registration ⟨ascii "V2", ascii "Carl", 1600000000⟩]
        (tipOf [genesisBlock]) = registrationV2Block :=
  NewBlock_sealed_at_zero registryInOrder 1700102743 _ _ _ registrationV2_digest (by norm_num)

/-- The digest of the loan on V2 at nonce 0. -/
theorem loanV2_digest :
    beNat (SHA256.Sum256 ((⟨1700200059, [],
      [.loan ⟨ascii "V2", ascii "Carl", ascii "Bank", 5000, 1600000000, 1900000000⟩],
      beBytes 32 0x000a3d5c2632778ebad2660274568750fff8cadd82a0d58eaf5aed369fe78f3f, [], 0⟩ :
      Block).prepareData registryInOrder)) =
      0x00020dc9a499df787415ff4eb4d414744fc22d482b07a07a38becfd3d8fe2562 := by
  decide

/-- Nonce 0 seals the loan on V2 on the chain with the registration. -/
theorem loanV2_block :
    NewBlock registryInOrder 1700200059
        [.loan ⟨ascii "V2", ascii "Carl", ascii "Bank", 5000, 1600000000, 1900000000⟩]
        (tipOf [registrationV2Block, genesisBlock]) = loanV2Block :=
  NewBlock_sealed_at_zero registryInOrder 1700200059 _ _ _ loanV2_digest (by norm_num)

/-- The digest of the past loan on V2 at nonce 0. -/
theorem pastLoanV2_digest :
    beNat (SHA256.Sum256 ((⟨1700300874, [],
      [.loan ⟨ascii "V2", ascii "Carl", ascii "Bank", 5000, 1500000000, 1600000000⟩],
      beBytes 32 0x00020dc9a499df787415ff4eb4d414744fc22d482b07a07a38becfd3d8fe2562, [], 0⟩ :
      Block).prepareData registryInOrder)) =
      0x000f0f852b99c4d583a14af02ab451188af3c7065b415c8feee79d99dca22322 := by
  decide

/-- Nonce 0 seals the past loan on V2 on the loan chain. -/
theorem pastLoanV2_block :
    NewBlock registryInOrder 1700300874
        [.loan ⟨ascii "V2", ascii "Carl", ascii "Bank", 5000, 1500000000, 1600000000⟩]
        (tipOf [loanV2Block, registrationV2Block, genesisBlock]) = pastLoanV2Block :=
  NewBlock_sealed_at_zero registryInOrder 1700300874 _ _ _ pastLoanV2_digest (by norm_num)

/-- The blocks of the fresh chain. -/
theorem freshChain_blocksOf : blocksOf registryInOrder 1700000885 [] = [genesisBlock] :=
  blocksOf_of_genesis registryInOrder 1700000885 [] genesisBlock genesis_block

/-- The fresh chain stores its genesis block. -/
theorem freshChain_stores : Stores registryInOrder freshChain [genesisBlock] := by
  have h := chainOf_stores registryInOrder 1700000885 [] (by decide) (by decide)
    (by rw [freshChain_blocksOf]; decide) (by rw [freshChain_blocksOf]; decide)
  rw [freshChain_blocksOf] at h
  exact h

/-- The blocks of the loan chain, newest first. -/
theorem loanChain_blocksOf :
    blocksOf registryInOrder 1700000885
        [(1700102743, [.registration ⟨ascii "V2", ascii "Carl", 1600000000⟩]),
          (1700200059,
            [.loan ⟨ascii "V2", ascii "Carl", ascii "Bank", 5000, 1600000000, 1900000000⟩])] =
      [loanV2Block, registrationV2Block, genesisBlock] :=
  (blocksOf_of_genesis registryInOrder 1700000885
      [(1700102743, [.registration ⟨ascii "V2", ascii "Carl", 1600000000⟩]),
        (1700200059,
          [.loan ⟨ascii "V2", ascii "Carl", ascii "Bank", 5000, 1600000000, 1900000000⟩])]
      genesisBlock genesis_block).trans
    ((extendBlocks_of_block registryInOrder [genesisBlock] 1700102743
        [.registration ⟨ascii "V2", ascii "Carl", 1600000000⟩]
        [(1700200059,
          [.loan ⟨ascii "V2", ascii "Carl", ascii "Bank", 5000, 1600000000, 1900000000⟩])]
        registrationV2Block registrationV2_block).trans
      (extendBlocks_last registryInOrder [registrationV2Block, genesisBlock] 1700200059
        [.loan ⟨ascii "V2", ascii "Carl", ascii "Bank", 5000, 1600000000, 1900000000⟩]
        loanV2Block loanV2_block))

/-- The loan chain stores its three blocks. -/
theorem loanChain_stores :
    Stores registryInOrder loanChain [loanV2Block, registrationV2Block, genesisBlock] := by
  have h := chainOf_stores registryInOrder 1700000885
    [(1700102743, [.registration ⟨ascii "V2", ascii "Carl", 1600000000⟩]),
      (1700200059,
        [.loan ⟨ascii "V2", ascii "Carl", ascii "Bank", 5000, 1600000000, 1900000000⟩])]
    (by decide) (by decide) (by rw [loanChain_blocksOf]; decide)
    (by rw [loanChain_blocksOf]; decide)
  rw [loanChain_blocksOf] at h
  exact h

/-- The blocks of the loan chain with the past loan, newest first. -/
theorem loanChainPast_blocksOf :
    blocksOf registryInOrder 1700000885
        [(1700102743, [.registration ⟨ascii "V2", ascii "Carl", 1600000000⟩]),
          (1700200059,
            [.loan ⟨ascii "V2", ascii "Carl", ascii "Bank", 5000, 1600000000, 1900000000⟩]),
          (1700300874,
            [.loan ⟨ascii "V2", ascii "Carl", ascii "Bank", 5000, 1500000000, 1600000000⟩])] =
      [pastLoanV2Block, loanV2Block, registrationV2Block, genesisBlock] :=
  (blocksOf_of_genesis registryInOrder 1700000885
      [(1700102743, [.registration ⟨ascii "V2", ascii "Carl", 1600000000⟩]),
        (1700200059,
          [.loan ⟨ascii "V2", ascii "Carl", ascii "Bank", 5000, 1600000000, 1900000000⟩]),
        (1700300874,
          [.loan ⟨ascii "V2", ascii "Carl", ascii "Bank", 5000, 1500000000, 1600000000⟩])]
      genesisBlock genesis_block).trans
    ((extendBlocks_of_block registryInOrder [genesisBlock] 1700102743
        [.registration ⟨ascii "V2", ascii "Carl", 1600000000⟩]
        [(1700200059,
          [.loan ⟨ascii "V2", ascii "Carl", ascii "Bank", 5000, 1600000000, 1900000000⟩]),
          (1700300874,
            [.loan ⟨ascii "V2", ascii "Carl", ascii "Bank", 5000, 1500000000, 1600000000⟩])]
        registrationV2Block registrationV2_block).trans
      ((extendBlocks_of_block registryInOrder [registrationV2Block, genesisBlock] 1700200059
          [.loan ⟨ascii "V2", ascii "Carl", ascii "Bank", 5000, 1600000000, 1900000000⟩]
          [(1700300874,
            [.loan ⟨ascii "V2", ascii "Carl", ascii "Bank", 5000, 1500000000, 1600000000⟩])]
          loanV2Block loanV2_block).trans
        (extendBlocks_last registryInOrder [loanV2Block, registrationV2Block, genesisBlock]
          1700300874
          [.loan ⟨ascii "V2", ascii "Carl", ascii "Bank", 5000, 1500000000, 1600000000⟩]
          pastLoanV2Block pastLoanV2_block)))

/-- The loan chain with the past loan stores its four blocks. -/
theorem loanChainPast_stores :
    Stores registryInOrder loanChainPast
      [pastLoanV2Block, loanV2Block, registrationV2Block, genesisBlock] := by
  have h := chainOf_stores registryInOrder 1700000885
    [(1700102743, [.registration ⟨ascii "V2", ascii "Carl", 1600000000⟩]),
      (1700200059,
        [.loan ⟨ascii "V2", ascii "Carl", ascii "Bank", 5000, 1600000000, 1900000000⟩]),
      (1700300874,
        [.loan ⟨ascii "V2", ascii "Carl", ascii "Bank", 5000, 1500000000, 1600000000⟩])]
    (by decide) (by decide) (by rw [loanChainPast_blocksOf]; decide)
    (by rw [loanChainPast_blocksOf]; decide)
  rw [loanChainPast_blocksOf] at h
  exact h

/-- The fresh chain, from its genesis block. -/
theorem freshChain_eq :
    freshChain =
      ⟨genesisBlock.Hash,
        ((Bucket.mk []).Put genesisBlock.Hash (genesisBlock.Serialize registryInOrder)).Put
          tipKey genesisBlock.Hash⟩ :=
  congrArg (fun g : Block => (⟨g.Hash,
    ((Bucket.mk []).Put g.Hash (g.Serialize registryInOrder)).Put tipKey g.Hash⟩ : Blockchain))
    genesis_block

/-- The digest of the genesis block of the clock reading 1700004738 at nonce 0. -/
theorem slowGenesis_digest0 :
    beNat (SHA256.Sum256 ((⟨1700004738, [], [.genesis ⟨ascii "GENESIS BLOCK"⟩], [], [], 0⟩ :
      Block).prepareData registryInOrder)) =
      0xd37e6c3c0eda61700bfde061b327281a3587f39a2bc0515cbd2964bf17847e78 := by
  decide

/-- The digest of that block at nonce 1. -/
theorem slowGenesis_digest1 :
    beNat (SHA256.Sum256 ((⟨1700004738, [], [.genesis ⟨ascii "GENESIS BLOCK"⟩], [], [], 1⟩ :
      Block).prepareData registryInOrder)) =
      0x00001b1bf28ba4d04615b917db496726c28c96bdbdb0bf8c0c555957b1e2830b := by
  decide

/-- At the clock reading 1700004738 the search for the genesis block stops at
nonce 1. -/
theorem slowGenesis_run :
    (NewProofOfWork ⟨1700004738, [], [.genesis ⟨ascii "GENESIS BLOCK"⟩], [], [], 0⟩).Run
        registryInOrder =
      (beBytes 32 0x00001b1bf28ba4d04615b917db496726c28c96bdbdb0bf8c0c555957b1e2830b,
        ⟨1700004738, [], [.genesis ⟨ascii "GENESIS BLOCK"⟩], [], [], 1⟩) :=
  Run_sealed_at_one registryInOrder _ _ _ slowGenesis_digest0 (by norm_num) slowGenesis_digest1
    (by norm_num)

/-- At the clock reading 1700004738 `NewBlock` seals the genesis block at nonce 1. -/
theorem slowGenesis_nonce :
    (NewBlock registryInOrder 1700004738 [.genesis ⟨ascii "GENESIS BLOCK"⟩] []).Nonce = 1 := by
  rw [NewBlock_of_Run registryInOrder 1700004738 _ [] _ _ slowGenesis_run]

/-! ## A confirmed block that is read through the tip pointer -/

/-- What `AddBlock` leaves, from the block it builds. -/
theorem AddBlock_of_block (reg : Gob.Registry) (now : Int) (bc : Blockchain)
    (t : List Transaction) (b : Block) (h : NewBlock reg now t (bc.db.Get tipKey) = b) :
    bc.AddBlock reg now t =
      ⟨b.Hash, (bc.db.Put b.Hash (b.Serialize reg)).Put tipKey b.Hash⟩ := by
  subst h; rfl

/-- The chain with the carrier block, from its entries. -/
theorem loanCarrierChain_eq :
    loanCarrierChain =
      ⟨loanCarrierBlock.Hash,
        ((((Bucket.mk []).Put genesisBlock.Hash (genesisBlock.Serialize registryInOrder)).Put
          tipKey genesisBlock.Hash).Put loanCarrierBlock.Hash
            (loanCarrierBlock.Serialize registryInOrder)).Put tipKey loanCarrierBlock.Hash⟩ :=
  congrArg (fun bc : Blockchain => (⟨loanCarrierBlock.Hash,
    (bc.db.Put loanCarrierBlock.Hash (loanCarrierBlock.Serialize registryInOrder)).Put
      tipKey loanCarrierBlock.Hash⟩ : Blockchain)) freshChain_eq

/-- The tip pointer of that chain holds the encoded loan block. -/
theorem loanCarrierChain_pointer :
    loanCarrierChain.db.Get tipKey = loanV2Block.Serialize registryInOrder := by
  rw [loanCarrierChain_eq]
  exact Get_Put_same _ _ _

/-- The digest of the registration of V3 at nonce 0. -/
theorem registrationV3_digest :
    beNat (SHA256.Sum256 ((⟨1700402908, [],
      [.registration ⟨ascii "V3", ascii "Dana", 1600000000⟩],
      loanV2Block.Serialize registryInOrder, [], 0⟩ : Block).prepareData registryInOrder)) =
      0x0001fa63397d7f57a8c82cf09c562534894a2078524f4c90a064ea9f6d7048de := by
  decide

/-- Nonce 0 seals the registration of V3 on the chain with the carrier block. -/
theorem registrationV3_block :
    NewBlock registryInOrder 1700402908 [.registration ⟨ascii "V3", ascii "Dana", 1600000000⟩]
        (loanCarrierChain.db.Get tipKey) = registrationV3Block := by
  rw [loanCarrierChain_pointer]
  exact NewBlock_sealed_at_zero registryInOrder 1700402908 _ _ _ registrationV3_digest
    (by norm_num)

/-- The chain with the carrier block after the append, from its entries. -/
theorem loanCarrierChain_appended :
    loanCarrierChain.AddBlock registryInOrder 1700402908
        [.registration ⟨ascii "V3", ascii "Dana", 1600000000⟩] =
      ⟨registrationV3Block.Hash,
        ((((((Bucket.mk []).Put genesisBlock.Hash (genesisBlock.Serialize registryInOrder)).Put
          tipKey genesisBlock.Hash).Put loanCarrierBlock.Hash
            (loanCarrierBlock.Serialize registryInOrder)).Put tipKey loanCarrierBlock.Hash).Put
              registrationV3Block.Hash (registrationV3Block.Serialize registryInOrder)).Put tipKey
                registrationV3Block.Hash⟩ :=
  (AddBlock_of_block registryInOrder 1700402908 loanCarrierChain _ registrationV3Block
    registrationV3_block).trans
    (congrArg (fun bc : Blockchain => (⟨registrationV3Block.Hash,
      (bc.db.Put registrationV3Block.Hash (registrationV3Block.Serialize registryInOrder)).Put
        tipKey registrationV3Block.Hash⟩ : Blockchain)) loanCarrierChain_eq)

/-! # The claims -/

/-- C1. For every transaction of each of the four variants, decoding the output
of its `Serialize` under the kind tag of its own variant, as one turn of the loop
of `DeserializeBlock` does, gives back a transaction of the same variant with
every field equal to the original, the byte strings `Owner`, `Dealer`, `Buyer`,
`Borrower` and `Lender` included.  The transaction is any one a 64-bit program
can hold and `encoding/gob` can send in one message (`WellFormed`), under any
numbering of the types. -/
theorem serialize_round_trip (reg : Gob.Registry) (tx : Transaction) (h : tx.WellFormed) :
    decodeTransaction tx.typeName (tx.Serialize reg) = some (some tx) :=
  decodeTransaction_Serialize reg tx h

/-- C1 at the sale of V1 from Alice to Bob. -/
theorem serialize_round_trip_witness :
    (Transaction.sale ⟨ascii "V1", ascii "Alice", ascii "Bob", 1650000000, 100⟩).WellFormed ∧
      decodeTransaction
          (Transaction.sale ⟨ascii "V1", ascii "Alice", ascii "Bob", 1650000000, 100⟩).typeName
          ((Transaction.sale ⟨ascii "V1", ascii "Alice", ascii "Bob", 1650000000, 100⟩).Serialize
            registryInOrder) =
        some (some (.sale ⟨ascii "V1", ascii "Alice", ascii "Bob", 1650000000, 100⟩)) :=
  ⟨by decide, serialize_round_trip registryInOrder _ (by decide)⟩

/-- The ownership chain is well formed: draining it yields its three blocks. -/
theorem ownershipChain_drain : drain 3 ownershipChain.Iterator = some ownershipBlocks :=
  drain_of_stores registryInOrder ownershipChain _ ownershipChain_stores 0

/-- C2. On every well-formed chain `FindLatestOwnerByVIN` returns the owner named
by the first registration or sale of `vin` met on the walk from the tip block to
genesis, each block from its last transaction to its first (`Owner` for a
registration, `Buyer` for a sale), or the error when the walk meets none.  That
first one on the walk is the last one in the order of recording.  A loan contract
or a genesis transaction met on the scan is passed over. -/
theorem latest_owner_is_first_on_walk (bc : Blockchain) (vin : Bytes) (fuel : Nat)
    (blocks : List DecodedBlock) (hchain : drain fuel bc.Iterator = some blocks) :
    bc.FindLatestOwnerByVIN vin fuel =
        some (ownerResult ((walkOrder blocks).findSome? (slotOwner vin))) ∧
      (walkOrder blocks).findSome? (slotOwner vin) =
        ((recordedOrder blocks).filterMap (slotOwner vin)).getLast? ∧
      (∀ (l : LoanContract) (rest : List (Option Transaction)),
        ownerIn vin (some (.loan l) :: rest) = ownerIn vin rest) ∧
      (∀ (g : genesis) (rest : List (Option Transaction)),
        ownerIn vin (some (.genesis g) :: rest) = ownerIn vin rest) :=
  ⟨findOwnerLoop_drain vin fuel bc.Iterator blocks hchain, walk_first_eq_recorded_last vin blocks,
    fun _ _ => rfl, fun _ _ => rfl⟩

/-- C2 on the ownership chain: after the registration to Alice and the sale to
Bob, the owner of V1 is Bob. -/
theorem latest_owner_witness :
    drain 3 ownershipChain.Iterator = some ownershipBlocks ∧
      ownershipChain.FindLatestOwnerByVIN (ascii "V1") 3 =
        some (ownerResult ((walkOrder ownershipBlocks).findSome? (slotOwner (ascii "V1")))) ∧
      ownerResult ((walkOrder ownershipBlocks).findSome? (slotOwner (ascii "V1"))) =
        .ok (ascii "Bob") :=
  ⟨ownershipChain_drain,
    (latest_owner_is_first_on_walk ownershipChain (ascii "V1") 3 ownershipBlocks
      ownershipChain_drain).1,
    by decide⟩

/-- C3. On every well-formed chain `FindLatestOwnerByVIN` fails with the
not-found error if and only if no block from the tip back to genesis holds a
registration or a sale whose VIN is `vin`. -/
theorem owner_not_found_iff (bc : Blockchain) (vin : Bytes) (fuel : Nat)
    (blocks : List DecodedBlock) (hchain : drain fuel bc.Iterator = some blocks) :
    bc.FindLatestOwnerByVIN vin fuel = some (.error "vehicle not found") ↔
      ∀ b ∈ blocks,
        (∀ r : VehicleRegistration, some (.registration r) ∈ b.Transactions → r.VIN ≠ vin) ∧
        (∀ s : VehicleSale, some (.sale s) ∈ b.Transactions → s.VIN ≠ vin) := by
  have hres : bc.FindLatestOwnerByVIN vin fuel =
      some (ownerResult ((walkOrder blocks).findSome? (slotOwner vin))) :=
    findOwnerLoop_drain vin fuel bc.Iterator blocks hchain
  rw [hres]
  have hnone : some (ownerResult ((walkOrder blocks).findSome? (slotOwner vin))) =
      some (.error "vehicle not found") ↔
      (walkOrder blocks).findSome? (slotOwner vin) = none := by
    cases (walkOrder blocks).findSome? (slotOwner vin) <;> simp [ownerResult]
  rw [hnone, List.findSome?_eq_none_iff]
  constructor
  · intro h b hb
    constructor
    · intro r hr hv
      have := h (some (.registration r)) (by
        simp only [walkOrder, List.mem_flatMap, List.mem_reverse]
        exact ⟨b, hb, hr⟩)
      simp [slotOwner, Transaction.ownerOf, hv] at this
    · intro s hs hv
      have := h (some (.sale s)) (by
        simp only [walkOrder, List.mem_flatMap, List.mem_reverse]
        exact ⟨b, hb, hs⟩)
      simp [slotOwner, Transaction.ownerOf, hv] at this
  · intro h slot hslot
    simp only [walkOrder, List.mem_flatMap, List.mem_reverse] at hslot
    obtain ⟨b, hb, hmem⟩ := hslot
    obtain ⟨h1, h2⟩ := h b hb
    cases slot with
    | none => rfl
    | some tx =>
      cases tx with
      | registration r => simp [slotOwner, Transaction.ownerOf, h1 r hmem]
      | sale s => simp [slotOwner, Transaction.ownerOf, h2 s hmem]
      | loan l => rfl
      | genesis g => rfl

/-- C3 on the ownership chain, for a VIN that was never registered or sold. -/
theorem owner_not_found_witness :
    drain 3 ownershipChain.Iterator = some ownershipBlocks ∧
      (ownershipChain.FindLatestOwnerByVIN (ascii "does-not-exist") 3 =
          some (.error "vehicle not found") ↔
        ∀ b ∈ ownershipBlocks,
          (∀ r : VehicleRegistration, some (.registration r) ∈ b.Transactions →
            r.VIN ≠ ascii "does-not-exist") ∧
          (∀ s : VehicleSale, some (.sale s) ∈ b.Transactions →
            s.VIN ≠ ascii "does-not-exist")) :=
  ⟨ownershipChain_drain,
    owner_not_found_iff ownershipChain (ascii "does-not-exist") 3 ownershipBlocks
      ownershipChain_drain⟩

/-- The loan chain is well formed: draining it yields its three blocks. -/
theorem loanChain_drain : drain 3 loanChain.Iterator = some loanBlocks :=
  drain_of_stores registryInOrder loanChain _ loanChain_stores 0

theorem isActiveLoan_iff (vin : Bytes) (asOf : Int) (blocks : List DecodedBlock) :
    (∃ b ∈ blocks, ∃ slot ∈ b.Transactions, isActiveLoan vin asOf slot) ↔
      ∃ b ∈ blocks, ∃ l : LoanContract,
        some (.loan l) ∈ b.Transactions ∧ l.VIN = vin ∧ asOf < l.EndDate := by
  constructor
  · rintro ⟨b, hb, slot, hs, l, rfl, h1, h2⟩
    exact ⟨b, hb, l, hs, h1, h2⟩
  · rintro ⟨b, hb, l, hs, h1, h2⟩
    exact ⟨b, hb, _, hs, l, rfl, h1, h2⟩

theorem perm_active (vin : Bytes) (asOf : Int) (blocks blocks2 : List DecodedBlock)
    (h : List.Forall₂ (fun b b2 : DecodedBlock => b.Transactions.Perm b2.Transactions)
      blocks blocks2) :
    (∃ b ∈ blocks, ∃ slot ∈ b.Transactions, isActiveLoan vin asOf slot) →
      ∃ b ∈ blocks2, ∃ slot ∈ b.Transactions, isActiveLoan vin asOf slot := by
  induction h with
  | nil => simp
  | cons hp _ ih =>
    rintro ⟨b, hb, slot, hs, ha⟩
    rcases List.mem_cons.mp hb with rfl | hb
    · exact ⟨_, by simp, slot, hp.mem_iff.mp hs, ha⟩
    · obtain ⟨b2, hb2, s2, hs2, ha2⟩ := ih ⟨b, hb, slot, hs, ha⟩
      exact ⟨b2, by simp [hb2], s2, hs2, ha2⟩

/-- C4. On every well-formed chain `hasActiveLoan` returns, and returns true if
and only if some block from the tip back to genesis holds a loan contract of
`vin` whose `EndDate` is strictly greater than `asOf`.  When every loan contract
of `vin` ends at `asOf` or before, it returns false.  Two well-formed chains
whose blocks hold the same transactions, block by block, in any order within the
block, give the same result. -/
theorem hasActiveLoan_iff (cli : CLI) (asOf : Int) (vin : Bytes) (fuel : Nat)
    (blocks : List DecodedBlock) (hchain : drain fuel cli.bc.Iterator = some blocks) :
    (∃ r : Bool, cli.hasActiveLoan asOf vin fuel = some (.ok r) ∧
        (r = true ↔ ∃ b ∈ blocks, ∃ l : LoanContract,
          some (.loan l) ∈ b.Transactions ∧ l.VIN = vin ∧ asOf < l.EndDate)) ∧
      ((∀ b ∈ blocks, ∀ l : LoanContract, some (.loan l) ∈ b.Transactions → l.VIN = vin →
          l.EndDate ≤ asOf) → cli.hasActiveLoan asOf vin fuel = some (.ok false)) ∧
      ∀ (cli2 : CLI) (fuel2 : Nat) (blocks2 : List DecodedBlock),
        drain fuel2 cli2.bc.Iterator = some blocks2 →
        List.Forall₂ (fun b b2 : DecodedBlock => b.Transactions.Perm b2.Transactions)
          blocks blocks2 →
        cli2.hasActiveLoan asOf vin fuel2 = cli.hasActiveLoan asOf vin fuel := by
  obtain ⟨r, hr, hiff⟩ := activeLoanLoop_drain vin asOf fuel cli.bc.Iterator blocks hchain
  rw [isActiveLoan_iff] at hiff
  refine ⟨⟨r, hr, hiff⟩, ?_, ?_⟩
  · intro hno
    have : r = false := by
      cases r with
      | false => rfl
      | true =>
        obtain ⟨b, hb, l, hl, hv, he⟩ := hiff.mp rfl
        have := hno b hb l hl hv
        omega
    rw [← this]
    exact hr
  · intro cli2 fuel2 blocks2 hchain2 hperm
    obtain ⟨r2, hr2, hiff2⟩ := activeLoanLoop_drain vin asOf fuel2 cli2.bc.Iterator blocks2 hchain2
    have hperm2 : List.Forall₂ (fun b b2 : DecodedBlock => b.Transactions.Perm b2.Transactions)
        blocks2 blocks := by
      have := List.Forall₂.flip hperm
      exact List.Forall₂.imp (fun _ _ h => h.symm) this
    have hrr : r2 = r := by
      rw [← isActiveLoan_iff] at hiff
      cases r <;> cases r2 <;> try rfl
      · exact absurd (hiff.mpr (perm_active vin asOf _ _ hperm2 (hiff2.mp rfl))) (by simp)
      · exact absurd (hiff2.mpr (perm_active vin asOf _ _ hperm (hiff.mp rfl))) (by simp)
    show activeLoanLoop vin asOf fuel2 cli2.bc.Iterator = activeLoanLoop vin asOf fuel cli.bc.Iterator
    have hr' : activeLoanLoop vin asOf fuel cli.bc.Iterator = some (.ok r) := hr
    rw [hr2, hr', hrr]

/-- C4 on the loan chain. -/
theorem hasActiveLoan_witness :
    drain 3 (CLI.mk loanChain).bc.Iterator = some loanBlocks ∧
      ∃ r : Bool, (CLI.mk loanChain).hasActiveLoan 1800000000 (ascii "V2") 3 = some (.ok r) ∧
        (r = true ↔ ∃ b ∈ loanBlocks, ∃ l : LoanContract,
          some (.loan l) ∈ b.Transactions ∧ l.VIN = ascii "V2" ∧ 1800000000 < l.EndDate) :=
  ⟨loanChain_drain,
    (hasActiveLoan_iff (CLI.mk loanChain) 1800000000 (ascii "V2") 3 loanBlocks loanChain_drain).1⟩

/-- C5 fails on the code: on the fresh chain with a registration of V2, then a
loan on V2 that ends at 1900000000, then a further loan on V2 that ended at
1600000000, `hasActiveLoan` at 1800000000 is true, not false. -/
theorem past_loan_does_not_clear :
    (CLI.mk loanChainPast).hasActiveLoan 1800000000 (ascii "V2") 4 = some (.ok true) := by
  obtain ⟨r, hr, hiff⟩ := hasActiveLoan_of_stores registryInOrder loanChainPast _
    loanChainPast_stores (ascii "V2") 1800000000 0
  have ht : r = true :=
    hiff.mpr ⟨loanV2Block, by simp, _, List.mem_cons_self _ _, _, rfl, rfl, by decide⟩
  rw [ht] at hr
  exact hr

/-- C5, amended.  Starting from a fresh chain, after appending a registration
and then a loan contract of `vin` whose `EndDate` is after `now`, `hasActiveLoan`
at `now` is true; after a further append of a loan contract of `vin` whose
`EndDate` is before `now` it is still true, the earlier loan being still on the
chain (the hash of the last block differing from the hash of the block before
it). -/
theorem hasActiveLoan_scenario (reg : Gob.Registry) (t0 t1 t2 t3 now : Int) (vin : Bytes)
    (r : VehicleRegistration) (future past : LoanContract) (fuel : Nat)
    (hclock : isInt64 t2 ∧ isInt64 t3)
    (hfuture : (Transaction.loan future).WellFormed ∧ future.VIN = vin ∧ now < future.EndDate)
    (hpast : (Transaction.loan past).WellFormed ∧ past.VIN = vin ∧ past.EndDate < now)
    (hdistinct :
      ((((NewBlockchain reg t0 none).AddBlock reg t1 [.registration r]).AddBlock reg t2
          [.loan future]).AddBlock reg t3 [.loan past]).tip ≠
        (((NewBlockchain reg t0 none).AddBlock reg t1 [.registration r]).AddBlock reg t2
          [.loan future]).tip) :
    (CLI.mk (((NewBlockchain reg t0 none).AddBlock reg t1 [.registration r]).AddBlock reg t2
        [.loan future])).hasActiveLoan now vin (fuel + 1) = some (.ok true) ∧
      (CLI.mk ((((NewBlockchain reg t0 none).AddBlock reg t1 [.registration r]).AddBlock reg t2
        [.loan future]).AddBlock reg t3 [.loan past])).hasActiveLoan now vin (fuel + 2) =
        some (.ok true) := by
  obtain ⟨ht2, ht3⟩ := hclock
  obtain ⟨hfw, hfv, hfe⟩ := hfuture
  obtain ⟨hpw, hpv, hpe⟩ := hpast
  generalize hbc1 : (NewBlockchain reg t0 none).AddBlock reg t1 [.registration r] = bc1 at *
  have hlen1 : (bc1.db.Get tipKey).length = 32 := by
    rw [← hbc1]; exact AddBlock_tip_length reg t1 _ _
  have hnext2 := AddBlock_Next reg t2 bc1 [.loan future] ht2
    (by intro tx htx; simp only [List.mem_singleton] at htx; subst htx; exact hfw)
    (by norm_num) (by omega)
  have hact : activeLoanIn vin now
      (NewBlock reg t2 [.loan future] (bc1.db.Get tipKey)).decoded.Transactions = true := by
    have := (NewBlock_fields reg t2 [.loan future] (bc1.db.Get tipKey)).2.2.1
    simp [Block.decoded, this, activeLoanIn, hfv, hfe]
  refine ⟨?_, ?_⟩
  · simp only [CLI.hasActiveLoan, activeLoanLoop, hnext2, hact, if_true]
  · generalize hbc2 : bc1.AddBlock reg t2 [.loan future] = bc2 at *
    have hlen2 : (bc2.db.Get tipKey).length = 32 := by
      rw [← hbc2]; exact AddBlock_tip_length reg t2 _ _
    have htip2 : bc2.db.Get tipKey = bc2.tip := by
      rw [← hbc2]
      have := AddBlock_db reg t2 bc1 [.loan future]
      rw [this.1, this.2.1]
    have hnext3 := AddBlock_Next reg t3 bc2 [.loan past] ht3
      (by intro tx htx; simp only [List.mem_singleton] at htx; subst htx; exact hpw)
      (by norm_num) (by omega)
    obtain ⟨f1, f2, f3, f4, f5, f6, f7⟩ := NewBlock_fields reg t3 [.loan past] (bc2.db.Get tipKey)
    have hinact : activeLoanIn vin now
        (NewBlock reg t3 [.loan past] (bc2.db.Get tipKey)).decoded.Transactions = false := by
      have hle : ¬ past.EndDate > now := by omega
      simp [Block.decoded, f3, activeLoanIn, hpv, hle]
    have hprev : (NewBlock reg t3 [.loan past] (bc2.db.Get tipKey)).decoded.PrevBlockHash.length
        ≠ 0 := by
      simp only [Block.decoded, f4, hlen2]
      norm_num
    obtain ⟨d1, d2, d3, d4⟩ := AddBlock_db reg t3 bc2 [.loan past]
    have hget : (bc2.AddBlock reg t3 [.loan past]).db.Get (bc2.db.Get tipKey) =
        bc2.db.Get (bc2.db.Get tipKey) := by
      apply d4
      · intro e
        rw [e, tipKey_length] at hlen2
        omega
      · rw [← d1, htip2]
        exact fun e => hdistinct e.symm
    have hser2 : bc2.db.Get (bc2.db.Get tipKey) =
        (NewBlock reg t2 [.loan future] (bc1.db.Get tipKey)).Serialize reg := by
      rw [← hbc2]
      have := AddBlock_db reg t2 bc1 [.loan future]
      rw [this.2.1, this.2.2.1]
    have hwf2 := NewBlock_wellFormed reg t2 [.loan future] (bc1.db.Get tipKey) ht2
      (by intro tx htx; simp only [List.mem_singleton] at htx; subst htx; exact hfw)
      (by norm_num) (by omega)
    have hnext : (BlockchainIterator.mk (bc2.db.Get tipKey)
        (bc2.AddBlock reg t3 [.loan past]).db).Next =
        .ok ((NewBlock reg t2 [.loan future] (bc1.db.Get tipKey)).decoded,
          ⟨(NewBlock reg t2 [.loan future] (bc1.db.Get tipKey)).decoded.PrevBlockHash,
            (bc2.AddBlock reg t3 [.loan past]).db⟩) := by
      simp only [BlockchainIterator.Next, hget, hser2, DeserializeBlock_Serialize reg _ hwf2]
    simp only [CLI.hasActiveLoan, activeLoanLoop, hnext3, hinact, Bool.false_eq_true, if_false,
      hprev, hnext, hact, if_true]

/-- C5, amended, on the loan chain and the loan chain with the past loan. -/
theorem hasActiveLoan_scenario_witness :
    (CLI.mk loanChain).hasActiveLoan 1800000000 (ascii "V2") (0 + 1) = some (.ok true) ∧
      (CLI.mk loanChainPast).hasActiveLoan 1800000000 (ascii "V2") (0 + 2) = some (.ok true) :=
  hasActiveLoan_scenario registryInOrder 1700000885 1700102743 1700200059 1700300874 1800000000
    (ascii "V2") ⟨ascii "V2", ascii "Carl", 1600000000⟩
    ⟨ascii "V2", ascii "Carl", ascii "Bank", 5000, 1600000000, 1900000000⟩
    ⟨ascii "V2", ascii "Carl", ascii "Bank", 5000, 1500000000, 1600000000⟩ 0
    (by decide) (by decide) (by decide)
    (fun h => absurd ((loanChainPast_stores.tip.symm.trans h).trans loanChain_stores.tip)
      (by decide))

/-- What `NewBlock` returns when some nonce below `maxNonce` meets the target:
the candidate block at such a nonce, with its digest and its kind tags. -/
theorem NewBlock_found (reg : Gob.Registry) (now : Int) (txs : List Transaction) (prev : Bytes)
    (h : ∃ n : Nat, (n : Int) < maxNonce ∧
      meets reg (NewProofOfWork ⟨now, [], txs, prev, [], 0⟩).target ⟨now, [], txs, prev, [], n⟩) :
    ∃ m : Nat, (m : Int) < maxNonce ∧
      NewBlock reg now txs prev =
        ⟨now, txs.map Transaction.typeName, txs, prev,
          SHA256.Sum256 ((⟨now, [], txs, prev, [], m⟩ : Block).prepareData reg), m⟩ ∧
      meets reg (NewProofOfWork ⟨now, [], txs, prev, [], 0⟩).target ⟨now, [], txs, prev, [], m⟩ := by
  obtain ⟨n, hn, hv⟩ := h
  have hfuel : n < maxNonce.toNat := by
    have : (0 : Int) ≤ maxNonce := by decide
    omega
  obtain ⟨m, hm, hrun, hmeet, -⟩ := runLoop_found reg
    (NewProofOfWork ⟨now, [], txs, prev, [], 0⟩).target n ⟨now, [], txs, prev, [], 0⟩
    (List.replicate 32 (byte 0)) maxNonce.toNat (by simpa using hv) (by simpa using hn) hfuel
  simp only [zero_add] at hrun hmeet
  refine ⟨m, by omega, ?_, hmeet⟩
  simp only [NewBlock, ProofOfWork.Run, NewProofOfWork] at hrun ⊢
  rw [hrun]

/-- C6. For every block, `prepareData` is exactly `PrevBlockHash`, then the
decimal rendering of `Timestamp`, then the decimal rendering of `Nonce`, then
`Serialize` of each transaction in list order, with nothing between and nothing
else; the two renderings read back as the timestamp and the nonce; `Hash` and
`Transaction_types` contribute no bytes. -/
theorem prepareData_is_concatenation (reg : Gob.Registry) (b : Block) :
    b.prepareData reg =
        b.PrevBlockHash ++ FormatInt b.Timestamp ++ Itoa b.Nonce ++
          (b.Transactions.map (Transaction.Serialize reg)).flatten ∧
      ParseInt (FormatInt b.Timestamp) = b.Timestamp ∧ ParseInt (Itoa b.Nonce) = b.Nonce ∧
      ∀ (hash : Bytes) (types : List Bytes),
        ({ b with Hash := hash, Transaction_types := types } : Block).prepareData reg =
          b.prepareData reg :=
  ⟨prepareData_concat reg b, ParseInt_FormatInt _, ParseInt_FormatInt _, fun _ _ => rfl⟩

/-- C7. For every transaction list and predecessor hash for which some nonce
below `maxNonce` meets the target, the block `NewBlock` returns has a 32-byte
`Hash`, equal to the SHA-256 digest of `prepareData` of that block at its final
nonce, and that hash read as a big-endian integer is strictly below the target,
2^(256 - targetBits). -/
theorem NewBlock_hash_is_digest_below_target (reg : Gob.Registry) (now : Int)
    (txs : List Transaction) (prev : Bytes)
    (h : ∃ n : Nat, (n : Int) < maxNonce ∧
      beNat (SHA256.Sum256 ((⟨now, [], txs, prev, [], n⟩ : Block).prepareData reg)) <
        (NewProofOfWork ⟨now, [], txs, prev, [], 0⟩).target) :
    (NewBlock reg now txs prev).Hash.length = 32 ∧
      (NewBlock reg now txs prev).Hash =
        SHA256.Sum256 ((NewBlock reg now txs prev).prepareData reg) ∧
      beNat (NewBlock reg now txs prev).Hash <
        (NewProofOfWork (NewBlock reg now txs prev)).target ∧
      (NewProofOfWork (NewBlock reg now txs prev)).target = 2 ^ (256 - targetBits) := by
  obtain ⟨m, _, hb, hmeet⟩ := NewBlock_found reg now txs prev h
  rw [hb]
  exact ⟨Sum256_length _, rfl, hmeet, Nat.one_shiftLeft _⟩

/-- At the clock reading 1700000885 nonce 0 seals the genesis block. -/
theorem genesis_sealed_at_nonce_zero :
    ∃ n : Nat, (n : Int) < maxNonce ∧
      beNat (SHA256.Sum256 ((⟨1700000885, [], [.genesis ⟨ascii "GENESIS BLOCK"⟩], [], [], n⟩ :
        Block).prepareData registryInOrder)) <
        (NewProofOfWork ⟨1700000885, [], [.genesis ⟨ascii "GENESIS BLOCK"⟩], [], [], 0⟩).target :=
  ⟨0, by decide, by
    show beNat (SHA256.Sum256 ((⟨1700000885, [], [.genesis ⟨ascii "GENESIS BLOCK"⟩], [], [], 0⟩ :
        Block).prepareData registryInOrder)) < _
    rw [genesis_digest]; decide⟩

/-- C7 at the genesis block of the clock reading 1700000885. -/
theorem NewBlock_hash_witness :
    (NewBlock registryInOrder 1700000885 [.genesis ⟨ascii "GENESIS BLOCK"⟩] []).Hash.length = 32 ∧
      (NewBlock registryInOrder 1700000885 [.genesis ⟨ascii "GENESIS BLOCK"⟩] []).Hash =
        SHA256.Sum256
          ((NewBlock registryInOrder 1700000885 [.genesis ⟨ascii "GENESIS BLOCK"⟩] []).prepareData
            registryInOrder) ∧
      beNat (NewBlock registryInOrder 1700000885 [.genesis ⟨ascii "GENESIS BLOCK"⟩] []).Hash <
        (NewProofOfWork
          (NewBlock registryInOrder 1700000885 [.genesis ⟨ascii "GENESIS BLOCK"⟩] [])).target ∧
      (NewProofOfWork
          (NewBlock registryInOrder 1700000885 [.genesis ⟨ascii "GENESIS BLOCK"⟩] [])).target =
        2 ^ (256 - targetBits) :=
  NewBlock_hash_is_digest_below_target registryInOrder 1700000885
    [.genesis ⟨ascii "GENESIS BLOCK"⟩] [] genesis_sealed_at_nonce_zero

/-- C8. For every block `NewBlock` returns after its search has found a nonce
below `maxNonce` that meets the target, for any transaction list and any
predecessor hash, `NewProofOfWork(block).Validate()` is true. -/
theorem NewBlock_validates (reg : Gob.Registry) (now : Int) (txs : List Transaction)
    (prev : Bytes)
    (h : ∃ n : Nat, (n : Int) < maxNonce ∧
      beNat (SHA256.Sum256 ((⟨now, [], txs, prev, [], n⟩ : Block).prepareData reg)) <
        (NewProofOfWork ⟨now, [], txs, prev, [], 0⟩).target) :
    (NewProofOfWork (NewBlock reg now txs prev)).Validate reg = true := by
  obtain ⟨m, _, hb, hmeet⟩ := NewBlock_found reg now txs prev h
  rw [hb]
  simp only [ProofOfWork.Validate, decide_eq_true_eq]
  exact hmeet

/-- C8 at the genesis block of the clock reading 1700000885. -/
theorem NewBlock_validates_witness :
    (NewProofOfWork
      (NewBlock registryInOrder 1700000885 [.genesis ⟨ascii "GENESIS BLOCK"⟩] [])).Validate
        registryInOrder = true :=
  NewBlock_validates registryInOrder 1700000885 [.genesis ⟨ascii "GENESIS BLOCK"⟩] []
    genesis_sealed_at_nonce_zero

/-- C9 fails on the code: the genesis block sealed at the clock reading
1700000885, with its timestamp changed to 1700002410 and its stored hash kept,
still validates. -/
theorem changed_timestamp_still_validates :
    NewGenesisBlock registryInOrder 1700000885 =
        ⟨1700000885, [ascii "genesis"], [.genesis ⟨ascii "GENESIS BLOCK"⟩], [],
          beBytes 32 0x00075d1af2123a249981dcf498654d4935e7b8b286aefe700f2ae9654c91e55f, 0⟩ ∧
      (NewProofOfWork
        ⟨1700002410, [ascii "genesis"], [.genesis ⟨ascii "GENESIS BLOCK"⟩], [],
          beBytes 32 0x00075d1af2123a249981dcf498654d4935e7b8b286aefe700f2ae9654c91e55f,
          0⟩).Validate registryInOrder = true :=
  ⟨genesis_block, by decide⟩

/-- C9, amended.  For every sealed block, `Validate` on a changed block that
keeps the stored hash is false exactly when the recomputed SHA-256 digest of the
prepared data of the changed block is not below the target; the stored hash is
not compared.  A nonce changed to any smaller value from 0 on always gives
false. -/
theorem Validate_changed_block (reg : Gob.Registry) (now : Int) (txs : List Transaction)
    (prev : Bytes) :
    (∀ changed : Block,
      (NewProofOfWork { changed with Hash := (NewBlock reg now txs prev).Hash }).Validate reg =
          false ↔
        2 ^ (256 - targetBits) ≤ beNat (SHA256.Sum256 (changed.prepareData reg))) ∧
      ∀ m : Nat, (m : Int) < (NewBlock reg now txs prev).Nonce →
        (NewProofOfWork { NewBlock reg now txs prev with Nonce := m }).Validate reg = false := by
  constructor
  · intro changed
    simp [ProofOfWork.Validate, NewProofOfWork, Nat.one_shiftLeft, Block.prepareData]
  · intro m hm
    obtain ⟨f1, -, f3, f4, -, -, -⟩ := NewBlock_fields reg now txs prev
    obtain ⟨-, -, h3⟩ := runLoop_least reg (1 <<< (256 - targetBits)) maxNonce.toNat
      ⟨now, [], txs, prev, [], 0⟩ (List.replicate 32 (byte 0))
    have hnot := h3 m
    simp only [NewBlock, ProofOfWork.Run, NewProofOfWork] at hm
    simp only [zero_add, meets, Block.prepareData] at hnot
    have hno := hnot hm
    simp only [ProofOfWork.Validate, NewProofOfWork, Block.prepareData, f1, f3, f4,
      decide_eq_false_iff_not]
    exact hno

/-- C9, amended, at the genesis block of the clock reading 1700004738, which
nonce 1 seals: with the nonce changed to 0 it does not validate. -/
theorem Validate_changed_block_witness :
    (NewProofOfWork
      { NewBlock registryInOrder 1700004738 [.genesis ⟨ascii "GENESIS BLOCK"⟩] [] with
        Nonce := ((0 : Nat) : Int) }).Validate registryInOrder = false :=
  (Validate_changed_block registryInOrder 1700004738 [.genesis ⟨ascii "GENESIS BLOCK"⟩] []).2 0
    (by rw [slowGenesis_nonce]; decide)

/-- C10. `Validate` does not trust the stored hash: two blocks that agree on
`Timestamp`, `Nonce`, `PrevBlockHash` and `Transactions`, whatever their `Hash`
and `Transaction_types`, get the same result, and the result is whether the
recomputed SHA-256 digest of `prepareData`, read as a big-endian integer, is
below the target. -/
theorem Validate_ignores_stored_hash (reg : Gob.Registry) (b1 b2 : Block)
    (ht : b1.Timestamp = b2.Timestamp) (hn : b1.Nonce = b2.Nonce)
    (hp : b1.PrevBlockHash = b2.PrevBlockHash) (hx : b1.Transactions = b2.Transactions) :
    (NewProofOfWork b1).Validate reg = (NewProofOfWork b2).Validate reg ∧
      (NewProofOfWork b1).Validate reg =
        decide (beNat (SHA256.Sum256 (b1.prepareData reg)) < 2 ^ (256 - targetBits)) := by
  have hprep : b1.prepareData reg = b2.prepareData reg := by
    simp only [Block.prepareData, ht, hn, hp, hx]
  refine ⟨?_, ?_⟩
  · simp only [ProofOfWork.Validate, NewProofOfWork, hprep]
  · simp only [ProofOfWork.Validate, NewProofOfWork, Nat.one_shiftLeft]

/-- C10 at the genesis block of the clock reading 1700000885 and the same block
with another kind tag and no hash. -/
theorem Validate_ignores_stored_hash_witness :
    (NewProofOfWork
        ⟨1700000885, [ascii "genesis"], [.genesis ⟨ascii "GENESIS BLOCK"⟩], [],
          beBytes 32 0x00075d1af2123a249981dcf498654d4935e7b8b286aefe700f2ae9654c91e55f,
          0⟩).Validate registryInOrder =
      (NewProofOfWork
        ⟨1700000885, [ascii "Bogus"], [.genesis ⟨ascii "GENESIS BLOCK"⟩], [], [],
          0⟩).Validate registryInOrder ∧
      (NewProofOfWork
        ⟨1700000885, [ascii "genesis"], [.genesis ⟨ascii "GENESIS BLOCK"⟩], [],
          beBytes 32 0x00075d1af2123a249981dcf498654d4935e7b8b286aefe700f2ae9654c91e55f,
          0⟩).Validate registryInOrder =
        decide (beNat (SHA256.Sum256
          ((⟨1700000885, [ascii "genesis"], [.genesis ⟨ascii "GENESIS BLOCK"⟩], [],
            beBytes 32 0x00075d1af2123a249981dcf498654d4935e7b8b286aefe700f2ae9654c91e55f,
            0⟩ : Block).prepareData registryInOrder)) < 2 ^ (256 - targetBits)) :=
  Validate_ignores_stored_hash registryInOrder _ _ rfl rfl rfl rfl

/-- C11 fails on the code: for a proof-of-work whose target is 0, which no
digest is below, `Run` signals nothing; it returns the digest of the last nonce
it tried, 2^63 - 2, as the hash and leaves the nonce at `maxNonce`. -/
theorem exhausted_search_returns_a_hash :
    exhaustedPow.target = 0 ∧
      exhaustedPow.Run registryInOrder =
        (beBytes 32 0xa38eb28193f8d86c766c5a215e1b16c2b0943870b43daff5ded2fdaae7261bcd,
          { exhaustedPow.block with Nonce := maxNonce }) := by
  refine ⟨rfl, ?_⟩
  rw [Run_exhausted registryInOrder exhaustedPow (fun n _ h => absurd h (Nat.not_lt_zero _))]
  decide

/-- C11, amended.  If no nonce from 0 up to `maxNonce - 1` yields a digest below
the target, `Run` signals no failure: it returns, as if it were the seal, the
32-byte digest of the last nonce it tried, `maxNonce - 1`, which is not below the
target, and leaves the nonce of the block at `maxNonce`. -/
theorem Run_exhausted_returns_last_digest (reg : Gob.Registry) (pow : ProofOfWork)
    (h : ∀ n : Nat, (n : Int) < maxNonce →
      ¬ beNat (SHA256.Sum256 (({ pow.block with Nonce := (n : Int) } : Block).prepareData reg)) <
        pow.target) :
    pow.Run reg =
        (SHA256.Sum256 (({ pow.block with Nonce := maxNonce - 1 } : Block).prepareData reg),
          { pow.block with Nonce := maxNonce }) ∧
      (pow.Run reg).1.length = 32 ∧ ¬ beNat (pow.Run reg).1 < pow.target ∧
      (pow.Run reg).2.Nonce = maxNonce := by
  have hrun := Run_exhausted reg pow h
  have hlast := h (2 ^ 63 - 2) (by decide)
  rw [show (((2 ^ 63 - 2 : Nat) : Int)) = maxNonce - 1 by decide] at hlast
  rw [hrun]
  exact ⟨rfl, Sum256_length _, hlast, rfl⟩

/-- C11, amended, at the proof-of-work of target 0 on the genesis candidate. -/
theorem Run_exhausted_returns_last_digest_witness :
    (exhaustedPow.Run registryInOrder).1.length = 32 ∧
      (exhaustedPow.Run registryInOrder).2.Nonce = maxNonce :=
  have h := Run_exhausted_returns_last_digest registryInOrder exhaustedPow
    (fun _ _ hlt => absurd hlt (Nat.not_lt_zero _))
  ⟨h.2.1, h.2.2.2⟩

/-- C12. The target `NewProofOfWork` builds is the same for every block and
equals 2^(256 - targetBits) with `targetBits` = 12; so `Validate` is true exactly
when the SHA-256 digest of `prepareData`, read as a big-endian integer, is below
2^244, that is exactly when the first 12 of its 256 bits are all zero. -/
theorem target_is_fixed (reg : Gob.Registry) (b b2 : Block) :
    (NewProofOfWork b).target = 2 ^ (256 - targetBits) ∧ targetBits = 12 ∧
      (NewProofOfWork b2).target = (NewProofOfWork b).target ∧
      (SHA256.Sum256 (b.prepareData reg)).length * 8 = 256 ∧
      ((NewProofOfWork b).Validate reg = true ↔
        beNat (SHA256.Sum256 (b.prepareData reg)) < 2 ^ 244) ∧
      ((NewProofOfWork b).Validate reg = true ↔
        ∀ i, i < 12 → bitAt (SHA256.Sum256 (b.prepareData reg)) i = false) := by
  have ht : (NewProofOfWork b).target = 2 ^ 244 := by
    simp only [NewProofOfWork, targetBits, Nat.shiftLeft_eq]
    norm_num
  have hv : (NewProofOfWork b).Validate reg = true ↔
      beNat (SHA256.Sum256 (b.prepareData reg)) < 2 ^ 244 := by
    simp only [ProofOfWork.Validate, decide_eq_true_eq, ht]
    rfl
  refine ⟨by rw [ht]; rfl, rfl, rfl, by rw [Sum256_length], hv, ?_⟩
  rw [hv]
  exact lt_pow_244_iff_bits _ (Sum256_length _)

/-- C13. For every block `NewBlock` returns, for a 64-bit clock reading and
well-formed transactions, whose encoded form is within the 8 GB `encoding/gob`
allows one message: its kind tags name its transactions in order, and
`DeserializeBlock` of its `Serialize` succeeds with a block equal to it in
`Timestamp`, `Transaction_types`, the ordered `Transactions`, `PrevBlockHash`,
`Hash` and `Nonce`. -/
theorem block_round_trip (reg : Gob.Registry) (now : Int) (txs : List Transaction)
    (prev : Bytes) (hnow : isInt64 now) (htx : ∀ tx ∈ txs, tx.WellFormed)
    (hsize : ((NewBlock reg now txs prev).Serialize reg).length < 2 ^ 33) :
    (NewBlock reg now txs prev).Transaction_types = txs.map Transaction.typeName ∧
      DeserializeBlock ((NewBlock reg now txs prev).Serialize reg) =
        .ok ⟨(NewBlock reg now txs prev).Timestamp, (NewBlock reg now txs prev).Transaction_types,
          (NewBlock reg now txs prev).Transactions.map some,
          (NewBlock reg now txs prev).PrevBlockHash, (NewBlock reg now txs prev).Hash,
          (NewBlock reg now txs prev).Nonce⟩ :=
  ⟨(NewBlock_fields reg now txs prev).2.1, NewBlock_decodes reg now txs prev hnow htx hsize⟩

/-- C13 at the registration of V1 to Alice on the genesis block of the fresh
chain. -/
theorem block_round_trip_witness :
    DeserializeBlock
        ((NewBlock registryInOrder 1700101011
          [.registration ⟨ascii "V1", ascii "Alice", 1600000000⟩]
          (beBytes 32 0x00075d1af2123a249981dcf498654d4935e7b8b286aefe700f2ae9654c91e55f)).Serialize
            registryInOrder) =
      .ok ⟨1700101011, [ascii "VehicleRegistration"],
        [some (.registration ⟨ascii "V1", ascii "Alice", 1600000000⟩)],
        beBytes 32 0x00075d1af2123a249981dcf498654d4935e7b8b286aefe700f2ae9654c91e55f,
        beBytes 32 0x000847d9fcccbf0ec1065050675c7102019bd459dbe709e3b84a22249b5f5059, 0⟩ :=
  have e : NewBlock registryInOrder 1700101011
      [.registration ⟨ascii "V1", ascii "Alice", 1600000000⟩]
      (beBytes 32 0x00075d1af2123a249981dcf498654d4935e7b8b286aefe700f2ae9654c91e55f) =
      registrationBlock := registrationV1_block
  (block_round_trip registryInOrder 1700101011
    [.registration ⟨ascii "V1", ascii "Alice", 1600000000⟩]
    (beBytes 32 0x00075d1af2123a249981dcf498654d4935e7b8b286aefe700f2ae9654c91e55f)
    (by decide) (by decide) (by rw [e]; decide)).2.trans (by rw [e]; rfl)

/-- C14 fails on the code: the encoded genesis block of the fresh chain with the
kind tag "Bogus" decodes without an error and without a panic, to a block whose
transaction slot is nil; the payload is read and thrown away. -/
theorem unknown_kind_is_dropped :
    DeserializeBlock (bogusBlock.Serialize registryInOrder) =
      .ok ⟨1700000885, [ascii "Bogus"], [none], [],
        beBytes 32 0x00075d1af2123a249981dcf498654d4935e7b8b286aefe700f2ae9654c91e55f, 0⟩ := by
  decide

/-- C15 fails on the code: the encoded genesis block of the fresh chain with a
second kind tag, "VehicleSale", and no second payload decodes to a block with
both tags and the one transaction. -/
theorem surplus_tag_is_accepted :
    DeserializeBlock (surplusTagBlock.Serialize registryInOrder) =
      .ok ⟨1700000885, [ascii "genesis", ascii "VehicleSale"],
        [some (.genesis ⟨ascii "GENESIS BLOCK"⟩)], [],
        beBytes 32 0x00075d1af2123a249981dcf498654d4935e7b8b286aefe700f2ae9654c91e55f, 0⟩ := by
  decide

/-- C15, amended.  For every encoded block whose kind tags name its
transactions in order and are followed by any further tags, so that there are at
least as many tags as payloads, `DeserializeBlock` returns a block, not an
error: the transactions decoded from the payloads, and the list of kind tags as
it was encoded, the further tags included. -/
theorem surplus_tags_are_kept (reg : Gob.Registry) (b : Block) (extra : List Bytes)
    (ht : isInt64 b.Timestamp) (hn : isInt64 b.Nonce)
    (htypes : b.Transaction_types = b.Transactions.map Transaction.typeName ++ extra)
    (htx : ∀ tx ∈ b.Transactions, tx.WellFormed)
    (hsize : (b.Serialize reg).length < 2 ^ 33) :
    b.Transactions.length + extra.length = b.Transaction_types.length ∧
      DeserializeBlock (b.Serialize reg) =
        .ok ⟨b.Timestamp, b.Transactions.map Transaction.typeName ++ extra,
          b.Transactions.map some, b.PrevBlockHash, b.Hash, b.Nonce⟩ := by
  refine ⟨by rw [htypes, List.length_append, List.length_map], ?_⟩
  rw [DeserializeBlock_Serialize_of_length reg b extra ht hn htypes htx hsize, Block.decoded,
    htypes]

/-- C15, amended, at the genesis block of the fresh chain with the further tags
"VehicleSale" and "Bogus". -/
theorem surplus_tags_witness :
    DeserializeBlock
        ((⟨1700000885, [ascii "genesis", ascii "VehicleSale", ascii "Bogus"],
          [.genesis ⟨ascii "GENESIS BLOCK"⟩], [],
          beBytes 32 0x00075d1af2123a249981dcf498654d4935e7b8b286aefe700f2ae9654c91e55f, 0⟩ :
            Block).Serialize registryInOrder) =
      .ok ⟨1700000885, [ascii "genesis", ascii "VehicleSale", ascii "Bogus"],
        [some (.genesis ⟨ascii "GENESIS BLOCK"⟩)], [],
        beBytes 32 0x00075d1af2123a249981dcf498654d4935e7b8b286aefe700f2ae9654c91e55f, 0⟩ :=
  (surplus_tags_are_kept registryInOrder
    ⟨1700000885, [ascii "genesis", ascii "VehicleSale", ascii "Bogus"],
      [.genesis ⟨ascii "GENESIS BLOCK"⟩], [],
      beBytes 32 0x00075d1af2123a249981dcf498654d4935e7b8b286aefe700f2ae9654c91e55f, 0⟩
    [ascii "VehicleSale", ascii "Bogus"] (by decide) (by decide) (by decide) (by decide)
    (by decide)).2

/-- C16. For every store, whose key "l" maps to a hash `h`, and every
transaction list `t`: the block `AddBlock(t)` builds has `Transactions` = `t` and
`PrevBlockHash` = `h`; afterwards the store maps the hash of that block to its
serialized form and the key "l" to its hash, and the tip of the chain is its
hash. -/
theorem AddBlock_appends (reg : Gob.Registry) (now : Int) (bc : Blockchain)
    (t : List Transaction) :
    (NewBlock reg now t (bc.db.Get tipKey)).Transactions = t ∧
      (NewBlock reg now t (bc.db.Get tipKey)).PrevBlockHash = bc.db.Get tipKey ∧
      (bc.AddBlock reg now t).db.Get (NewBlock reg now t (bc.db.Get tipKey)).Hash =
        (NewBlock reg now t (bc.db.Get tipKey)).Serialize reg ∧
      (bc.AddBlock reg now t).db.Get tipKey = (NewBlock reg now t (bc.db.Get tipKey)).Hash ∧
      (bc.AddBlock reg now t).tip = (NewBlock reg now t (bc.db.Get tipKey)).Hash := by
  obtain ⟨a1, a2, a3, -⟩ := AddBlock_db reg now bc t
  obtain ⟨-, -, f3, f4, -⟩ := NewBlock_fields reg now t (bc.db.Get tipKey)
  exact ⟨f3, f4, a3, a2, a1⟩

/-- C17. When the database has no bucket of blocks, `NewBlockchain` leaves in
the new bucket exactly two entries, the serialized genesis block under its hash
and that hash under the key "l", and returns a chain whose tip is that hash; the
genesis block is the one `NewBlock` builds and seals for the single transaction
genesis "GENESIS BLOCK" on the empty predecessor hash.  When the bucket exists,
`NewBlockchain` leaves it as it is and returns a chain whose tip is the value
under "l". -/
theorem NewBlockchain_creates_or_opens (reg : Gob.Registry) (now : Int) :
    (NewBlockchain reg now none).db.entries =
        [(tipKey, (NewGenesisBlock reg now).Hash),
          ((NewGenesisBlock reg now).Hash, (NewGenesisBlock reg now).Serialize reg)] ∧
      (NewBlockchain reg now none).tip = (NewGenesisBlock reg now).Hash ∧
      NewGenesisBlock reg now = NewBlock reg now [.genesis ⟨ascii "GENESIS BLOCK"⟩] [] ∧
      (NewGenesisBlock reg now).Transactions = [.genesis ⟨ascii "GENESIS BLOCK"⟩] ∧
      (NewGenesisBlock reg now).PrevBlockHash = [] ∧
      ((NewGenesisBlock reg now).Hash, (NewGenesisBlock reg now).Nonce) =
        (((NewProofOfWork
            ⟨now, [], [.genesis ⟨ascii "GENESIS BLOCK"⟩], [], [], 0⟩).Run reg).1,
          ((NewProofOfWork
            ⟨now, [], [.genesis ⟨ascii "GENESIS BLOCK"⟩], [], [], 0⟩).Run reg).2.Nonce) ∧
      ∀ b : Bucket, NewBlockchain reg now (some b) = ⟨b.Get tipKey, b⟩ := by
  obtain ⟨-, -, f3, f4, f5, -⟩ := NewBlock_fields reg now [.genesis ⟨ascii "GENESIS BLOCK"⟩] []
  have hne : ((NewGenesisBlock reg now).Hash != tipKey) = true := by
    simp only [bne_iff_ne, ne_eq]
    intro e
    have := congrArg List.length e
    rw [tipKey_length] at this
    unfold NewGenesisBlock at this
    omega
  refine ⟨?_, rfl, rfl, f3, f4, ?_, fun _ => rfl⟩
  · simp only [NewBlockchain, Bucket.Put, List.filter, hne]
  · simp only [NewGenesisBlock, NewBlock]

/-- C18. For every chain made by `NewBlockchain` in an empty database followed
by n `AddBlock` calls, with 64-bit clock readings, well-formed transactions,
encoded blocks within the 2^31 - 2 bytes of a value of the store, and block
hashes pairwise distinct: draining a fresh iterator with `Next` yields exactly
n + 1 blocks; read backwards they are the genesis block and then the blocks of
the appends in the order they were made; each block but the last names as
`PrevBlockHash` the `Hash` of the block returned right after it; and the last
block returned is the only one whose `PrevBlockHash` is empty. -/
theorem drain_yields_chain (reg : Gob.Registry) (now : Int)
    (steps : List (Int × List Transaction)) (hnow : isInt64 now)
    (hsteps : ∀ s ∈ steps, isInt64 s.1 ∧ ∀ tx ∈ s.2, tx.WellFormed)
    (hsize : ∀ b ∈ blocksOf reg now steps, (b.Serialize reg).length ≤ 2 ^ 31 - 2)
    (hdistinct : ((blocksOf reg now steps).map Block.Hash).Nodup) :
    ∃ out : List DecodedBlock,
      drain (steps.length + 1) (chainOf reg now steps).Iterator = some out ∧
      out.length = steps.length + 1 ∧
      out.reverse.map (fun d => (d.Timestamp, d.Transactions)) =
        (now, [some (.genesis ⟨ascii "GENESIS BLOCK"⟩)]) ::
          steps.map (fun s => (s.1, s.2.map some)) ∧
      List.Chain' (fun a b : DecodedBlock => a.PrevBlockHash = b.Hash) out ∧
      ∀ (i : Nat) (h : i < out.length),
        (out.get ⟨i, h⟩).PrevBlockHash = [] ↔ i = steps.length := by
  have hst := chainOf_stores reg now steps hnow hsteps
    (fun b hb => by have := hsize b hb; omega) hdistinct
  have hlen : (blocksOf reg now steps).length = steps.length + 1 := by
    rw [blocksOf, extendBlocks_length, List.length_singleton]
    omega
  refine ⟨(blocksOf reg now steps).map Block.decoded, ?_, by rw [List.length_map, hlen], ?_, ?_,
    ?_⟩
  · have hd := drain_stored (chainOf reg now steps).db (blocksOf reg now steps) 0 hst.nonempty
      (fun b hb => by rw [hst.stored b hb]; exact hst.decodes b hb) hst.hashes hst.linked
      hst.oldest
    rw [hlen, Nat.add_zero, ← hst.tip] at hd
    exact hd
  · have hrev := extendBlocks_reverse reg steps [NewGenesisBlock reg now]
    obtain ⟨f1, -, f3, -⟩ := NewBlock_fields reg now [.genesis ⟨ascii "GENESIS BLOCK"⟩] []
    have hmap : (((blocksOf reg now steps).map Block.decoded).reverse.map
        fun d => (d.Timestamp, d.Transactions)) =
        ((blocksOf reg now steps).reverse.map fun b => (b.Timestamp, b.Transactions)).map
          fun p => (p.1, p.2.map some) := by
      rw [← List.map_reverse, List.map_map, List.map_map]
      rfl
    rw [hmap, blocksOf, hrev]
    simp only [List.reverse_singleton, List.map_singleton, List.singleton_append, List.map_cons]
    unfold NewGenesisBlock
    rw [f1, f3]
    rfl
  · rw [List.chain'_map]
    exact hst.linked
  · intro i h
    have h2 : i < (blocksOf reg now steps).length := by simpa using h
    have hpos := only_oldest_has_no_predecessor (blocksOf reg now steps) hst.hashes hst.linked
      hst.oldest i h2
    have e : (((blocksOf reg now steps).map Block.decoded).get ⟨i, h⟩).PrevBlockHash =
        ((blocksOf reg now steps).get ⟨i, h2⟩).PrevBlockHash := by
      simp only [List.get_eq_getElem, List.getElem_map, Block.decoded]
    rw [e, hpos, hlen]
    omega

/-- C18 at the ownership chain: the fresh chain, the registration of V1 to
Alice, the sale of V1 to Bob. -/
theorem drain_yields_chain_witness :
    ∃ out : List DecodedBlock,
      drain 3 ownershipChain.Iterator = some out ∧ out.length = 3 ∧
      out.reverse.map (fun d => (d.Timestamp, d.Transactions)) =
        [(1700000885, [some (.genesis ⟨ascii "GENESIS BLOCK"⟩)]),
          (1700101011, [some (.registration ⟨ascii "V1", ascii "Alice", 1600000000⟩)]),
          (1700209554,
            [some (.sale ⟨ascii "V1", ascii "Alice", ascii "Bob", 1650000000, 100⟩)])] ∧
      List.Chain' (fun a b : DecodedBlock => a.PrevBlockHash = b.Hash) out ∧
      ∀ (i : Nat) (h : i < out.length), (out.get ⟨i, h⟩).PrevBlockHash = [] ↔ i = 2 :=
  drain_yields_chain registryInOrder 1700000885
    [(1700101011, [.registration ⟨ascii "V1", ascii "Alice", 1600000000⟩]),
      (1700209554, [.sale ⟨ascii "V1", ascii "Alice", ascii "Bob", 1650000000, 100⟩])]
    (by decide) (by decide) (by rw [ownershipChain_blocksOf]; decide)
    (by rw [ownershipChain_blocksOf]; decide)

/-- C19 fails on the code: on the fresh chain the first `Next` returns the
genesis block and leaves the cursor at the empty hash; the second `Next` finds
no entry there, drops the error of `DeserializeBlock` and panics on the missing
block, where `printChain` expects a nil block. -/
theorem Next_after_genesis_panics :
    freshChain.Iterator.Next =
        .ok (⟨1700000885, [ascii "genesis"], [some (.genesis ⟨ascii "GENESIS BLOCK"⟩)], [],
            beBytes 32 0x00075d1af2123a249981dcf498654d4935e7b8b286aefe700f2ae9654c91e55f, 0⟩,
          ⟨[], freshChain.db⟩) ∧
      (BlockchainIterator.mk [] freshChain.db).Next = .panic := by
  rw [freshChain_eq]
  decide

/-- What `Next` does in place of an end-of-chain result: it has neither such a
result nor an error result.  On a chain made by `NewBlockchain` in an empty
database and `AddBlock` calls it returns a block exactly when the entry under
the cursor's current hash decodes to one, and then moves the cursor to the
`PrevBlockHash` of that block.  So once `Next` has returned the genesis block,
the block with the empty `PrevBlockHash`, the cursor's current hash is empty,
the store has no entry under it, and a further call to `Next` returns no
block. -/
theorem Next_has_no_end_of_chain (reg : Gob.Registry) (now : Int)
    (steps : List (Int × List Transaction)) (i : BlockchainIterator)
    (hdb : i.db = (chainOf reg now steps).db) :
    (∀ msg, i.Next ≠ .error msg) ∧
      (∀ block, DeserializeBlock (i.db.Get i.currentHash) = .ok block ↔
        i.Next = .ok (block, ⟨block.PrevBlockHash, i.db⟩)) ∧
      ∀ block i2, i.Next = .ok (block, i2) → block.PrevBlockHash = [] →
        i2.currentHash = [] ∧ i2.db.Get i2.currentHash = [] ∧ ∀ r, i2.Next ≠ .ok r := by
  refine ⟨?_, ?_, ?_⟩
  · intro msg
    unfold BlockchainIterator.Next
    split <;> simp
  · intro block
    unfold BlockchainIterator.Next
    constructor
    · intro h
      rw [h]
    · intro h
      split at h
      · next b hb =>
        simp only [Outcome.ok.injEq, Prod.mk.injEq] at h
        rw [hb, h.1]
      · exact absurd h (by simp)
  · intro block i2 h hp
    unfold BlockchainIterator.Next at h
    split at h
    · next b hb =>
      simp only [Outcome.ok.injEq, Prod.mk.injEq] at h
      obtain ⟨rfl, rfl⟩ := h
      have hnone : i.db.Get [] = [] := by rw [hdb]; exact chainOf_nothing reg now steps
      refine ⟨hp, ?_, ?_⟩
      · simp only [hp]
        exact hnone
      · intro r
        simp only [BlockchainIterator.Next, hp, hnone, DeserializeBlock_nil]
        simp
    · exact absurd h (by simp)

/-- After the first `Next` on the fresh chain the cursor is at the empty hash,
under which the store holds nothing. -/
theorem Next_has_no_end_witness :
    (BlockchainIterator.mk [] freshChain.db).currentHash = [] ∧
      (BlockchainIterator.mk [] freshChain.db).db.Get
        (BlockchainIterator.mk [] freshChain.db).currentHash = [] :=
  have h := (Next_has_no_end_of_chain registryInOrder 1700000885 [] freshChain.Iterator rfl).2.2
    ⟨1700000885, [ascii "genesis"], [some (.genesis ⟨ascii "GENESIS BLOCK"⟩)], [],
      beBytes 32 0x00075d1af2123a249981dcf498654d4935e7b8b286aefe700f2ae9654c91e55f, 0⟩
    ⟨[], freshChain.db⟩ (by rw [freshChain_eq]; decide) rfl
  ⟨h.1, h.2.1⟩

/-- C20. `AddBlock` is append-only: it changes the store at no key other than
"l" and the hash of the new block; under every other key, so under the hash of
every block stored before whose hash is not that of the new block, the entry
and the bytes `Get` returns are the same before and after the call. -/
theorem AddBlock_is_append_only (reg : Gob.Registry) (now : Int) (bc : Blockchain)
    (t : List Transaction) (k : Bytes) (hk : k ≠ tipKey)
    (hnew : k ≠ (NewBlock reg now t (bc.db.Get tipKey)).Hash) :
    (bc.AddBlock reg now t).db.entries.lookup k = bc.db.entries.lookup k ∧
      (bc.AddBlock reg now t).db.Get k = bc.db.Get k := by
  refine ⟨?_, (AddBlock_db reg now bc t).2.2.2 k hk hnew⟩
  simp only [Blockchain.AddBlock]
  rw [lookup_Put_ne _ _ _ _ hk, lookup_Put_ne _ _ _ _ hnew]

/-- C20 at the registration of V1 appended to the fresh chain: the entry of the
genesis block is as before. -/
theorem AddBlock_is_append_only_witness :
    ((freshChain.AddBlock registryInOrder 1700101011
        [.registration ⟨ascii "V1", ascii "Alice", 1600000000⟩]).db.entries.lookup
          (beBytes 32 0x00075d1af2123a249981dcf498654d4935e7b8b286aefe700f2ae9654c91e55f) =
        freshChain.db.entries.lookup
          (beBytes 32 0x00075d1af2123a249981dcf498654d4935e7b8b286aefe700f2ae9654c91e55f)) ∧
      (freshChain.AddBlock registryInOrder 1700101011
        [.registration ⟨ascii "V1", ascii "Alice", 1600000000⟩]).db.Get
          (beBytes 32 0x00075d1af2123a249981dcf498654d4935e7b8b286aefe700f2ae9654c91e55f) =
        freshChain.db.Get
          (beBytes 32 0x00075d1af2123a249981dcf498654d4935e7b8b286aefe700f2ae9654c91e55f) :=
  AddBlock_is_append_only registryInOrder 1700101011 freshChain
    [.registration ⟨ascii "V1", ascii "Alice", 1600000000⟩]
    (beBytes 32 0x00075d1af2123a249981dcf498654d4935e7b8b286aefe700f2ae9654c91e55f)
    (by decide)
    (by rw [freshChain_stores.pointer, registrationV1_block]; decide)

/-! ## The example chains under the sale path and under appends -/

/-- When the flags are valid, the dealer is the latest owner and there is no
active loan, `addVehicleSale` appends the sale. -/
theorem addVehicleSale_appends (reg : Gob.Registry) (now currentTime : Int) (cli : CLI)
    (vin dealer buyer : Bytes) (saleDate price : Int) (fuel : Nat)
    (hv : vin ≠ []) (hd : dealer ≠ []) (hb : buyer ≠ []) (hp : 0 < price)
    (h1 : cli.bc.FindLatestOwnerByVIN vin fuel = some (.ok dealer))
    (h2 : cli.hasActiveLoan currentTime vin fuel = some (.ok false)) :
    cli.addVehicleSale reg now currentTime vin dealer buyer (some saleDate) price fuel =
      some (cli.bc.AddBlock reg now [.sale ⟨vin, dealer, buyer, saleDate, price⟩], .ok ()) := by
  unfold CLI.addVehicleSale
  rw [if_neg hv, if_neg (by simp [hd, hb]), if_neg (by omega)]
  simp only [h1, h2, ne_eq, not_true_eq_false, if_false]

/-- On the ownership chain the latest owner of V1 is Bob. -/
theorem ownershipChain_owner :
    ownershipChain.FindLatestOwnerByVIN (ascii "V1") 3 = some (.ok (ascii "Bob")) :=
  (findOwnerLoop_drain (ascii "V1") 3 _ _ ownershipChain_drain).trans (by decide)

/-- On the ownership chain V1 is under no loan. -/
theorem ownershipChain_no_loan (asOf : Int) :
    (CLI.mk ownershipChain).hasActiveLoan asOf (ascii "V1") 3 = some (.ok false) := by
  obtain ⟨r, hr, hiff⟩ := activeLoanLoop_drain (ascii "V1") asOf 3 _ _ ownershipChain_drain
  have hno : ¬ ∃ b ∈ ownershipBlocks, ∃ slot ∈ b.Transactions,
      isActiveLoan (ascii "V1") asOf slot := by
    simp [ownershipBlocks, isActiveLoan]
  cases r with
  | false => exact hr
  | true => exact absurd (hiff.mp rfl) hno

/-- The blocks of the loan chain with the past loan appended, newest first. -/
theorem loanChainPast_blocks :
    blocksOf registryInOrder 1700000885
        ([(1700102743, [.registration ⟨ascii "V2", ascii "Carl", 1600000000⟩]),
          (1700200059,
            [.loan ⟨ascii "V2", ascii "Carl", ascii "Bank", 5000, 1600000000, 1900000000⟩])] ++
          [(1700300874,
            [.loan ⟨ascii "V2", ascii "Carl", ascii "Bank", 5000, 1500000000, 1600000000⟩])]) =
      [⟨1700300874, [ascii "LoanContract"],
          [.loan ⟨ascii "V2", ascii "Carl", ascii "Bank", 5000, 1500000000, 1600000000⟩],
          beBytes 32 0x00020dc9a499df787415ff4eb4d414744fc22d482b07a07a38becfd3d8fe2562,
          beBytes 32 0x000f0f852b99c4d583a14af02ab451188af3c7065b415c8feee79d99dca22322, 0⟩,
        ⟨1700200059, [ascii "LoanContract"],
          [.loan ⟨ascii "V2", ascii "Carl", ascii "Bank", 5000, 1600000000, 1900000000⟩],
          beBytes 32 0x000a3d5c2632778ebad2660274568750fff8cadd82a0d58eaf5aed369fe78f3f,
          beBytes 32 0x00020dc9a499df787415ff4eb4d414744fc22d482b07a07a38becfd3d8fe2562, 0⟩,
        ⟨1700102743, [ascii "VehicleRegistration"],
          [.registration ⟨ascii "V2", ascii "Carl", 1600000000⟩],
          beBytes 32 0x00075d1af2123a249981dcf498654d4935e7b8b286aefe700f2ae9654c91e55f,
          beBytes 32 0x000a3d5c2632778ebad2660274568750fff8cadd82a0d58eaf5aed369fe78f3f, 0⟩,
        ⟨1700000885, [ascii "genesis"], [.genesis ⟨ascii "GENESIS BLOCK"⟩], [],
          beBytes 32 0x00075d1af2123a249981dcf498654d4935e7b8b286aefe700f2ae9654c91e55f, 0⟩] :=
  loanChainPast_blocksOf

/-- The loan chain has an active loan on V2 at 1700000000. -/
theorem loanChain_active :
    (CLI.mk loanChain).hasActiveLoan 1700000000 (ascii "V2") 3 = some (.ok true) := by
  obtain ⟨r, hr, hiff⟩ := activeLoanLoop_drain (ascii "V2") 1700000000 3 _ _ loanChain_drain
  have ht : r = true :=
    hiff.mpr ⟨_, List.mem_cons_self _ _, _, List.mem_cons_self _ _, _, rfl, rfl, by decide⟩
  rw [ht] at hr
  exact hr

/-- C21 fails on the code: on the fresh chain, the confirmation of a block that
names the hash of the stored genesis block as its own `Hash`, with another
timestamp, is accepted, and the bytes stored under that hash are no longer
those of the genesis block. -/
theorem confirmation_overwrites_block :
    handleBlockCreationConfirmation registryInOrder freshChain
        (some (restampedGenesis.Serialize registryInOrder)) = .ok overwrittenChain ∧
      freshChain.db.Get restampedGenesis.Hash =
        (NewGenesisBlock registryInOrder 1700000885).Serialize registryInOrder ∧
      overwrittenChain.db.Get restampedGenesis.Hash ≠
        freshChain.db.Get restampedGenesis.Hash := by
  unfold overwrittenChain
  rw [freshChain_eq, genesis_block]
  decide

/-- C21, amended.  Accepting a remotely confirmed block, for every incoming
block that decodes and is accepted, makes the `Hash` the block names the tip and
the value of the key "l", stores the block in its encoded form under that hash,
and changes the store at no other key: the bytes stored under the key of an
existing block are unchanged unless that key is the `Hash` the incoming block
names. -/
theorem confirmation_replaces_tip (reg : Gob.Registry) (bc : Blockchain) (data : Bytes)
    (block : DecodedBlock) (bc2 : Blockchain) (hd : DeserializeBlock data = .ok block)
    (h : handleBlockCreationConfirmation reg bc (some data) = .ok bc2) :
    bc2.tip = block.Hash ∧ bc2.db.Get tipKey = block.Hash ∧
      (block.Hash ≠ tipKey →
        ∃ b, block.toBlock = some b ∧ bc2.db.Get block.Hash = b.Serialize reg) ∧
      ∀ k, k ≠ tipKey → k ≠ block.Hash →
        bc2.db.entries.lookup k = bc.db.entries.lookup k ∧ bc2.db.Get k = bc.db.Get k := by
  obtain ⟨b, hb, -, rfl⟩ := confirmation_accepted reg bc data block bc2 hd h
  refine ⟨rfl, Get_Put_same _ _ _, ?_, ?_⟩
  · intro hne
    refine ⟨b, hb, ?_⟩
    simp only
    rw [Get_Put_ne _ _ _ _ hne, Get_Put_same]
  · intro k hk hk2
    simp only
    rw [lookup_Put_ne _ _ _ _ hk, lookup_Put_ne _ _ _ _ hk2, Get_Put_ne _ _ _ _ hk,
      Get_Put_ne _ _ _ _ hk2]
    exact ⟨rfl, rfl⟩

/-- C21, amended, at the confirmation of the registration of V1 on the fresh
chain: the entry of the genesis block is as before. -/
theorem confirmation_replaces_tip_witness :
    (⟨registrationBlock.Hash,
        (freshChain.db.Put registrationBlock.Hash
          (registrationBlock.Serialize registryInOrder)).Put tipKey
            registrationBlock.Hash⟩ : Blockchain).db.Get
          (beBytes 32 0x00075d1af2123a249981dcf498654d4935e7b8b286aefe700f2ae9654c91e55f) =
      freshChain.db.Get
        (beBytes 32 0x00075d1af2123a249981dcf498654d4935e7b8b286aefe700f2ae9654c91e55f) :=
  ((confirmation_replaces_tip registryInOrder freshChain
    (registrationBlock.Serialize registryInOrder) registrationBlock.decoded
    ⟨registrationBlock.Hash,
      (freshChain.db.Put registrationBlock.Hash
        (registrationBlock.Serialize registryInOrder)).Put tipKey registrationBlock.Hash⟩
    (by decide) (by rw [freshChain_eq]; decide)).2.2.2
    (beBytes 32 0x00075d1af2123a249981dcf498654d4935e7b8b286aefe700f2ae9654c91e55f)
    (by decide) (by decide)).2

/-- C22 fails on the code: the confirmation, on the fresh chain, of a block
that names "l" as its `Hash` leads to a reachable state in which the key "l"
maps to "l", and the entry stored under that value, the bytes "l", decodes to no
block. -/
theorem tip_pointer_can_name_itself :
    Reachable registryInOrder pointerNamedChain ∧
      pointerNamedChain.db.Get tipKey = pointerNamedChain.tip ∧
      pointerNamedChain.db.Get (pointerNamedChain.db.Get tipKey) = tipKey ∧
      DeserializeBlock (pointerNamedChain.db.Get (pointerNamedChain.db.Get tipKey)) =
        .error "failed to decode block" :=
  ⟨.confirm freshChain (some (pointerNamedBlock.Serialize registryInOrder)) pointerNamedChain
      (.create 1700000885) (by unfold pointerNamedChain; rw [freshChain_eq]; decide),
    by unfold pointerNamedChain; rw [freshChain_eq]; decide,
    by unfold pointerNamedChain; rw [freshChain_eq]; decide,
    by unfold pointerNamedChain; rw [freshChain_eq]; decide⟩

/-- C22, amended.  In every state reachable from an empty store through
`NewBlockchain`, `AddBlock` and `handleBlockCreationConfirmation`, the key "l"
maps to the current tip hash: its value equals `bc.tip`.  When moreover every
input was one `encoding/gob` can send and no confirmed block named "l" as its
`Hash`, that value is the key of a stored entry that decodes to a block whose
`Hash` equals the key. -/
theorem tip_pointer_names_tip (reg : Gob.Registry) (bc : Blockchain) :
    (Reachable reg bc → bc.db.Get tipKey = bc.tip) ∧
      (ReachableSound reg bc →
        bc.db.Get tipKey = bc.tip ∧
          ∃ d, DeserializeBlock (bc.db.Get (bc.db.Get tipKey)) = .ok d ∧
            d.Hash = bc.db.Get tipKey) := by
  refine ⟨Reachable_pointer reg bc, fun h => ?_⟩
  have hp := Reachable_pointer reg bc (ReachableSound_reachable reg bc h)
  rw [hp]
  exact ⟨rfl, ReachableSound_tip reg bc h⟩

/-- C22, amended, at the fresh chain. -/
theorem tip_pointer_names_tip_witness :
    freshChain.db.Get tipKey = freshChain.tip ∧
      ∃ d, DeserializeBlock (freshChain.db.Get (freshChain.db.Get tipKey)) = .ok d ∧
        d.Hash = freshChain.db.Get tipKey :=
  (tip_pointer_names_tip registryInOrder freshChain).2 (.create 1700000885 (by decide))

/-- C23. The sealing search starts at nonce 0 and stops at the first success:
whenever `Run` ends with a nonce n below `maxNonce`, so that the search was not
used up, the block it leaves is the block it was given with nonce n, n is not
negative, the digest of `prepareData` at n is below the target, the returned
hash is that digest, and at every nonce m with 0 <= m < n (same timestamp,
predecessor hash and transactions) the digest is not below the target. -/
theorem Run_stops_at_least_nonce (reg : Gob.Registry) (pow : ProofOfWork)
    (hn : (pow.Run reg).2.Nonce < maxNonce) :
    0 ≤ (pow.Run reg).2.Nonce ∧
      (pow.Run reg).2 = { pow.block with Nonce := (pow.Run reg).2.Nonce } ∧
      beNat (SHA256.Sum256 ((pow.Run reg).2.prepareData reg)) < pow.target ∧
      (pow.Run reg).1 = SHA256.Sum256 ((pow.Run reg).2.prepareData reg) ∧
      ∀ m : Nat, (m : Int) < (pow.Run reg).2.Nonce →
        ¬ beNat (SHA256.Sum256
          (({ pow.block with Nonce := (m : Int) } : Block).prepareData reg)) < pow.target := by
  obtain ⟨h1, h2, h3⟩ := runLoop_least reg pow.target maxNonce.toNat
    { pow.block with Nonce := 0 } (List.replicate 32 (byte 0))
  obtain ⟨h4, h5⟩ := runLoop_stopped reg pow.target maxNonce.toNat
    { pow.block with Nonce := 0 } (List.replicate 32 (byte 0))
    (show maxNonce ≤ (0 : Int) + ((maxNonce.toNat : Nat) : Int) by decide) hn
  refine ⟨h2, h1, h5, h4, ?_⟩
  intro m hm
  have := h3 m (by simpa only [zero_add] using hm)
  simpa only [zero_add] using this

/-- C23 at the genesis candidate of the clock reading 1700004738: the search
ends at nonce 1, and the digest at nonce 0 is not below the target. -/
theorem Run_stops_at_least_nonce_witness :
    ((NewProofOfWork
        ⟨1700004738, [], [.genesis ⟨ascii "GENESIS BLOCK"⟩], [], [], 0⟩).Run
          registryInOrder).2.Nonce = 1 ∧
      ¬ beNat (SHA256.Sum256
        ((⟨1700004738, [], [.genesis ⟨ascii "GENESIS BLOCK"⟩], [], [], ((0 : Nat) : Int)⟩ :
          Block).prepareData registryInOrder)) < 2 ^ 244 :=
  have h := Run_stops_at_least_nonce registryInOrder
    (NewProofOfWork ⟨1700004738, [], [.genesis ⟨ascii "GENESIS BLOCK"⟩], [], [], 0⟩)
    (by rw [slowGenesis_run]; decide)
  ⟨by rw [slowGenesis_run], h.2.2.2.2 0 (by rw [slowGenesis_run]; decide)⟩

/-- C24. The prepared data separates single-field changes, whatever the hash
function: two blocks with the same transactions that differ in exactly one of
`PrevBlockHash`, `Timestamp` and `Nonce` and agree on the other two have
different `prepareData`. -/
theorem prepareData_separates (reg : Gob.Registry) (b1 b2 : Block)
    (htx : b1.Transactions = b2.Transactions)
    (hone : (b1.PrevBlockHash ≠ b2.PrevBlockHash ∧ b1.Timestamp = b2.Timestamp ∧
        b1.Nonce = b2.Nonce) ∨
      (b1.PrevBlockHash = b2.PrevBlockHash ∧ b1.Timestamp ≠ b2.Timestamp ∧
        b1.Nonce = b2.Nonce) ∨
      (b1.PrevBlockHash = b2.PrevBlockHash ∧ b1.Timestamp = b2.Timestamp ∧
        b1.Nonce ≠ b2.Nonce)) :
    b1.prepareData reg ≠ b2.prepareData reg := by
  intro e
  rw [prepareData_concat, prepareData_concat, htx] at e
  rcases hone with ⟨hp, ht, hn⟩ | ⟨hp, ht, hn⟩ | ⟨hp, ht, hn⟩
  · rw [ht, hn, List.append_assoc, List.append_assoc, List.append_assoc, List.append_assoc] at e
    exact hp (List.append_cancel_right e)
  · rw [hp, hn, List.append_assoc, List.append_assoc, List.append_assoc, List.append_assoc] at e
    have e2 := List.append_cancel_left e
    exact ht (FormatInt_injective (List.append_cancel_right e2))
  · rw [hp, ht] at e
    have e2 := List.append_cancel_right e
    have e3 := List.append_cancel_left e2
    exact hn (FormatInt_injective e3)

/-- C24 at two blocks that differ in `PrevBlockHash` only, "1" and "12". -/
theorem prepareData_separates_witness :
    (⟨1700000885, [], [.genesis ⟨ascii "GENESIS BLOCK"⟩], ascii "1", [], 23⟩ :
        Block).prepareData registryInOrder ≠
      (⟨1700000885, [], [.genesis ⟨ascii "GENESIS BLOCK"⟩], ascii "12", [], 23⟩ :
        Block).prepareData registryInOrder :=
  prepareData_separates registryInOrder _ _ rfl (Or.inl ⟨by decide, rfl, rfl⟩)

/-- C25. The sale path appends a block only when its guards pass: whenever
`addVehicleSale` ends normally for VIN `vin` and dealer `dealer`, having reached
`AddBlock`, `FindLatestOwnerByVIN(vin)` on the chain before the append succeeded
and returned exactly the bytes of `dealer`, `hasActiveLoan(vin)` on that chain
was false, and the chain is that chain with the one sale appended; in every
other case, so when the VIN is unknown, the dealer is not the latest owner or
there is an active loan, the chain is left as it was. -/
theorem sale_appends_only_past_guards (reg : Gob.Registry) (now currentTime : Int) (cli : CLI)
    (vin dealer buyer : Bytes) (date : Option Int) (price : Int) (fuel : Nat)
    (bc2 : Blockchain) (r : Outcome Unit)
    (h : cli.addVehicleSale reg now currentTime vin dealer buyer date price fuel =
      some (bc2, r)) :
    (r = .ok () →
        cli.bc.FindLatestOwnerByVIN vin fuel = some (.ok dealer) ∧
          cli.hasActiveLoan currentTime vin fuel = some (.ok false) ∧
          ∃ saleDate, date = some saleDate ∧
            bc2 = cli.bc.AddBlock reg now [.sale ⟨vin, dealer, buyer, saleDate, price⟩]) ∧
      (r ≠ .ok () → bc2 = cli.bc) ∧
      (((∃ msg, cli.bc.FindLatestOwnerByVIN vin fuel = some (.error msg)) ∨
          (∃ owner, cli.bc.FindLatestOwnerByVIN vin fuel = some (.ok owner) ∧ owner ≠ dealer) ∨
          cli.hasActiveLoan currentTime vin fuel = some (.ok true)) →
        r ≠ .ok () ∧ bc2 = cli.bc) := by
  unfold CLI.addVehicleSale at h
  split_ifs at h with c1 c2 c3
  · simp only [Option.some.injEq, Prod.mk.injEq] at h
    obtain ⟨rfl, rfl⟩ := h
    simp
  · simp only [Option.some.injEq, Prod.mk.injEq] at h
    obtain ⟨rfl, rfl⟩ := h
    simp
  · simp only [Option.some.injEq, Prod.mk.injEq] at h
    obtain ⟨rfl, rfl⟩ := h
    simp
  · cases date with
    | none =>
      simp only [Option.some.injEq, Prod.mk.injEq] at h
      obtain ⟨rfl, rfl⟩ := h
      simp
    | some saleDate =>
      simp only at h
      cases hf : cli.bc.FindLatestOwnerByVIN vin fuel with
      | none => simp [hf] at h
      | some fo =>
        cases fo with
        | panic =>
          simp only [hf, Option.some.injEq, Prod.mk.injEq] at h
          obtain ⟨rfl, rfl⟩ := h
          simp
        | error msg =>
          simp only [hf, Option.some.injEq, Prod.mk.injEq] at h
          obtain ⟨rfl, rfl⟩ := h
          simp
        | ok owner =>
          simp only [hf] at h
          split_ifs at h with c4
          · simp only [Option.some.injEq, Prod.mk.injEq] at h
            obtain ⟨rfl, rfl⟩ := h
            simp
          · have ho : owner = dealer := not_not.mp c4
            subst ho
            cases hl : cli.hasActiveLoan currentTime vin fuel with
            | none => simp [hl] at h
            | some lo =>
              cases lo with
              | panic =>
                simp only [hl, Option.some.injEq, Prod.mk.injEq] at h
                obtain ⟨rfl, rfl⟩ := h
                simp
              | error msg =>
                simp only [hl, Option.some.injEq, Prod.mk.injEq] at h
                obtain ⟨rfl, rfl⟩ := h
                simp
              | ok active =>
                cases active with
                | true =>
                  simp only [hl, Option.some.injEq, Prod.mk.injEq] at h
                  obtain ⟨rfl, rfl⟩ := h
                  simp
                | false =>
                  simp only [hl, Option.some.injEq, Prod.mk.injEq] at h
                  obtain ⟨rfl, rfl⟩ := h
                  simp

/-- C25 at the sale of V1 by Bob to Dave on the ownership chain. -/
theorem sale_appends_only_past_guards_witness :
    (CLI.mk ownershipChain).bc.FindLatestOwnerByVIN (ascii "V1") 3 =
        some (.ok (ascii "Bob")) ∧
      (CLI.mk ownershipChain).hasActiveLoan 1700300000 (ascii "V1") 3 = some (.ok false) :=
  have h := (sale_appends_only_past_guards registryInOrder 1700400000 1700300000
    (CLI.mk ownershipChain) (ascii "V1") (ascii "Bob") (ascii "Dave") (some 1700000000) 200 3
    _ _
    (addVehicleSale_appends registryInOrder 1700400000 1700300000 (CLI.mk ownershipChain)
      (ascii "V1") (ascii "Bob") (ascii "Dave") 1700000000 200 3 (by decide) (by decide)
      (by decide) (by decide) ownershipChain_owner (ownershipChain_no_loan 1700300000))).1 rfl
  ⟨h.1, h.2.1⟩

/-- C26 fails on the code: on the fresh chain the confirmation of a block that
names the key "l" as its predecessor and has, as its `Hash`, the encoded form
of a block with a loan on V2 that ends at 1900000000 is accepted; the walk then
reads that loan block under "l" and `hasActiveLoan` for V2 at 1800000000 is
true.  After one `AddBlock`, of the registration of V3, the key "l" holds the
32-byte hash of the new block, which decodes to no block: `Next` panics there,
and `hasActiveLoan` returns true for no fuel. -/
theorem confirmed_loan_is_lost_by_append :
    handleBlockCreationConfirmation registryInOrder freshChain
        (some (loanCarrierBlock.Serialize registryInOrder)) = .ok loanCarrierChain ∧
      (CLI.mk loanCarrierChain).hasActiveLoan 1800000000 (ascii "V2") 3 = some (.ok true) ∧
      (CLI.mk (loanCarrierChain.AddBlock registryInOrder 1700402908
        [.registration ⟨ascii "V3", ascii "Dana", 1600000000⟩])).hasActiveLoan 1800000000
          (ascii "V2") 3 = some .panic ∧
      ∀ fuel : Nat, (CLI.mk (loanCarrierChain.AddBlock registryInOrder 1700402908
        [.registration ⟨ascii "V3", ascii "Dana", 1600000000⟩])).hasActiveLoan 1800000000
          (ascii "V2") fuel ≠ some (.ok true) := by
  have h3 : (CLI.mk (loanCarrierChain.AddBlock registryInOrder 1700402908
      [.registration ⟨ascii "V3", ascii "Dana", 1600000000⟩])).hasActiveLoan 1800000000
        (ascii "V2") 3 = some .panic := by
    rw [loanCarrierChain_appended]
    decide
  refine ⟨?_, ?_, h3, ?_⟩
  · rw [loanCarrierChain_eq, freshChain_eq]
    decide
  · rw [loanCarrierChain_eq]
    decide
  · intro fuel h
    have h1 := activeLoanLoop_fuel (ascii "V2") 1800000000 fuel _ _ 3 h
    have h2 := activeLoanLoop_fuel (ascii "V2") 1800000000 3 _ _ fuel h3
    rw [Nat.add_comm] at h1
    rw [h1] at h2
    exact absurd h2 (by decide)

/-- C26, amended.  An active loan is not cleared by appending: for every chain
made by `NewBlockchain` in an empty database and `AddBlock` calls alone, every
`vin` and every fixed reference time `asOf`, if `hasActiveLoan(vin)` is true
then it is still true, for the same `asOf`, after any further sequence of
`AddBlock` calls with any transactions.  The clock readings are 64-bit, the transactions well formed,
the encoded blocks within the 2^31 - 2 bytes of a value of the store, the block
hashes pairwise distinct, and the fuel of the second query covers the chain. -/
theorem active_loan_survives_appends (reg : Gob.Registry) (now : Int)
    (steps more : List (Int × List Transaction)) (vin : Bytes) (asOf : Int) (fuel fuel2 : Nat)
    (hnow : isInt64 now)
    (hsteps : ∀ s ∈ steps ++ more, isInt64 s.1 ∧ ∀ tx ∈ s.2, tx.WellFormed)
    (hsize : ∀ b ∈ blocksOf reg now (steps ++ more), (b.Serialize reg).length ≤ 2 ^ 31 - 2)
    (hdistinct : ((blocksOf reg now (steps ++ more)).map Block.Hash).Nodup)
    (hfuel : steps.length + more.length + 1 ≤ fuel2)
    (h : (CLI.mk (chainOf reg now steps)).hasActiveLoan asOf vin fuel = some (.ok true)) :
    (CLI.mk ((chainOf reg now steps).AddBlocks reg more)).hasActiveLoan asOf vin fuel2 =
      some (.ok true) := by
  have hsuf : List.IsSuffix (blocksOf reg now steps) (blocksOf reg now (steps ++ more)) := by
    rw [blocksOf, blocksOf, extendBlocks_append]
    exact extendBlocks_suffix reg more _
  have hfull := chainOf_stores reg now (steps ++ more) hnow hsteps
    (fun b hb => by have := hsize b hb; omega) hdistinct
  have hold := chainOf_stores reg now steps hnow
    (fun s hs => hsteps s (List.mem_append_left _ hs))
    (fun b hb => by have := hsize b (hsuf.subset hb); omega)
    (hdistinct.sublist (hsuf.sublist.map _))
  rw [chainOf, AddBlocks_append] at hfull
  obtain ⟨r1, hr1, hiff1⟩ := hasActiveLoan_of_stores reg _ _ hold vin asOf 0
  obtain ⟨r2, hr2, hiff2⟩ := hasActiveLoan_of_stores reg _ _ hfull vin asOf
    (fuel2 - (blocksOf reg now (steps ++ more)).length)
  have hlen : (blocksOf reg now (steps ++ more)).length = steps.length + more.length + 1 := by
    rw [blocksOf, extendBlocks_length, List.length_singleton, List.length_append]
    omega
  rw [show (blocksOf reg now (steps ++ more)).length +
      (fuel2 - (blocksOf reg now (steps ++ more)).length) = fuel2 by omega] at hr2
  have e1 := activeLoanLoop_fuel vin asOf _ _ _ ((blocksOf reg now steps).length + 0) h
  have e2 := activeLoanLoop_fuel vin asOf _ _ _ fuel hr1
  simp only [CLI.hasActiveLoan] at e1 e2
  rw [Nat.add_comm] at e2
  rw [e1] at e2
  have ht : r1 = true := by
    simp only [Option.some.injEq, Outcome.ok.injEq] at e2
    exact e2.symm
  obtain ⟨b, hb, tx, htx, ha⟩ := hiff1.mp ht
  have ht2 : r2 = true := hiff2.mpr ⟨b, hsuf.subset hb, tx, htx, ha⟩
  rw [ht2] at hr2
  exact hr2

/-- C26, amended, at the loan chain and the append of the past loan. -/
theorem active_loan_survives_appends_witness :
    (CLI.mk loanChainPast).hasActiveLoan 1700000000 (ascii "V2") 4 = some (.ok true) :=
  active_loan_survives_appends registryInOrder 1700000885
    [(1700102743, [.registration ⟨ascii "V2", ascii "Carl", 1600000000⟩]),
      (1700200059,
        [.loan ⟨ascii "V2", ascii "Carl", ascii "Bank", 5000, 1600000000, 1900000000⟩])]
    [(1700300874,
      [.loan ⟨ascii "V2", ascii "Carl", ascii "Bank", 5000, 1500000000, 1600000000⟩])]
    (ascii "V2") 1700000000 3 4 (by decide) (by decide)
    (by rw [loanChainPast_blocks]; decide) (by rw [loanChainPast_blocks]; decide) (by decide)
    loanChain_active
